import Mathlib

/-!
# A conservative mark-and-sweep collector over a free-list allocator

Shallow embedding of `gc.c` / `gc.h` and of the driver `main.c`.

* Memory is a map from byte addresses to 64-bit words; every access the program
  makes is a `size_t` / pointer sized access.  A `header_t` at address `b` keeps
  `size` in the word at `b` and `next` in the word at `b + 8`
  (`sizeof(header_t) = 16`).  Two accesses at addresses less than 8 apart are not
  modelled as overlapping; the headers and scanned words of a well-formed state
  never are.
* `NULL` is the address `0`; reading through `NULL` is not a trap here, the word
  at `0` is read like any other.
* `sbrk` is a parameter: a function from the requested byte count to the start of
  the granted region, `none` standing for `(void *)-1`.  The state keeps a log of
  the requests made.
* `size_t` / `uintptr_t` arithmetic is arithmetic on `Nat` reduced modulo `2 ^ 64`.
* Every `while` / `for` loop of the source is a structurally recursive function
  on a step budget; running out of budget yields `none`.  A function with inner
  loops takes the budget `f` handed to each of them as a parameter.
* What `get_stack_pointer` reads from the machine (stack pointer register, thread
  attributes) is a `StackEnv` parameter.
* `printf` calls have no effect on the collector state and are left out.
-/

namespace GC

/-- The 64-bit word stored at each byte address. -/
abbrev Mem := Nat → Nat

/-- Number of values of `size_t` / `uintptr_t`, that is `SIZE_MAX + 1`. -/
@[reducible] def W : Nat := 2 ^ 64

/-- The constant `sizeof(header_t)`: a `size_t` and a pointer. -/
@[reducible] def HDR : Nat := 16

/-- The constant `MARKED_MASK` of `gc.h`. -/
@[reducible] def MARKED_MASK : Nat := 1

/-- The constant `MIN_PAGE_SIZE` of `gc.h`. -/
@[reducible] def MIN_PAGE_SIZE : Nat := 4096

/-- The value of `~MARKED_MASK` once converted to `uintptr_t`. -/
@[reducible] def NOT_MARKED_MASK : Nat := W - 1 - MARKED_MASK

/-- Store of one word. -/
def Mem.write (m : Mem) (a v : Nat) : Mem := fun x => if x = a then v else m x

/-- The file-scope variables of `gc.c` together with the memory they point into.
`empty` is the address `&empty` of the free-list sentinel, `sbrk_log` records the
byte counts passed to `sbrk` so far (oldest first). -/
structure State where
  mem : Mem
  empty : Nat
  free_list : Nat
  used_list : Nat
  stack_start : Nat
  stack_end : Nat
  initialized : Nat
  sbrk_log : List Nat

/-- What `get_stack_pointer` observes of the calling thread: the stack pointer
register, whether `pthread_getattr_np` and `pthread_attr_getstack` succeed, and
the stack address and size they report. -/
structure StackEnv where
  sp : Nat
  getattr_ok : Bool
  getstack_ok : Bool
  stack_addr : Nat
  stack_size : Nat

/-- The macro `IS_ALIGNED(p)`: `p % sizeof(void *) == 0`. -/
def IS_ALIGNED (p : Nat) : Bool := p % 8 == 0

/-- Source `is_pointer_valid`. -/
def is_pointer_valid (p : Nat) : Bool :=
  IS_ALIGNED p && decide (p ≥ 0x1000) && decide (p < 0x7fffffffffff)

/-- Source `set_marked`: or the mask into a non-null `next`. -/
def set_marked (m : Mem) (block : Nat) : Mem :=
  if block ≠ 0 ∧ m (block + 8) ≠ 0 then
    m.write (block + 8) (m (block + 8) ||| MARKED_MASK)
  else m

/-- Source `clear_marked`: and the inverted mask into a non-null `next`. -/
def clear_marked (m : Mem) (block : Nat) : Mem :=
  if block ≠ 0 ∧ m (block + 8) ≠ 0 then
    m.write (block + 8) (m (block + 8) &&& NOT_MARKED_MASK)
  else m

/-- Source `is_marked`. -/
def is_marked (m : Mem) (block : Nat) : Bool :=
  decide (block ≠ 0) && decide (m (block + 8) ≠ 0) &&
    decide (m (block + 8) &&& MARKED_MASK ≠ 0)

/-- Source `get_actual_pointer`. -/
def get_actual_pointer (m : Mem) (block : Nat) : Nat :=
  if block ≠ 0 then m (block + 8) &&& NOT_MARKED_MASK else 0

/-- Source `is_adjacent`: `(char *)first + first->size * sizeof(header_t) == (char *)second`. -/
def is_adjacent (m : Mem) (first second : Nat) : Bool :=
  (first + (m first * HDR) % W) % W == second

/-- The position search of `add_to_free_list`:
`while (curr != &empty && curr < block) { prev = curr; curr = curr->next; }`.
Returns the final `(prev, curr)`. -/
def find_insert_pos (m : Mem) (E block : Nat) : Nat → Nat → Nat → Option (Nat × Nat)
  | 0, _, _ => none
  | fuel + 1, prev, curr =>
    if curr ≠ E ∧ curr < block then find_insert_pos m E block fuel curr (m (curr + 8))
    else some (prev, curr)

/-- The first coalescing case of `add_to_free_list`
(`if (prev && is_adjacent(prev, block)) ... else if (prev) ... else ...`), run once
the search has stopped; `m0` already has `block->next = NULL`.  Returns the
memory, the value of `free_list` and the value of `block` afterwards. -/
def link_prev (m0 : Mem) (free_list block prev : Nat) : Mem × Nat × Nat :=
  if prev ≠ 0 ∧ is_adjacent m0 prev block = true then
    (m0.write prev ((m0 prev + m0 block) % W), free_list, prev)
  else if prev ≠ 0 then
    (m0.write (prev + 8) block, free_list, block)
  else
    (m0, block, block)

/-- The second coalescing case of `add_to_free_list`
(`if (curr != &empty && is_adjacent(block, curr)) ... else ...`). -/
def link_next (m1 : Mem) (E block curr : Nat) : Mem :=
  if curr ≠ E ∧ is_adjacent m1 block curr = true then
    let m1a := m1.write block ((m1 block + m1 curr) % W)
    m1a.write (block + 8) (m1a (curr + 8))
  else
    m1.write (block + 8) curr

/-- Both coalescing cases of `add_to_free_list` in sequence: the memory and the
value of `free_list` afterwards. -/
def link_block (m0 : Mem) (E free_list block prev curr : Nat) : Mem × Nat :=
  let r1 := link_prev m0 free_list block prev
  (link_next r1.1 E r1.2.2 curr, r1.2.1)

/-- Source `add_to_free_list`. -/
def add_to_free_list (fuel : Nat) (block : Nat) (s : State) : Option State :=
  if block = 0 then some s
  else
    let m0 := s.mem.write (block + 8) 0
    if s.free_list = s.empty then
      some { s with mem := m0.write (block + 8) s.empty, free_list := block }
    else
      match find_insert_pos m0 s.empty block fuel 0 s.free_list with
      | none => none
      | some (prev, curr) =>
        let r := link_block m0 s.empty s.free_list block prev curr
        some { s with mem := r.1, free_list := r.2 }

/-- Source `split_block`: the returned pointer and the memory after the call. -/
def split_block (m : Mem) (block size : Nat) : Nat × Mem :=
  if block = 0 ∨ m block ≤ size then (block, m)
  else if m block - size > 1 then
    let new_block := (block + (size * HDR) % W) % W
    let m1 := m.write new_block (m block - size)
    let m2 := m1.write block size
    (new_block, m2)
  else (0, m)

/-- The byte count `get_more_memory(size)` passes to `sbrk`:
`size * sizeof(header_t)` in `size_t`, raised to `MIN_PAGE_SIZE` when smaller. -/
def alloc_bytes (size : Nat) : Nat :=
  let alloc_size := (size * HDR) % W
  if alloc_size < MIN_PAGE_SIZE then MIN_PAGE_SIZE else alloc_size

/-- Source `get_more_memory`; `sbrk` answers a request of so many bytes with the
start of the new region, or `none` for `(void *)-1`. -/
def get_more_memory (sbrk : Nat → Option Nat) (size : Nat) (s : State) : Nat × State :=
  let alloc_size := alloc_bytes size
  let s1 : State := { s with sbrk_log := s.sbrk_log ++ [alloc_size] }
  match sbrk alloc_size with
  | none => (0, s1)
  | some block =>
    (block, { s1 with mem := (s1.mem.write block (alloc_size / HDR)).write (block + 8) 0 })

/-- The first-fit search of `gc_alloc`:
`while (curr != &empty && curr->size < total_size) { prev = curr; curr = curr->next; }`. -/
def find_fit (m : Mem) (E total_size : Nat) : Nat → Nat → Nat → Option (Nat × Nat)
  | 0, _, _ => none
  | fuel + 1, prev, curr =>
    if curr ≠ E ∧ m curr < total_size then find_fit m E total_size fuel curr (m (curr + 8))
    else some (prev, curr)

/-- The part of `gc_alloc` from `// Remove from free list` to the `return`:
unlink `curr`, split it, push it on the used list, return the payload address. -/
def take_block (fuel total_size prev curr : Nat) (s : State) : Option (Nat × State) :=
  let s1 : State :=
    if prev ≠ 0 then { s with mem := s.mem.write (prev + 8) (s.mem (curr + 8)) }
    else { s with free_list := s.mem (curr + 8) }
  let r := split_block s1.mem curr total_size
  let s2 : State := { s1 with mem := r.2 }
  match (if r.1 ≠ 0 then add_to_free_list fuel r.1 s2 else some s2) with
  | none => none
  | some s3 =>
    some ((curr + HDR) % W,
      { s3 with mem := s3.mem.write (curr + 8) s3.used_list, used_list := curr })

/-- The expression `(size + sizeof(header_t) - 1) / sizeof(header_t) + 1` in `size_t`. -/
def total_units (size : Nat) : Nat := ((size + HDR - 1) % W / HDR + 1) % W

/-- Source `gc_alloc`: the returned pointer (`0` for `NULL`) and the new state. -/
def gc_alloc (sbrk : Nat → Option Nat) (fuel : Nat) (size : Nat) (s : State) :
    Option (Nat × State) :=
  if size = 0 then some (0, s)
  else
    let total_size := total_units size
    match find_fit s.mem s.empty total_size fuel 0 s.free_list with
    | none => none
    | some (prev, curr) =>
      if curr = s.empty then
        let r := get_more_memory sbrk total_size s
        if r.1 = 0 then some (0, r.2)
        else
          match add_to_free_list fuel r.1 r.2 with
          | none => none
          | some s2 => take_block fuel total_size 0 s2.free_list s2
      else take_block fuel total_size prev curr s

/-- First address past the header of `block`: `(void *)(block + 1)`. -/
def payload_start (block : Nat) : Nat := (block + HDR) % W

/-- The expression `(char *)block_start + (block->size - 1) * sizeof(header_t)`. -/
def payload_end (m : Mem) (block : Nat) : Nat :=
  (payload_start block + (((m block + W - 1) % W) * HDR) % W) % W

/-- The inner `for` loop of `scan_range` for one candidate word `v`: mark the
first used block whose payload range contains `v`. -/
def mark_containing (v : Nat) : Nat → Mem → Nat → Option Mem
  | 0, _, _ => none
  | fuel + 1, m, block =>
    if block = 0 then some m
    else if v ≥ payload_start block ∧ v < payload_end m block then some (set_marked m block)
    else mark_containing v fuel m (get_actual_pointer m block)

/-- The `while (curr < limit)` loop of `scan_range`. -/
def scan_words (f used_list limit : Nat) : Nat → Mem → Nat → Option Mem
  | 0, _, _ => none
  | fuel + 1, m, curr =>
    if curr < limit then
      if is_pointer_valid (m curr) = true then
        match mark_containing (m curr) f m used_list with
        | none => none
        | some m1 => scan_words f used_list limit fuel m1 ((curr + 8) % W)
      else scan_words f used_list limit fuel m ((curr + 8) % W)
    else some m

/-- Source `scan_range`. -/
def scan_range (f : Nat) (start limit : Nat) (s : State) : Option State :=
  if start = 0 ∨ limit = 0 ∨ start ≥ limit then some s
  else
    match scan_words f s.used_list limit f s.mem start with
    | none => none
    | some m => some { s with mem := m }

/-- The `for` loop of `scan_heap`. -/
def scan_blocks (f : Nat) : Nat → State → Nat → Option State
  | 0, _, _ => none
  | fuel + 1, s, block =>
    if block = 0 then some s
    else
      match scan_range f (payload_start block) (payload_end s.mem block) s with
      | none => none
      | some s1 => scan_blocks f fuel s1 (get_actual_pointer s1.mem block)

/-- Source `scan_heap`. -/
def scan_heap (f : Nat) (s : State) : Option State := scan_blocks f f s s.used_list

/-- Source `get_stack_pointer`. -/
def get_stack_pointer (env : StackEnv) (s : State) : State :=
  if env.getattr_ok = false then s
  else if env.getstack_ok = false then s
  else { s with stack_start := env.sp, stack_end := (env.stack_addr + env.stack_size) % W }

/-- The first statement of `gc`: `if (!initialized) { initialized = 1; get_stack_pointer(); }`. -/
def gc_init (env : StackEnv) (s : State) : State :=
  if s.initialized = 0 then get_stack_pointer env { s with initialized := 1 } else s

/-- The test `stack_start == 0 || stack_end == 0 || stack_start >= stack_end` of `gc`. -/
def gc_skips (s : State) : Prop :=
  s.stack_start = 0 ∨ s.stack_end = 0 ∨ s.stack_start ≥ s.stack_end

instance (s : State) : Decidable (gc_skips s) := by unfold gc_skips; infer_instance

/-- The `// Clear all marks first` loop of `gc`. -/
def clear_marks : Nat → Mem → Nat → Option Mem
  | 0, _, _ => none
  | fuel + 1, m, block =>
    if block = 0 then some m
    else
      let m1 := clear_marked m block
      clear_marks fuel m1 (get_actual_pointer m1 block)

/-- The `// Sweep phase` loop of `gc`. -/
def sweep (f : Nat) : Nat → State → Nat → Nat → Option State
  | 0, _, _, _ => none
  | fuel + 1, s, prev, curr =>
    if curr = 0 then some s
    else
      let next := get_actual_pointer s.mem curr
      if is_marked s.mem curr = false then
        let s1 : State :=
          if prev = 0 then { s with used_list := next }
          else { s with mem := s.mem.write (prev + 8) next }
        match add_to_free_list f curr s1 with
        | none => none
        | some s2 => sweep f fuel s2 prev next
      else
        sweep f fuel { s with mem := clear_marked s.mem curr } curr next

/-- The four phases of `gc` that follow the `Invalid stack pointers` test:
clear all marks, scan the stack range, scan the heap, sweep. -/
def gc_cycle (f : Nat) (s1 : State) : Option State :=
  match clear_marks f s1.mem s1.used_list with
  | none => none
  | some m1 =>
    match scan_range f s1.stack_start s1.stack_end { s1 with mem := m1 } with
    | none => none
    | some s2 =>
      match scan_heap f s2 with
      | none => none
      | some s3 => sweep f f s3 0 s3.used_list

/-- Source `gc`. -/
def gc (env : StackEnv) (f : Nat) (s : State) : Option State :=
  let s1 := gc_init env s
  if gc_skips s1 then some s1 else gc_cycle f s1

/-- A list walk that only reads (and prints): from `curr`, follow `next` until
`stop` is reached. -/
def walk (next : Nat → Nat) (stop : Nat) : Nat → Nat → Option Unit
  | 0, _ => none
  | fuel + 1, curr => if curr = stop then some () else walk next stop fuel (next curr)

/-- Source `print_lists`: both loops follow the raw `next` word. -/
def print_lists (f : Nat) (s : State) : Option State :=
  match walk (fun c => s.mem (c + 8)) 0 f s.used_list with
  | none => none
  | some _ =>
    match walk (fun c => s.mem (c + 8)) s.empty f s.free_list with
    | none => none
    | some _ => some s

/-- Source `gc_destroy`: walk the used list (through `get_actual_pointer`), set
`used_list = NULL`, walk the free list, set `free_list = &empty`. -/
def gc_destroy (f : Nat) (s : State) : Option State :=
  match walk (fun c => get_actual_pointer s.mem c) 0 f s.used_list with
  | none => none
  | some _ =>
    let s1 : State := { s with used_list := 0 }
    match walk (fun c => s1.mem (c + 8)) s1.empty f s1.free_list with
    | none => none
    | some _ => some { s1 with free_list := s1.empty }

/-! ## Abstraction of the two lists -/

/-- The chain of `next` links from `p` runs through exactly the entries `l`
(address, size in header units) and then reaches the sentinel `E`. -/
def FreeChain (m : Mem) (E : Nat) : Nat → List (Nat × Nat) → Prop
  | p, [] => p = E
  | p, e :: t => p = e.1 ∧ m e.1 = e.2 ∧ FreeChain m E (m (e.1 + 8)) t

/-- Decision procedure for `FreeChain`. -/
def FreeChain.dec (m : Mem) (E : Nat) : (p : Nat) → (l : List (Nat × Nat)) →
    Decidable (FreeChain m E p l)
  | p, [] => inferInstanceAs (Decidable (p = E))
  | p, e :: t =>
    have := FreeChain.dec m E (m (e.1 + 8)) t
    inferInstanceAs (Decidable (p = e.1 ∧ m e.1 = e.2 ∧ FreeChain m E (m (e.1 + 8)) t))

instance (m : Mem) (E p : Nat) (l : List (Nat × Nat)) : Decidable (FreeChain m E p l) :=
  FreeChain.dec m E p l

/-- A fully coalesced address-ordered list of blocks, all at or above `lo`:
every entry is a non-null block of at least one unit whose extent does not wrap
and does not touch the sentinel, and every entry starts strictly past the end of
the one before it (so consecutive entries neither overlap nor are byte-adjacent). -/
def FreeOK (E : Nat) : Nat → List (Nat × Nat) → Prop
  | _, [] => True
  | lo, e :: t =>
    lo ≤ e.1 ∧ 1 ≤ e.2 ∧ e.1 + 16 * e.2 < W ∧ (E + 16 ≤ e.1 ∨ e.1 + 16 * e.2 ≤ E) ∧
      FreeOK E (e.1 + 16 * e.2 + 1) t

/-- Decision procedure for `FreeOK`. -/
def FreeOK.dec (E : Nat) : (lo : Nat) → (l : List (Nat × Nat)) → Decidable (FreeOK E lo l)
  | _, [] => inferInstanceAs (Decidable True)
  | lo, e :: t =>
    have := FreeOK.dec E (e.1 + 16 * e.2 + 1) t
    inferInstanceAs (Decidable (lo ≤ e.1 ∧ 1 ≤ e.2 ∧ e.1 + 16 * e.2 < W ∧
      (E + 16 ≤ e.1 ∨ e.1 + 16 * e.2 ≤ E) ∧ FreeOK E (e.1 + 16 * e.2 + 1) t))

instance (E lo : Nat) (l : List (Nat × Nat)) : Decidable (FreeOK E lo l) := FreeOK.dec E lo l

/-- The chain of (unmasked) `next` links from `p` runs through exactly the
blocks `l` and then reaches `NULL`. -/
def UsedChain (m : Mem) : Nat → List Nat → Prop
  | p, [] => p = 0
  | p, a :: t => p = a ∧ a ≠ 0 ∧ UsedChain m (get_actual_pointer m a) t

/-- Decision procedure for `UsedChain`. -/
def UsedChain.dec (m : Mem) : (p : Nat) → (l : List Nat) → Decidable (UsedChain m p l)
  | p, [] => inferInstanceAs (Decidable (p = 0))
  | p, a :: t =>
    have := UsedChain.dec m (get_actual_pointer m a) t
    inferInstanceAs (Decidable (p = a ∧ a ≠ 0 ∧ UsedChain m (get_actual_pointer m a) t))

instance (m : Mem) (p : Nat) (l : List Nat) : Decidable (UsedChain m p l) := UsedChain.dec m p l

/-- Byte `x` lies in the extent of some entry of `l`. -/
def Cov (l : List (Nat × Nat)) (x : Nat) : Prop := ∃ e ∈ l, e.1 ≤ x ∧ x < e.1 + 16 * e.2

/-- Right coalescing step on the abstract list: `x` absorbs the entry after it
when that entry starts at the end of `x`. -/
def mergeNext (x : Nat × Nat) : List (Nat × Nat) → List (Nat × Nat)
  | [] => [x]
  | c :: t => if x.1 + 16 * x.2 = c.1 then (x.1, x.2 + c.2) :: t else x :: c :: t

/-- Insertion of the block `(b, sz)` between the entry `p` and the entries `t`. -/
def place (b sz : Nat) (p : Nat × Nat) (t : List (Nat × Nat)) : List (Nat × Nat) :=
  if p.1 + 16 * p.2 = b then mergeNext (p.1, p.2 + sz) t else p :: mergeNext (b, sz) t

/-- Insertion of `(b, sz)` somewhere after the entry `p`, whose address is below `b`. -/
def insertAfter (b sz : Nat) : Nat × Nat → List (Nat × Nat) → List (Nat × Nat)
  | p, [] => place b sz p []
  | p, c :: t => if c.1 < b then p :: insertAfter b sz c t else place b sz p (c :: t)

/-- What `add_to_free_list` does to the list of free entries. -/
def insertFree (b sz : Nat) : List (Nat × Nat) → List (Nat × Nat)
  | [] => [(b, sz)]
  | c :: t => if c.1 < b then insertAfter b sz c t else mergeNext (b, sz) (c :: t)

/-- What the sweep does to the list of free entries: the unmarked blocks among
`ul` are inserted in list order (`mk` gives the mark, `sz` the size of a block). -/
def sweepFree (mk : Nat → Bool) (sz : Nat → Nat) : List Nat → List (Nat × Nat) → List (Nat × Nat)
  | [], l => l
  | a :: t, l => if mk a = true then sweepFree mk sz t l else sweepFree mk sz t (insertFree a (sz a) l)

/-- The state of a freshly started program: `free_list = &empty`, `used_list = NULL`,
nothing initialised; the sentinel `{0, NULL}` sits at address `E`. -/
def init_state (E : Nat) : State :=
  { mem := fun _ => 0, empty := E, free_list := E, used_list := 0,
    stack_start := 0, stack_end := 0, initialized := 0, sbrk_log := [] }

/-! ## Vocabulary of the statements, and example states -/

/-- Marking only: `m2` differs from `m` at most in the `next` words of the
blocks of `ul`, and there at most in the mark bit. -/
def MarkRel (ul : List Nat) (m m2 : Mem) : Prop :=
  (∀ x, (∀ a ∈ ul, x ≠ a + 8) → m2 x = m x) ∧
  (∀ x, m2 x &&& NOT_MARKED_MASK = m x &&& NOT_MARKED_MASK)

/-- The candidate word `v` lies in the payload range of `b` as `scan_range` computes it. -/
def Hit (m : Mem) (v b : Nat) : Prop := payload_start b ≤ v ∧ v < payload_end m b

/-- The payload words of the blocks `l` as `scan_heap` visits them carry no
valid candidate that hits `b`. -/
def NoHeapHit (m : Mem) (sz : Nat → Nat) (l : List Nat) (b : Nat) : Prop :=
  ∀ a ∈ l, ∀ k, a + 16 + 8 * k < a + 16 * sz a →
    ¬ (is_pointer_valid (m (a + 16 + 8 * k)) = true ∧ Hit m (m (a + 16 + 8 * k)) b)

/-- Well-formed collector state, with `fl` the entries of the free list and `ul`
the blocks of the used list (newest first): the free list is a sentinel-terminated
chain through `fl`, address-ordered and fully coalesced; the used list is a
`NULL`-terminated chain through `ul` (mark bits arbitrary); every used block has at
least one unit, is pointer-aligned, does not wrap, and overlaps neither the
sentinel nor the recorded stack range; used blocks are pairwise disjoint and
disjoint from every free entry; the stack range ends at least one word below the
top of the address space. -/
def WF (s : State) (fl : List (Nat × Nat)) (ul : List Nat) : Prop :=
  FreeChain s.mem s.empty s.free_list fl ∧ FreeOK s.empty 1 fl ∧
  UsedChain s.mem s.used_list ul ∧
  (∀ a ∈ ul, 1 ≤ s.mem a ∧ a + 16 * s.mem a < W ∧ a % 8 = 0 ∧
    (s.empty + 16 ≤ a ∨ a + 16 * s.mem a ≤ s.empty) ∧
    (a + 16 * s.mem a ≤ s.stack_start ∨ s.stack_end ≤ a)) ∧
  ul.Pairwise (fun a c => a + 16 * s.mem a ≤ c ∨ c + 16 * s.mem c ≤ a) ∧
  (∀ a ∈ ul, ∀ e ∈ fl, a + 16 * s.mem a ≤ e.1 ∨ e.1 + 16 * e.2 ≤ a) ∧
  s.stack_end + 8 ≤ W

instance (s : State) (fl : List (Nat × Nat)) (ul : List Nat) : Decidable (WF s fl ul) := by
  unfold WF; infer_instance

/-- The step budget `f` suffices for every loop of one `gc` call. -/
def Budget (f : Nat) (s : State) (fl : List (Nat × Nat)) (ul : List Nat) : Prop :=
  fl.length + ul.length < f ∧ s.stack_end - s.stack_start < f ∧ ∀ a ∈ ul, 2 * s.mem a < f

instance (f : Nat) (s : State) (fl : List (Nat × Nat)) (ul : List Nat) :
    Decidable (Budget f s fl ul) := by
  unfold Budget; infer_instance

/-- The word at address `x` is a candidate that `scan_range` accepts and that
lies in the payload of the block `b`. -/
def Refers (m : Mem) (x b : Nat) : Prop :=
  is_pointer_valid (m x) = true ∧ b + 16 ≤ m x ∧ m x < b + 16 * m b

/-- Some scanned word of the stack range refers to `b`. -/
def StackRef (s : State) (b : Nat) : Prop :=
  ∃ k, s.stack_start + 8 * k < s.stack_end ∧ Refers s.mem (s.stack_start + 8 * k) b

/-- Some payload word of a block of `ul` refers to `b`. -/
def HeapRef (s : State) (ul : List Nat) (b : Nat) : Prop :=
  ∃ a ∈ ul, ∃ k, a + 16 + 8 * k < a + 16 * s.mem a ∧ Refers s.mem (a + 16 + 8 * k) b

/-- Memory given by a finite table of words, `0` elsewhere. -/
def mem_of (l : List (Nat × Nat)) : Mem := fun a => (l.lookup a).getD 0

/-- A collector state with two used blocks of two units each (`65568`, the newer
one, linked to `65536`), one free entry of 252 units at `65600`, and a recorded
stack range `[1000, 1016)` whose first word holds the payload address `65552`
of the older block. -/
def two_used : State :=
  { mem := mem_of [(65536, 2), (65544, 0), (65568, 2), (65576, 65536), (65600, 252),
      (65608, 512), (1000, 65552), (1008, 0)],
    empty := 512, free_list := 65600, used_list := 65568, stack_start := 1000,
    stack_end := 1016, initialized := 1, sbrk_log := [4096] }

/-- A thread whose stack pointer is `1000` and whose stack ends at `1016`. -/
def env_ok : StackEnv :=
  { sp := 1000, getattr_ok := true, getstack_ok := true, stack_addr := 900, stack_size := 116 }

/-- A thread for which `pthread_getattr_np` fails. -/
def env_fail : StackEnv :=
  { sp := 1000, getattr_ok := false, getstack_ok := true, stack_addr := 900, stack_size := 116 }

/-- The memoized root range and the `initialized` flag are the same in both states. -/
def SameRange (s s2 : State) : Prop :=
  s2.stack_start = s.stack_start ∧ s2.stack_end = s.stack_end ∧ s2.initialized = s.initialized

/-- A later call of the same thread, entered two words deeper in the stack. -/
def env_deeper : StackEnv :=
  { sp := 984, getattr_ok := true, getstack_ok := true, stack_addr := 900, stack_size := 116 }

/-- A growth provider that grants every request at address `base`. -/
def sbrk_at (base : Nat) : Nat → Option Nat := fun _ => some base

/-- The statement pair `int *temp = gc_alloc(size); if (temp) *temp = v;` of `test_gc`. -/
def alloc_store (sbrk : Nat → Option Nat) (f size v : Nat) (s : State) : Option State :=
  match gc_alloc sbrk f size s with
  | none => none
  | some (p, s1) => if p = 0 then some s1 else some { s1 with mem := s1.mem.write p v }

/-- The garbage loop of `test_gc`, from index `i` for `n` rounds:
`int *temp = gc_alloc(sizeof(int) * (i + 1)); if (temp) *temp = i;`. -/
def garbage_loop (sbrk : Nat → Option Nat) (f : Nat) : Nat → Nat → State → Option State
  | 0, _, s => some s
  | n + 1, i, s =>
    match alloc_store sbrk f (4 * (i + 1)) i s with
    | none => none
    | some s1 => garbage_loop sbrk f n (i + 1) s1

/-- The state `test_gc` of `main.c` has built when it calls `gc()`: the local
`will_survive` lives in the stack word at `slot`. -/
def test_gc_before_gc (sbrk : Nat → Option Nat) (f slot : Nat) (s : State) : Option State :=
  match gc_alloc sbrk f 4 s with
  | none => none
  | some (will_survive, s1) =>
    if will_survive = 0 then none
    else
      let s2 : State := { s1 with mem := (s1.mem.write slot will_survive).write will_survive 4 }
      garbage_loop sbrk f 20 0 s2

/-- Source `test_gc` of `main.c` up to and including its call of `gc()`. -/
def test_gc (sbrk : Nat → Option Nat) (env : StackEnv) (f slot : Nat) (s : State) :
    Option State :=
  (test_gc_before_gc sbrk f slot s).bind (gc env f)

/-- The state `two_used` with the stack word pointing into the newer block. -/
def newer_rooted : State := { two_used with mem := two_used.mem.write 1000 65584 }

/-- A collector state with one used block (`65568`) and two free entries, the
first of only two units (`65536`), the second of 252 units (`65600`). -/
def small_free : State :=
  { mem := mem_of [(65536, 2), (65544, 65600), (65568, 2), (65576, 0), (65600, 252),
      (65608, 512), (1000, 65584), (1008, 0)],
    empty := 512, free_list := 65536, used_list := 65568, stack_start := 1000,
    stack_end := 1016, initialized := 1, sbrk_log := [4096] }

/-- The used list of `test_gc` when it calls `gc()`: the 20 garbage blocks, newest
first, then the block of `will_survive`. -/
def test_gc_used : List Nat :=
  [66752, 66656, 66560, 66464, 66384, 66304, 66224, 66144, 66080, 66016, 65952, 65888,
    65840, 65792, 65744, 65696, 65664, 65632, 65600, 65568, 65536]

/-- Total number of header units of a list of free entries. -/
def units (l : List (Nat × Nat)) : Nat := (l.map Prod.snd).sum

/-- A state whose free list has two entries, `65536` (2 units) and `65600` (252
units), with a block of two units at `65568` lying exactly between them. -/
def gap_state : State :=
  { mem := mem_of [(65536, 2), (65544, 65600), (65568, 2), (65576, 0), (65600, 252),
      (65608, 512)],
    empty := 512, free_list := 65536, used_list := 0, stack_start := 0,
    stack_end := 0, initialized := 0, sbrk_log := [4096] }

/-- The chain of `next` links from `p` starts with the entries `l` (address and
size); what follows them is not constrained. -/
def FreePrefix (m : Mem) : Nat → List (Nat × Nat) → Prop
  | _, [] => True
  | p, e :: t => p = e.1 ∧ m e.1 = e.2 ∧ FreePrefix m (m (e.1 + 8)) t

/-- Decision procedure for `FreePrefix`. -/
def FreePrefix.dec (m : Mem) : (p : Nat) → (l : List (Nat × Nat)) → Decidable (FreePrefix m p l)
  | _, [] => inferInstanceAs (Decidable True)
  | p, e :: t =>
    have := FreePrefix.dec m (m (e.1 + 8)) t
    inferInstanceAs (Decidable (p = e.1 ∧ m e.1 = e.2 ∧ FreePrefix m (m (e.1 + 8)) t))

instance (m : Mem) (p : Nat) (l : List (Nat × Nat)) : Decidable (FreePrefix m p l) :=
  FreePrefix.dec m p l

/-- Address of the last entry of `l`, or `d` when `l` is empty: the value of `prev`
when a search has walked past the entries `l`. -/
def last_addr (d : Nat) : List (Nat × Nat) → Nat
  | [] => d
  | e :: t => last_addr e.1 t

/-- What a program does between two collections, `get_stack_pointer` apart: a
call of `gc_alloc` (with the answer of `sbrk` and a step budget), of `gc` (with
what the thread shows then), of `print_lists` or of `gc_destroy`, or a store of
a word to memory. -/
inductive Call where
  | alloc (sbrk : Nat → Option Nat) (f : Nat) (size : Nat)
  | collect (env : StackEnv) (f : Nat)
  | print (f : Nat)
  | destroy (f : Nat)
  | store (addr : Nat) (v : Nat)

/-- The state after one call; the pointer returned by `gc_alloc` is dropped. -/
def run_call : Call → State → Option State
  | Call.alloc sbrk f size, s => (gc_alloc sbrk f size s).map Prod.snd
  | Call.collect env f, s => gc env f s
  | Call.print f, s => print_lists f s
  | Call.destroy f, s => gc_destroy f s
  | Call.store addr v, s => some { s with mem := s.mem.write addr v }

/-- The state after a sequence of calls. -/
def run_calls : List Call → State → Option State
  | [], s => some s
  | c :: t, s =>
    match run_call c s with
    | none => none
    | some s1 => run_calls t s1

/-- An example program after the first collection: allocate, store a pointer to
the new block in the scanned stack word, collect from a deeper frame, print,
destroy, allocate again. -/
def memo_calls : List Call :=
  [Call.alloc (sbrk_at 65536) 5 16, Call.store 1000 65552, Call.collect env_deeper 40,
    Call.print 5, Call.destroy 5, Call.alloc (sbrk_at 69632) 5 32]

/-- The state of a fresh program after its first `gc()` in the thread `env_ok`. -/
def memo_first : State :=
  { init_state 512 with stack_start := 1000, stack_end := 1016, initialized := 1 }

/-- The state after `memo_calls`. -/
def memo_after : State := (run_calls memo_calls memo_first).getD memo_first

/-! ## Theorems -/

/-! ### Insertion into the list of free entries keeps it coalesced -/

theorem mergeNext_ok (E lo : Nat) (x : Nat × Nat) (t : List (Nat × Nat))
    (hlo : lo ≤ x.1) (hsz : 1 ≤ x.2) (hW : x.1 + 16 * x.2 < W)
    (hE : E + 16 ≤ x.1 ∨ x.1 + 16 * x.2 ≤ E)
    (ht : FreeOK E (x.1 + 16 * x.2) t) : FreeOK E lo (mergeNext x t) := by
  cases t with
  | nil => simp only [mergeNext, FreeOK]; exact ⟨hlo, hsz, hW, hE, trivial⟩
  | cons c t =>
    simp only [mergeNext]
    simp only [FreeOK] at ht
    split
    · rename_i heq
      simp only [FreeOK]
      refine ⟨hlo, by omega, by omega, by omega, ?_⟩
      have : x.1 + 16 * (x.2 + c.2) + 1 = c.1 + 16 * c.2 + 1 := by omega
      rw [this]; exact ht.2.2.2.2
    · rename_i hne
      simp only [FreeOK]
      exact ⟨hlo, hsz, hW, hE, by omega, ht.2⟩

theorem place_ok (E lo b sz : Nat) (p : Nat × Nat) (t : List (Nat × Nat))
    (hp : FreeOK E lo [p]) (hpb : p.1 + 16 * p.2 ≤ b)
    (hsz : 1 ≤ sz) (hW : b + 16 * sz < W) (hE : E + 16 ≤ b ∨ b + 16 * sz ≤ E)
    (ht : FreeOK E (b + 16 * sz) t) : FreeOK E lo (place b sz p t) := by
  simp only [FreeOK] at hp
  simp only [place]
  split
  · rename_i heq
    apply mergeNext_ok
    · exact hp.1
    · show 1 ≤ p.2 + sz; omega
    · show p.1 + 16 * (p.2 + sz) < W; omega
    · show E + 16 ≤ p.1 ∨ p.1 + 16 * (p.2 + sz) ≤ E; omega
    · show FreeOK E (p.1 + 16 * (p.2 + sz)) t
      have : p.1 + 16 * (p.2 + sz) = b + 16 * sz := by omega
      rw [this]; exact ht
  · rename_i hne
    simp only [FreeOK]
    refine ⟨hp.1, hp.2.1, hp.2.2.1, hp.2.2.2.1, ?_⟩
    exact mergeNext_ok E _ (b, sz) t (by show p.1 + 16 * p.2 + 1 ≤ b; omega) hsz hW hE ht

theorem insertAfter_ok (E b sz : Nat) (hsz : 1 ≤ sz) (hW : b + 16 * sz < W)
    (hE : E + 16 ≤ b ∨ b + 16 * sz ≤ E) (t : List (Nat × Nat)) :
    ∀ (lo : Nat) (p : Nat × Nat), FreeOK E lo (p :: t) → p.1 < b →
      (∀ e ∈ p :: t, b + 16 * sz ≤ e.1 ∨ e.1 + 16 * e.2 ≤ b) →
      FreeOK E lo (insertAfter b sz p t) := by
  induction t with
  | nil =>
    intro lo p hok hpb hd
    simp only [insertAfter]
    have hdp := hd p (by simp)
    simp only [FreeOK] at hok
    exact place_ok E lo b sz p [] (by simp only [FreeOK]; exact ⟨hok.1, hok.2.1, hok.2.2.1, hok.2.2.2.1, trivial⟩)
      (by omega) hsz hW hE trivial
  | cons c t ih =>
    intro lo p hok hpb hd
    simp only [insertAfter]
    have hdp := hd p (by simp)
    have hdc := hd c (by simp)
    have hok2 := hok
    simp only [FreeOK] at hok
    split
    · rename_i hlt
      simp only [FreeOK]
      refine ⟨hok.1, hok.2.1, hok.2.2.1, hok.2.2.2.1, ?_⟩
      apply ih
      · simp only [FreeOK]; exact hok.2.2.2.2
      · exact hlt
      · intro e he; exact hd e (List.mem_cons_of_mem _ he)
    · rename_i hge
      apply place_ok E lo b sz p (c :: t)
      · simp only [FreeOK]; exact ⟨hok.1, hok.2.1, hok.2.2.1, hok.2.2.2.1, trivial⟩
      · omega
      · exact hsz
      · exact hW
      · exact hE
      · simp only [FreeOK]
        exact ⟨by omega, hok.2.2.2.2.2⟩

theorem insertFree_ok (E lo b sz : Nat) (l : List (Nat × Nat)) (hlo : lo ≤ b) (hsz : 1 ≤ sz)
    (hW : b + 16 * sz < W) (hE : E + 16 ≤ b ∨ b + 16 * sz ≤ E)
    (hok : FreeOK E lo l) (hd : ∀ e ∈ l, b + 16 * sz ≤ e.1 ∨ e.1 + 16 * e.2 ≤ b) :
    FreeOK E lo (insertFree b sz l) := by
  cases l with
  | nil => simp only [insertFree, FreeOK]; exact ⟨hlo, hsz, hW, hE, trivial⟩
  | cons c t =>
    simp only [insertFree]
    split
    · exact insertAfter_ok E b sz hsz hW hE t lo c hok (by assumption) hd
    · rename_i hge
      have hdc := hd c (by simp)
      simp only [FreeOK] at hok
      apply mergeNext_ok E lo (b, sz) (c :: t) hlo hsz hW hE
      simp only [FreeOK]
      exact ⟨by omega, hok.2⟩

/-! ### Bytes covered by the free entries -/

theorem Cov_cons (e : Nat × Nat) (l : List (Nat × Nat)) (x : Nat) :
    Cov (e :: l) x ↔ (e.1 ≤ x ∧ x < e.1 + 16 * e.2) ∨ Cov l x := by
  simp [Cov]

theorem Cov_nil (x : Nat) : Cov [] x ↔ False := by simp [Cov]

theorem mergeNext_cov (y : Nat × Nat) (t : List (Nat × Nat)) (x : Nat) :
    Cov (mergeNext y t) x ↔ (y.1 ≤ x ∧ x < y.1 + 16 * y.2) ∨ Cov t x := by
  cases t with
  | nil => simp [mergeNext, Cov_cons]
  | cons c t =>
    simp only [mergeNext]
    split
    · simp only [Cov_cons]
      constructor
      · rintro (h | h)
        · by_cases hx : x < y.1 + 16 * y.2
          · left; omega
          · right; left; omega
        · right; right; exact h
      · rintro (h | h | h)
        · left; omega
        · left; omega
        · right; exact h
    · simp only [Cov_cons]

theorem place_cov (b sz : Nat) (p : Nat × Nat) (t : List (Nat × Nat)) (x : Nat) :
    Cov (place b sz p t) x ↔ (b ≤ x ∧ x < b + 16 * sz) ∨ Cov (p :: t) x := by
  simp only [place]
  split
  · simp only [mergeNext_cov, Cov_cons]
    constructor
    · rintro (h | h)
      · by_cases hx : x < p.1 + 16 * p.2
        · right; left; omega
        · left; omega
      · right; right; exact h
    · rintro (h | h | h)
      · left; omega
      · left; omega
      · right; exact h
  · simp only [mergeNext_cov, Cov_cons]
    tauto

theorem insertAfter_cov (b sz : Nat) (t : List (Nat × Nat)) :
    ∀ (p : Nat × Nat) (x : Nat),
      Cov (insertAfter b sz p t) x ↔ (b ≤ x ∧ x < b + 16 * sz) ∨ Cov (p :: t) x := by
  induction t with
  | nil => intro p x; simp only [insertAfter, place_cov]
  | cons c t ih =>
    intro p x
    simp only [insertAfter]
    split
    · rw [Cov_cons, ih c x, Cov_cons p]; tauto
    · rw [place_cov]

theorem insertFree_cov (b sz : Nat) (l : List (Nat × Nat)) (x : Nat) :
    Cov (insertFree b sz l) x ↔ (b ≤ x ∧ x < b + 16 * sz) ∨ Cov l x := by
  cases l with
  | nil => simp [insertFree, Cov_cons, Cov_nil]
  | cons c t =>
    simp only [insertFree]
    split
    · exact insertAfter_cov b sz t c x
    · exact mergeNext_cov (b, sz) (c :: t) x

/-! ### Memory, chains and frames -/

@[simp] theorem write_same (m : Mem) (a v : Nat) : (m.write a v) a = v := by
  simp [Mem.write]

theorem write_other (m : Mem) {a x : Nat} (v : Nat) (h : x ≠ a) : (m.write a v) x = m x := by
  simp [Mem.write, h]

theorem FreeOK_mem (E : Nat) {l : List (Nat × Nat)} :
    ∀ {lo : Nat}, FreeOK E lo l → ∀ e ∈ l,
      lo ≤ e.1 ∧ 1 ≤ e.2 ∧ e.1 + 16 * e.2 < W ∧ (E + 16 ≤ e.1 ∨ e.1 + 16 * e.2 ≤ E) := by
  induction l with
  | nil => intro lo _ e he; cases he
  | cons c t ih =>
    intro lo h e he
    simp only [FreeOK] at h
    rcases List.mem_cons.1 he with rfl | he
    · exact ⟨h.1, h.2.1, h.2.2.1, h.2.2.2.1⟩
    · have := ih h.2.2.2.2 e he
      exact ⟨by omega, this.2⟩

theorem FreeChain_frame {m m2 : Mem} (E : Nat) {l : List (Nat × Nat)} :
    ∀ {p : Nat}, (∀ e ∈ l, m2 e.1 = m e.1 ∧ m2 (e.1 + 8) = m (e.1 + 8)) →
      FreeChain m E p l → FreeChain m2 E p l := by
  induction l with
  | nil => intro p _ h; exact h
  | cons c t ih =>
    intro p hf h
    simp only [FreeChain] at h ⊢
    have hc := hf c (by simp)
    refine ⟨h.1, by rw [hc.1]; exact h.2.1, ?_⟩
    rw [hc.2]
    exact ih (fun e he => hf e (List.mem_cons_of_mem _ he)) h.2.2

theorem is_adjacent_iff (m : Mem) (a b : Nat) (h : a + 16 * m a < W) :
    is_adjacent m a b = true ↔ a + 16 * m a = b := by
  simp only [is_adjacent, beq_iff_eq]
  have h1 : m a * 16 % W = m a * 16 := Nat.mod_eq_of_lt (by omega)
  rw [h1]
  have h2 : (a + m a * 16) % W = a + m a * 16 := Nat.mod_eq_of_lt (by omega)
  rw [h2]
  omega

/-! ### The code of `add_to_free_list` against `insertFree` -/

theorem link_next_spec (m1 : Mem) (E blk bs curr : Nat) (t : List (Nat × Nat))
    (hbs : m1 blk = bs) (hsz : 1 ≤ bs) (hW : blk + 16 * bs < W)
    (hc : FreeChain m1 E curr t) (ht : FreeOK E (blk + 16 * bs) t) :
    FreeChain (link_next m1 E blk curr) E blk (mergeNext (blk, bs) t) ∧
    ∀ x, x ≠ blk → x ≠ blk + 8 → link_next m1 E blk curr x = m1 x := by
  have hadj := is_adjacent_iff m1 blk curr (by rw [hbs]; exact hW)
  rw [hbs] at hadj
  cases t with
  | nil =>
    simp only [FreeChain] at hc
    subst hc
    simp only [link_next, ne_eq, not_true_eq_false, false_and, if_false, mergeNext, FreeChain]
    refine ⟨⟨trivial, ?_, ?_⟩, ?_⟩
    · rw [write_other _ _ (by omega)]; exact hbs
    · simp
    · intro x _ h2; exact write_other _ _ h2
  | cons c t =>
    simp only [FreeChain] at hc
    obtain ⟨hcurr, hcs, hct⟩ := hc
    subst hcurr
    have hcm := FreeOK_mem E ht c (by simp)
    have htm : ∀ e ∈ t, c.1 + 16 * c.2 + 1 ≤ e.1 := by
      intro e he
      simp only [FreeOK] at ht
      exact (FreeOK_mem E ht.2.2.2.2 e he).1
    have hne : c.1 ≠ E := by omega
    by_cases ha : blk + 16 * bs = c.1
    · have hadj2 : is_adjacent m1 blk c.1 = true := hadj.2 ha
      simp only [link_next, hadj2, hne, ne_eq, not_false_eq_true, and_self, if_true, mergeNext,
        ha, FreeChain]
      have hmod : (m1 blk + m1 c.1) % W = bs + c.2 := by
        rw [hbs, hcs]; exact Nat.mod_eq_of_lt (by omega)
      rw [hmod]
      refine ⟨⟨trivial, ?_, ?_⟩, ?_⟩
      · rw [write_other _ _ (by omega)]; simp
      · simp only [write_same]
        rw [write_other _ _ (by omega : c.1 + 8 ≠ blk)]
        apply FreeChain_frame E _ hct
        intro e he
        have := htm e he
        constructor
        · rw [write_other _ _ (by omega), write_other _ _ (by omega)]
        · rw [write_other _ _ (by omega), write_other _ _ (by omega)]
      · intro x h1 h2
        rw [write_other _ _ h2, write_other _ _ h1]
    · have hif : ¬ (c.1 ≠ E ∧ is_adjacent m1 blk c.1 = true) := fun h => ha (hadj.1 h.2)
      simp only [link_next, if_neg hif, mergeNext, ha, if_false, FreeChain]
      refine ⟨⟨trivial, ?_, ?_, ?_, ?_⟩, ?_⟩
      · rw [write_other _ _ (by omega)]; exact hbs
      · simp
      · rw [write_other _ _ (by omega)]; exact hcs
      · rw [write_other _ _ (by omega)]
        apply FreeChain_frame E _ hct
        intro e he
        have := htm e he
        constructor
        · rw [write_other _ _ (by omega)]
        · rw [write_other _ _ (by omega)]
      · intro x _ h2; exact write_other _ _ h2

theorem link_block_head (m0 : Mem) (E fl b sz curr : Nat) (t : List (Nat × Nat))
    (hb : m0 b = sz) (hsz : 1 ≤ sz) (hW : b + 16 * sz < W)
    (hc : FreeChain m0 E curr t) (ht : FreeOK E (b + 16 * sz) t) :
    (link_block m0 E fl b 0 curr).2 = b ∧
    FreeChain (link_block m0 E fl b 0 curr).1 E b (mergeNext (b, sz) t) ∧
    ∀ x, x ≠ b → x ≠ b + 8 → (link_block m0 E fl b 0 curr).1 x = m0 x := by
  have h := link_next_spec m0 E b sz curr t hb hsz hW hc ht
  simp only [link_block, link_prev, ne_eq, not_true_eq_false, false_and, if_false]
  exact ⟨trivial, h.1, h.2⟩

theorem link_block_place (m0 : Mem) (E fl b sz lo curr : Nat) (p : Nat × Nat)
    (t : List (Nat × Nat)) (hp : m0 p.1 = p.2) (hb : m0 b = sz) (hp0 : p.1 ≠ 0)
    (hc : FreeChain m0 E curr t) (hpok : FreeOK E lo [p]) (hpb : p.1 + 16 * p.2 ≤ b)
    (hsz : 1 ≤ sz) (hW : b + 16 * sz < W) (ht : FreeOK E (b + 16 * sz) t) :
    (link_block m0 E fl b p.1 curr).2 = fl ∧
    FreeChain (link_block m0 E fl b p.1 curr).1 E p.1 (place b sz p t) ∧
    ∀ x, x ≠ b → x ≠ b + 8 → x ≠ p.1 → x ≠ p.1 + 8 →
      (link_block m0 E fl b p.1 curr).1 x = m0 x := by
  simp only [FreeOK] at hpok
  have hadj := is_adjacent_iff m0 p.1 b (by rw [hp]; omega)
  rw [hp] at hadj
  have htm : ∀ e ∈ t, b + 16 * sz ≤ e.1 := fun e he => (FreeOK_mem E ht e he).1
  by_cases ha : p.1 + 16 * p.2 = b
  · have hadj2 : is_adjacent m0 p.1 b = true := hadj.2 ha
    have hmod : (m0 p.1 + m0 b) % W = p.2 + sz := by
      rw [hp, hb]; exact Nat.mod_eq_of_lt (by omega)
    simp only [link_block, link_prev, hp0, hadj2, ne_eq, not_false_eq_true, and_self, if_true,
      place, ha, hmod]
    have hc2 : FreeChain (m0.write p.1 (p.2 + sz)) E curr t := by
      apply FreeChain_frame E _ hc
      intro e he
      have := htm e he
      constructor
      · rw [write_other _ _ (by omega)]
      · rw [write_other _ _ (by omega)]
    have h := link_next_spec (m0.write p.1 (p.2 + sz)) E p.1 (p.2 + sz) curr t (by simp)
      (by omega) (by omega) hc2 (by
        have : p.1 + 16 * (p.2 + sz) = b + 16 * sz := by omega
        rw [this]; exact ht)
    refine ⟨trivial, h.1, ?_⟩
    intro x _ _ h3 h4
    rw [h.2 x h3 h4, write_other _ _ h3]
  · have hif : ¬ (p.1 ≠ 0 ∧ is_adjacent m0 p.1 b = true) := fun h => ha (hadj.1 h.2)
    simp only [link_block, link_prev, if_neg hif, if_pos hp0, place, ha, if_false]
    have hc2 : FreeChain (m0.write (p.1 + 8) b) E curr t := by
      apply FreeChain_frame E _ hc
      intro e he
      have := htm e he
      constructor
      · rw [write_other _ _ (by omega)]
      · rw [write_other _ _ (by omega)]
    have h := link_next_spec (m0.write (p.1 + 8) b) E b sz curr t
      (by rw [write_other _ _ (by omega)]; exact hb) hsz hW hc2 ht
    refine ⟨trivial, ?_, ?_⟩
    · simp only [FreeChain]
      refine ⟨trivial, ?_, ?_⟩
      · rw [h.2 _ (by omega) (by omega), write_other _ _ (by omega)]; exact hp
      · rw [h.2 _ (by omega) (by omega), write_same]; exact h.1
    · intro x h1 h2 _ h4
      rw [h.2 x h1 h2, write_other _ _ h4]

theorem insert_loop_spec (E fl b sz : Nat) (hsz : 1 ≤ sz) (hW : b + 16 * sz < W)
    (t : List (Nat × Nat)) :
    ∀ (m0 : Mem) (p : Nat × Nat) (lo fuel : Nat), m0 p.1 = p.2 → m0 b = sz → p.1 ≠ 0 →
      FreeChain m0 E (m0 (p.1 + 8)) t → FreeOK E lo (p :: t) → p.1 < b →
      (∀ e ∈ p :: t, b + 16 * sz ≤ e.1 ∨ e.1 + 16 * e.2 ≤ b) → t.length < fuel →
      ∃ r, find_insert_pos m0 E b fuel p.1 (m0 (p.1 + 8)) = some r ∧
        (link_block m0 E fl b r.1 r.2).2 = fl ∧
        FreeChain (link_block m0 E fl b r.1 r.2).1 E p.1 (insertAfter b sz p t) ∧
        ∀ x, x ≠ b → x ≠ b + 8 → (∀ e ∈ p :: t, x ≠ e.1 ∧ x ≠ e.1 + 8) →
          (link_block m0 E fl b r.1 r.2).1 x = m0 x := by
  induction t with
  | nil =>
    intro m0 p lo fuel hp hb hp0 hc hok hpb hd hf
    simp only [FreeChain] at hc
    obtain ⟨n, rfl⟩ : ∃ n, fuel = n + 1 := ⟨fuel - 1, by simp at hf; omega⟩
    refine ⟨(p.1, E), ?_, ?_⟩
    · simp [find_insert_pos, hc]
    · have hdp := hd p (by simp)
      have hok1 := hok
      simp only [FreeOK] at hok1
      have h := link_block_place m0 E fl b sz lo E p [] hp hb hp0 (by simp [FreeChain]) hok
        (by omega) hsz hW trivial
      refine ⟨h.1, by simpa [insertAfter] using h.2.1, ?_⟩
      intro x h1 h2 h3
      have := h3 p (by simp)
      exact h.2.2 x h1 h2 this.1 this.2
  | cons c t ih =>
    intro m0 p lo fuel hp hb hp0 hc hok hpb hd hf
    simp only [FreeChain] at hc
    obtain ⟨hcurr, hcs, hct⟩ := hc
    obtain ⟨n, rfl⟩ : ∃ n, fuel = n + 1 := ⟨fuel - 1, by simp at hf; omega⟩
    have hdp := hd p (by simp)
    have hdc := hd c (by simp)
    have hok1 := hok
    simp only [FreeOK] at hok1
    obtain ⟨hp1, hp2, hp3, hp4, hc1, hc2, hc3, hc4, hokt⟩ := hok1
    have hne : c.1 ≠ E := by omega
    by_cases hlt : c.1 < b
    · have hc0 : c.1 ≠ 0 := by omega
      obtain ⟨r, hr, hfl, hch, hfr⟩ := ih m0 c (p.1 + 16 * p.2 + 1) n hcs hb hc0 hct
        (by simp only [FreeOK]; exact ⟨hc1, hc2, hc3, hc4, hokt⟩) hlt
        (fun e he => hd e (List.mem_cons_of_mem _ he)) (by simp at hf; omega)
      refine ⟨r, ?_, hfl, ?_, ?_⟩
      · rw [find_insert_pos, hcurr, if_pos ⟨hne, hlt⟩]; exact hr
      · simp only [insertAfter, if_pos hlt, FreeChain]
        have hfp : ∀ x, (x = p.1 ∨ x = p.1 + 8) →
            (link_block m0 E fl b r.1 r.2).1 x = m0 x := by
          intro x hx
          apply hfr x (by omega) (by omega)
          intro e he
          rcases List.mem_cons.1 he with rfl | he
          · omega
          · have := (FreeOK_mem E hokt e he).1
            omega
        refine ⟨trivial, ?_, ?_⟩
        · rw [hfp _ (Or.inl rfl)]; exact hp
        · rw [hfp _ (Or.inr rfl), hcurr]; exact hch
      · intro x h1 h2 h3
        exact hfr x h1 h2 (fun e he => h3 e (List.mem_cons_of_mem _ he))
    · refine ⟨(p.1, c.1), ?_, ?_⟩
      · rw [find_insert_pos, hcurr, if_neg (by omega)]
      · have h := link_block_place m0 E fl b sz lo c.1 p (c :: t) hp hb hp0
          (by simp only [FreeChain]; exact ⟨trivial, hcs, hct⟩)
          (by simp only [FreeOK]; exact ⟨hp1, hp2, hp3, hp4, trivial⟩)
          (by omega) hsz hW (by simp only [FreeOK]; exact ⟨by omega, hc2, hc3, hc4, hokt⟩)
        refine ⟨h.1, by simpa [insertAfter, hlt] using h.2.1, ?_⟩
        intro x h1 h2 h3
        have := h3 p (by simp)
        exact h.2.2 x h1 h2 this.1 this.2

theorem add_to_free_list_spec (s : State) (l : List (Nat × Nat)) (b fuel : Nat)
    (hc : FreeChain s.mem s.empty s.free_list l) (hok : FreeOK s.empty 1 l)
    (hb0 : b ≠ 0) (hsz : 1 ≤ s.mem b) (hW : b + 16 * s.mem b < W)
    (hd : ∀ e ∈ l, b + 16 * s.mem b ≤ e.1 ∨ e.1 + 16 * e.2 ≤ b) (hf : l.length < fuel) :
    ∃ m2 fl2, add_to_free_list fuel b s = some { s with mem := m2, free_list := fl2 } ∧
      FreeChain m2 s.empty fl2 (insertFree b (s.mem b) l) ∧
      ∀ x, x ≠ b → x ≠ b + 8 → (∀ e ∈ l, x ≠ e.1 ∧ x ≠ e.1 + 8) → m2 x = s.mem x := by
  cases l with
  | nil =>
    simp only [FreeChain] at hc
    refine ⟨(s.mem.write (b + 8) 0).write (b + 8) s.empty, b, ?_, ?_, ?_⟩
    · simp only [add_to_free_list, if_neg hb0, if_pos hc]
    · simp only [insertFree, FreeChain]
      refine ⟨trivial, ?_, ?_⟩
      · rw [write_other _ _ (by omega), write_other _ _ (by omega)]
      · simp
    · intro x _ h2 _
      rw [write_other _ _ h2, write_other _ _ h2]
  | cons c t =>
    have hc' := hc
    simp only [FreeChain] at hc'
    obtain ⟨hfl, hcs, hct⟩ := hc'
    have hok1 := hok
    simp only [FreeOK] at hok1
    obtain ⟨hc1, hc2, hc3, hc4, hokt⟩ := hok1
    have hdc := hd c (by simp)
    have hne : s.free_list ≠ s.empty := by rw [hfl]; omega
    obtain ⟨n, rfl⟩ : ∃ n, fuel = n + 1 := ⟨fuel - 1, by simp at hf; omega⟩
    -- the memory after `block->next = NULL`
    have hm0 : ∀ x, x ≠ b + 8 → (s.mem.write (b + 8) 0) x = s.mem x :=
      fun x hx => write_other _ _ hx
    have hfr0 : ∀ e ∈ c :: t, (s.mem.write (b + 8) 0) e.1 = s.mem e.1 ∧
        (s.mem.write (b + 8) 0) (e.1 + 8) = s.mem (e.1 + 8) := by
      intro e he
      have h1 := FreeOK_mem s.empty hok e he
      have h2 := hd e he
      exact ⟨hm0 _ (by omega), hm0 _ (by omega)⟩
    have hb' : (s.mem.write (b + 8) 0) b = s.mem b := hm0 _ (by omega)
    by_cases hlt : c.1 < b
    · obtain ⟨r, hr, hfl2, hch, hfr⟩ := insert_loop_spec s.empty s.free_list b (s.mem b) hsz hW t
        (s.mem.write (b + 8) 0) c 1 n (by rw [(hfr0 c (by simp)).1]; exact hcs) hb' (by omega)
        (by rw [(hfr0 c (by simp)).2]
            exact FreeChain_frame s.empty (fun e he => hfr0 e (List.mem_cons_of_mem _ he)) hct)
        hok hlt hd (by simp at hf; omega)
      refine ⟨(link_block (s.mem.write (b + 8) 0) s.empty s.free_list b r.1 r.2).1,
        (link_block (s.mem.write (b + 8) 0) s.empty s.free_list b r.1 r.2).2, ?_, ?_, ?_⟩
      · simp only [add_to_free_list, if_neg hb0, if_neg hne]
        rw [find_insert_pos, hfl, if_pos ⟨by omega, hlt⟩, hr]
      · simp only [insertFree, if_pos hlt]
        rw [hfl2]
        have key : ∀ q, q = c.1 → FreeChain
            (link_block (s.mem.write (b + 8) 0) s.empty s.free_list b r.1 r.2).1 s.empty q
            (insertAfter b (s.mem b) c t) := by
          intro q hq; rw [hq]; exact hch
        exact key _ hfl
      · intro x h1 h2 h3
        rw [hfr x h1 h2 h3, hm0 x h2]
    · have h := link_block_head (s.mem.write (b + 8) 0) s.empty s.free_list b (s.mem b) c.1
        (c :: t) hb' hsz hW
        (by simp only [FreeChain]
            refine ⟨trivial, ?_, ?_⟩
            · rw [(hfr0 c (by simp)).1]; exact hcs
            · rw [(hfr0 c (by simp)).2]
              exact FreeChain_frame s.empty (fun e he => hfr0 e (List.mem_cons_of_mem _ he)) hct)
        (by simp only [FreeOK]; exact ⟨by omega, hc2, hc3, hc4, hokt⟩)
      refine ⟨(link_block (s.mem.write (b + 8) 0) s.empty s.free_list b 0 c.1).1,
        (link_block (s.mem.write (b + 8) 0) s.empty s.free_list b 0 c.1).2, ?_, ?_, ?_⟩
      · simp only [add_to_free_list, if_neg hb0, if_neg hne]
        rw [find_insert_pos, hfl, if_neg (by omega)]
      · simp only [insertFree, if_neg hlt]
        rw [h.1]; exact h.2.1
      · intro x h1 h2 _
        rw [h.2.2 x h1 h2, hm0 x h2]

/-! ### The mark bit -/

theorem or_mask_and (x : Nat) : (x ||| MARKED_MASK) &&& NOT_MARKED_MASK = x &&& NOT_MARKED_MASK := by
  rw [Nat.and_comm, Nat.and_or_distrib_left]
  have : NOT_MARKED_MASK &&& MARKED_MASK = 0 := by decide
  rw [this, Nat.or_zero, Nat.and_comm]

theorem and_mask_and (x : Nat) : (x &&& NOT_MARKED_MASK) &&& NOT_MARKED_MASK = x &&& NOT_MARKED_MASK := by
  rw [Nat.and_assoc, Nat.and_self]

theorem and_mask_mod (x : Nat) : (x &&& NOT_MARKED_MASK) % 2 = 0 := by
  rw [← Nat.and_one_is_mod, Nat.and_assoc]
  have : NOT_MARKED_MASK &&& 1 = 0 := by decide
  rw [this, Nat.and_zero]

theorem or_mask_mod (x : Nat) : (x ||| MARKED_MASK) % 2 = 1 := by
  rw [← Nat.and_one_is_mod, Nat.and_comm, Nat.and_or_distrib_left]
  have h1 : (1 : Nat) &&& MARKED_MASK = 1 := by decide
  rw [h1, Nat.and_comm, Nat.and_one_is_mod]
  rcases Nat.mod_two_eq_zero_or_one x with h | h <;> rw [h] <;> decide

theorem is_marked_iff (m : Mem) (b : Nat) :
    is_marked m b = true ↔ b ≠ 0 ∧ m (b + 8) ≠ 0 ∧ m (b + 8) % 2 = 1 := by
  simp only [is_marked, Bool.and_eq_true, decide_eq_true_eq, Nat.and_one_is_mod]
  constructor
  · rintro ⟨⟨h1, h2⟩, h3⟩; exact ⟨h1, h2, by omega⟩
  · rintro ⟨h1, h2, h3⟩; exact ⟨⟨h1, h2⟩, by omega⟩

theorem MarkRel.refl (ul : List Nat) (m : Mem) : MarkRel ul m m :=
  ⟨fun _ _ => rfl, fun _ => rfl⟩

theorem MarkRel.trans {ul : List Nat} {m m2 m3 : Mem} (h1 : MarkRel ul m m2)
    (h2 : MarkRel ul m2 m3) : MarkRel ul m m3 :=
  ⟨fun x hx => (h2.1 x hx).trans (h1.1 x hx), fun x => (h2.2 x).trans (h1.2 x)⟩

theorem MarkRel.mono {ul ul2 : List Nat} {m m2 : Mem} (h : MarkRel ul m m2)
    (hs : ∀ a ∈ ul, a ∈ ul2) : MarkRel ul2 m m2 :=
  ⟨fun x hx => h.1 x (fun a ha => hx a (hs a ha)), h.2⟩

theorem MarkRel.actual {ul : List Nat} {m m2 : Mem} (h : MarkRel ul m m2) (a : Nat) :
    get_actual_pointer m2 a = get_actual_pointer m a := by
  simp only [get_actual_pointer]
  split
  · exact h.2 _
  · rfl

theorem MarkRel.chain {ul : List Nat} {m m2 : Mem} (h : MarkRel ul m m2) (l : List Nat) :
    ∀ {p : Nat}, UsedChain m p l → UsedChain m2 p l := by
  induction l with
  | nil => intro p hp; exact hp
  | cons a t ih =>
    intro p hp
    simp only [UsedChain] at hp ⊢
    refine ⟨hp.1, hp.2.1, ?_⟩
    rw [h.actual a]
    exact ih hp.2.2

theorem set_marked_rel (ul : List Nat) (m : Mem) (b : Nat) (hb : b ∈ ul) :
    MarkRel ul m (set_marked m b) := by
  simp only [set_marked]
  split
  · refine ⟨fun x hx => write_other _ _ (hx b hb), fun x => ?_⟩
    by_cases hx : x = b + 8
    · subst hx; rw [write_same, or_mask_and]
    · rw [write_other _ _ hx]
  · exact MarkRel.refl ul m

theorem clear_marked_rel (ul : List Nat) (m : Mem) (b : Nat) (hb : b ∈ ul) :
    MarkRel ul m (clear_marked m b) := by
  simp only [clear_marked]
  split
  · refine ⟨fun x hx => write_other _ _ (hx b hb), fun x => ?_⟩
    by_cases hx : x = b + 8
    · subst hx; rw [write_same, and_mask_and]
    · rw [write_other _ _ hx]
  · exact MarkRel.refl ul m

theorem is_marked_congr {m m2 : Mem} {b : Nat} (h : m2 (b + 8) = m (b + 8)) :
    is_marked m2 b = is_marked m b := by
  simp only [is_marked, h]

theorem clear_marked_unmarked (m : Mem) (b : Nat) : is_marked (clear_marked m b) b = false := by
  rw [Bool.eq_false_iff]
  intro h
  rw [is_marked_iff] at h
  obtain ⟨h0, h1, h2⟩ := h
  by_cases hc : b ≠ 0 ∧ m (b + 8) ≠ 0
  · simp only [clear_marked, if_pos hc, write_same] at h2
    rw [and_mask_mod] at h2
    omega
  · simp only [clear_marked, if_neg hc] at h1
    exact hc ⟨h0, h1⟩

/-! ### The clear and mark phases -/

theorem clear_marks_spec (l : List Nat) :
    ∀ (m : Mem) (p fuel : Nat), UsedChain m p l → l.length < fuel →
      ∃ m1, clear_marks fuel m p = some m1 ∧ MarkRel l m m1 ∧
        ∀ a ∈ l, is_marked m1 a = false := by
  induction l with
  | nil =>
    intro m p fuel hc hf
    simp only [UsedChain] at hc
    obtain ⟨n, rfl⟩ : ∃ n, fuel = n + 1 := ⟨fuel - 1, by simp at hf; omega⟩
    exact ⟨m, by simp [clear_marks, hc], MarkRel.refl _ _, fun a ha => by cases ha⟩
  | cons a t ih =>
    intro m p fuel hc hf
    simp only [UsedChain] at hc
    obtain ⟨hp, ha0, hct⟩ := hc
    obtain ⟨n, rfl⟩ : ∃ n, fuel = n + 1 := ⟨fuel - 1, by simp at hf; omega⟩
    have hrel : MarkRel (a :: t) m (clear_marked m a) := clear_marked_rel _ m a (by simp)
    have hct1 : UsedChain (clear_marked m a) (get_actual_pointer (clear_marked m a) a) t := by
      rw [hrel.actual a]; exact hrel.chain t hct
    obtain ⟨m1, hm1, hrel1, hun⟩ := ih (clear_marked m a) _ n hct1 (by simp at hf; omega)
    refine ⟨m1, ?_, ?_, ?_⟩
    · rw [clear_marks, hp, if_neg ha0]; exact hm1
    · exact hrel.trans (hrel1.mono (fun x hx => List.mem_cons_of_mem _ hx))
    · intro b hb
      rcases List.mem_cons.1 hb with rfl | hb
      · by_cases hbt : b ∈ t
        · exact hun b hbt
        · have hfr : m1 (b + 8) = (clear_marked m b) (b + 8) :=
            hrel1.1 (b + 8) (fun c hc hcb => hbt (by
              have : b = c := by omega
              rw [this]; exact hc))
          rw [is_marked_congr hfr]
          exact clear_marked_unmarked m b
      · exact hun b hb

theorem mark_containing_spec (v : Nat) (ul l : List Nat) (hsub : ∀ a ∈ l, a ∈ ul) :
    ∀ (m : Mem) (p fuel : Nat), UsedChain m p l → l.length < fuel →
      ∃ m1, mark_containing v fuel m p = some m1 ∧ MarkRel ul m m1 ∧
        ∀ b, ¬ Hit m v b → m1 (b + 8) = m (b + 8) := by
  induction l with
  | nil =>
    intro m p fuel hc hf
    simp only [UsedChain] at hc
    obtain ⟨n, rfl⟩ : ∃ n, fuel = n + 1 := ⟨fuel - 1, by simp at hf; omega⟩
    exact ⟨m, by simp [mark_containing, hc], MarkRel.refl _ _, fun _ _ => rfl⟩
  | cons a t ih =>
    intro m p fuel hc hf
    simp only [UsedChain] at hc
    obtain ⟨hp, ha0, hct⟩ := hc
    obtain ⟨n, rfl⟩ : ∃ n, fuel = n + 1 := ⟨fuel - 1, by simp at hf; omega⟩
    by_cases hit : v ≥ payload_start a ∧ v < payload_end m a
    · refine ⟨set_marked m a, ?_, set_marked_rel ul m a (hsub a (by simp)), ?_⟩
      · rw [mark_containing, hp, if_neg ha0, if_pos hit]
      · intro b hb
        have hba : b ≠ a := by
          intro h; subst h; exact hb hit
        simp only [set_marked]
        split
        · exact write_other _ _ (by omega)
        · rfl
    · obtain ⟨m1, hm1, hrel1, hfr⟩ := ih (fun x hx => hsub x (List.mem_cons_of_mem _ hx))
        m _ n hct (by simp at hf; omega)
      refine ⟨m1, ?_, hrel1, hfr⟩
      rw [mark_containing, hp, if_neg ha0, if_neg hit]; exact hm1

theorem Hit_congr {m m2 : Mem} {b : Nat} (h : m2 b = m b) (v : Nat) : Hit m2 v b ↔ Hit m v b := by
  simp only [Hit, payload_end, h]

theorem scan_words_spec (f used_list limit : Nat) (ul : List Nat) (hlim : limit + 8 ≤ W)
    (hf : ul.length < f) (hsz : ∀ a ∈ ul, ∀ b ∈ ul, b ≠ a + 8) :
    ∀ (n : Nat) (m : Mem) (curr fuel : Nat), limit ≤ curr + 8 * n → n < fuel →
      UsedChain m used_list ul →
      (∀ k, curr + 8 * k < limit → ∀ a ∈ ul, curr + 8 * k ≠ a + 8) →
      ∃ m1, scan_words f used_list limit fuel m curr = some m1 ∧ MarkRel ul m m1 ∧
        ∀ b ∈ ul, (∀ k, curr + 8 * k < limit →
            ¬ (is_pointer_valid (m (curr + 8 * k)) = true ∧ Hit m (m (curr + 8 * k)) b)) →
          m1 (b + 8) = m (b + 8) := by
  intro n
  induction n with
  | zero =>
    intro m curr fuel hn hfu _ _
    obtain ⟨k, rfl⟩ : ∃ k, fuel = k + 1 := ⟨fuel - 1, by omega⟩
    exact ⟨m, by rw [scan_words, if_neg (by omega)], MarkRel.refl _ _, fun _ _ _ => rfl⟩
  | succ n ih =>
    intro m curr fuel hn hfu hch hal
    obtain ⟨k, rfl⟩ : ∃ k, fuel = k + 1 := ⟨fuel - 1, by omega⟩
    by_cases hlt : curr < limit
    · have hnext : (curr + 8) % W = curr + 8 := Nat.mod_eq_of_lt (by omega)
      have hal2 : ∀ j, curr + 8 + 8 * j < limit → ∀ a ∈ ul, curr + 8 + 8 * j ≠ a + 8 := by
        intro j hj a ha
        have := hal (j + 1) (by omega) a ha
        omega
      -- the memory after the inner loop for this word
      have step : ∀ m1, MarkRel ul m m1 →
          (∀ b, is_pointer_valid (m curr) = true → ¬ Hit m (m curr) b → m1 (b + 8) = m (b + 8)) →
          (is_pointer_valid (m curr) = false → m1 = m) →
          ∃ m2, scan_words f used_list limit k m1 (curr + 8) = some m2 ∧ MarkRel ul m m2 ∧
            ∀ b ∈ ul, (∀ j, curr + 8 * j < limit →
              ¬ (is_pointer_valid (m (curr + 8 * j)) = true ∧ Hit m (m (curr + 8 * j)) b)) →
            m2 (b + 8) = m (b + 8) := by
        intro m1 hrel hmk hnv
        obtain ⟨m2, hm2, hrel2, hfr2⟩ := ih m1 (curr + 8) k (by omega) (by omega)
          (hrel.chain ul hch) hal2
        refine ⟨m2, hm2, hrel.trans hrel2, ?_⟩
        intro b hb hno
        have h1 : m2 (b + 8) = m1 (b + 8) := by
          apply hfr2 b hb
          intro j hj
          have hx : m1 (curr + 8 + 8 * j) = m (curr + 8 + 8 * j) :=
            hrel.1 _ (fun a ha => hal2 j hj a ha)
          have hbm : m1 b = m b := hrel.1 _ (fun a ha => hsz a ha b hb)
          rw [hx, Hit_congr hbm]
          have := hno (j + 1) (by omega)
          have e : curr + 8 * (j + 1) = curr + 8 + 8 * j := by omega
          rw [e] at this
          exact this
        rw [h1]
        by_cases hv : is_pointer_valid (m curr) = true
        · apply hmk b hv
          intro hh
          have := hno 0 (by omega)
          simp only [Nat.mul_zero, Nat.add_zero] at this
          exact this ⟨hv, hh⟩
        · rw [hnv (by simpa using hv)]
      by_cases hv : is_pointer_valid (m curr) = true
      · obtain ⟨m1, hm1, hrel1, hfr1⟩ := mark_containing_spec (m curr) ul ul (fun _ h => h)
          m used_list f hch hf
        obtain ⟨m2, hm2, hrel2, hfr2⟩ := step m1 hrel1 (fun b _ hb => hfr1 b hb)
          (fun h => by rw [h] at hv; cases hv)
        refine ⟨m2, ?_, hrel2, hfr2⟩
        rw [scan_words, if_pos hlt, if_pos hv, hm1]
        simp only [hnext]
        exact hm2
      · obtain ⟨m2, hm2, hrel2, hfr2⟩ := step m (MarkRel.refl _ _) (fun b _ _ => rfl)
          (fun _ => rfl)
        refine ⟨m2, ?_, hrel2, hfr2⟩
        rw [scan_words, if_pos hlt, if_neg hv, hnext]
        exact hm2
    · exact ⟨m, by rw [scan_words, if_neg hlt], MarkRel.refl _ _, fun _ _ _ => rfl⟩

theorem scan_range_spec (f start limit : Nat) (s : State) (ul : List Nat) (n : Nat)
    (hlim : limit + 8 ≤ W) (hf : ul.length < f) (hn : limit ≤ start + 8 * n) (hnf : n < f)
    (hsz : ∀ a ∈ ul, ∀ b ∈ ul, b ≠ a + 8)
    (hch : UsedChain s.mem s.used_list ul)
    (hal : ∀ k, start + 8 * k < limit → ∀ a ∈ ul, start + 8 * k ≠ a + 8) :
    ∃ m1, scan_range f start limit s = some { s with mem := m1 } ∧ MarkRel ul s.mem m1 ∧
      ∀ b ∈ ul, (∀ k, start + 8 * k < limit →
          ¬ (is_pointer_valid (s.mem (start + 8 * k)) = true ∧
             Hit s.mem (s.mem (start + 8 * k)) b)) →
        m1 (b + 8) = s.mem (b + 8) := by
  by_cases hg : start = 0 ∨ limit = 0 ∨ start ≥ limit
  · exact ⟨s.mem, by rw [scan_range, if_pos hg], MarkRel.refl _ _, fun _ _ _ => rfl⟩
  · obtain ⟨m1, hm1, hrel, hfr⟩ := scan_words_spec f s.used_list limit ul hlim hf hsz n s.mem
      start f hn hnf hch hal
    exact ⟨m1, by rw [scan_range, if_neg hg, hm1], hrel, hfr⟩

theorem payload_start_eq (b : Nat) (h : b + 16 < W) : payload_start b = b + 16 := by
  simp only [payload_start]; exact Nat.mod_eq_of_lt h

theorem payload_end_eq (m : Mem) (b : Nat) (h1 : 1 ≤ m b) (h : b + 16 * m b < W) :
    payload_end m b = b + 16 * m b := by
  simp only [payload_end]
  rw [payload_start_eq b (by omega)]
  have e1 : (m b + W - 1) % W = m b - 1 := by
    have : m b + W - 1 = (m b - 1) + W := by omega
    rw [this, Nat.add_mod_right]; exact Nat.mod_eq_of_lt (by omega)
  rw [e1]
  have e2 : (m b - 1) * 16 % W = (m b - 1) * 16 := Nat.mod_eq_of_lt (by omega)
  rw [e2]
  have e3 : (b + 16 + (m b - 1) * 16) % W = b + 16 + (m b - 1) * 16 :=
    Nat.mod_eq_of_lt (by omega)
  rw [e3]; omega

theorem scan_blocks_spec (f : Nat) (ul : List Nat) (sz : Nat → Nat) (hf : ul.length < f)
    (hszf : ∀ a ∈ ul, 2 * sz a < f)
    (hsz : ∀ a ∈ ul, ∀ b ∈ ul, b ≠ a + 8)
    (hok : ∀ a ∈ ul, 1 ≤ sz a ∧ a + 16 * sz a + 8 ≤ W)
    (hal : ∀ a ∈ ul, ∀ x, a + 16 ≤ x → x < a + 16 * sz a → ∀ c ∈ ul, x ≠ c + 8)
    (l : List Nat) (hsub : ∀ a ∈ l, a ∈ ul) :
    ∀ (s : State) (p fuel : Nat), UsedChain s.mem p l → UsedChain s.mem s.used_list ul →
      (∀ a ∈ ul, s.mem a = sz a) → l.length < fuel →
      ∃ m1, scan_blocks f fuel s p = some { s with mem := m1 } ∧ MarkRel ul s.mem m1 ∧
        ∀ b ∈ ul, NoHeapHit s.mem sz l b → m1 (b + 8) = s.mem (b + 8) := by
  induction l with
  | nil =>
    intro s p fuel hc _ _ hfu
    simp only [UsedChain] at hc
    obtain ⟨k, rfl⟩ : ∃ k, fuel = k + 1 := ⟨fuel - 1, by simp at hfu; omega⟩
    exact ⟨s.mem, by rw [scan_blocks, if_pos hc], MarkRel.refl _ _, fun _ _ _ => rfl⟩
  | cons a t ih =>
    intro s p fuel hc hcu hsizes hfu
    simp only [UsedChain] at hc
    obtain ⟨hp, ha0, hct⟩ := hc
    obtain ⟨k, rfl⟩ : ∃ k, fuel = k + 1 := ⟨fuel - 1, by simp at hfu; omega⟩
    have ha : a ∈ ul := hsub a (by simp)
    have hoka := hok a ha
    have hsa := hsizes a ha
    have hps : payload_start a = a + 16 := payload_start_eq a (by omega)
    have hpe : payload_end s.mem a = a + 16 * sz a := by
      rw [payload_end_eq s.mem a (by omega) (by omega), hsa]
    obtain ⟨m1, hm1, hrel1, hfr1⟩ := scan_range_spec f (a + 16) (a + 16 * sz a) s ul
      (2 * sz a) (by omega) hf (by omega) (hszf a ha) hsz hcu
      (fun j hj c hc => hal a ha _ (by omega) hj c hc)
    have hsizes1 : ∀ c ∈ ul, m1 c = sz c := fun c hc => by
      rw [hrel1.1 c (fun d hd => hsz d hd c hc)]; exact hsizes c hc
    obtain ⟨m2, hm2, hrel2, hfr2⟩ := ih (fun x hx => hsub x (List.mem_cons_of_mem _ hx))
      { s with mem := m1 } (get_actual_pointer m1 a) k
      (by rw [hrel1.actual a]; exact hrel1.chain t hct) (hrel1.chain ul hcu) hsizes1
      (by simp at hfu; omega)
    refine ⟨m2, ?_, hrel1.trans hrel2, ?_⟩
    · rw [scan_blocks, hp, if_neg ha0, hps, hpe, hm1]
      exact hm2
    · intro b hb hno
      have h2 : m2 (b + 8) = m1 (b + 8) := by
        apply hfr2 b hb
        intro c hc j hj
        have hcu2 : c ∈ ul := hsub c (List.mem_cons_of_mem _ hc)
        have hx : m1 (c + 16 + 8 * j) = s.mem (c + 16 + 8 * j) :=
          hrel1.1 _ (fun d hd => hal c hcu2 _ (by omega) hj d hd)
        have hbm : m1 b = s.mem b := by rw [hsizes1 b hb, hsizes b hb]
        show ¬ (is_pointer_valid (m1 (c + 16 + 8 * j)) = true ∧
          Hit m1 (m1 (c + 16 + 8 * j)) b)
        rw [hx, Hit_congr hbm]
        exact hno c (List.mem_cons_of_mem _ hc) j hj
      rw [h2]
      apply hfr1 b hb
      intro j hj
      exact hno a (by simp) j hj

/-! ### Further facts about insertion, for the sweep -/

theorem UsedChain_frame {m m2 : Mem} (l : List Nat) :
    ∀ {p : Nat}, (∀ c ∈ l, m2 (c + 8) = m (c + 8)) → UsedChain m p l → UsedChain m2 p l := by
  induction l with
  | nil => intro p _ h; exact h
  | cons a t ih =>
    intro p hf h
    simp only [UsedChain] at h ⊢
    refine ⟨h.1, h.2.1, ?_⟩
    have : get_actual_pointer m2 a = get_actual_pointer m a := by
      simp only [get_actual_pointer, hf a (by simp)]
    rw [this]
    exact ih (fun c hc => hf c (List.mem_cons_of_mem _ hc)) h.2.2

theorem mergeNext_addr (y : Nat × Nat) (t : List (Nat × Nat)) :
    ∀ e ∈ mergeNext y t, e.1 = y.1 ∨ ∃ g ∈ t, e.1 = g.1 := by
  cases t with
  | nil => intro e he; simp only [mergeNext, List.mem_singleton] at he; left; rw [he]
  | cons c t =>
    intro e he
    simp only [mergeNext] at he
    split at he
    · rcases List.mem_cons.1 he with rfl | he
      · left; rfl
      · right; exact ⟨e, List.mem_cons_of_mem _ he, rfl⟩
    · rcases List.mem_cons.1 he with rfl | he
      · left; rfl
      · right; exact ⟨e, he, rfl⟩

theorem place_addr (b sz : Nat) (p : Nat × Nat) (t : List (Nat × Nat)) :
    ∀ e ∈ place b sz p t, e.1 = b ∨ ∃ g ∈ p :: t, e.1 = g.1 := by
  intro e he
  simp only [place] at he
  split at he
  · rcases mergeNext_addr _ t e he with h | ⟨g, hg, h⟩
    · right; exact ⟨p, by simp, h⟩
    · right; exact ⟨g, List.mem_cons_of_mem _ hg, h⟩
  · rcases List.mem_cons.1 he with rfl | he
    · right; exact ⟨e, by simp, rfl⟩
    · rcases mergeNext_addr _ t e he with h | ⟨g, hg, h⟩
      · left; exact h
      · right; exact ⟨g, List.mem_cons_of_mem _ hg, h⟩

theorem insertAfter_addr (b sz : Nat) (t : List (Nat × Nat)) :
    ∀ (p : Nat × Nat), ∀ e ∈ insertAfter b sz p t, e.1 = b ∨ ∃ g ∈ p :: t, e.1 = g.1 := by
  induction t with
  | nil => intro p e he; simp only [insertAfter] at he; exact place_addr b sz p [] e he
  | cons c t ih =>
    intro p e he
    simp only [insertAfter] at he
    split at he
    · rcases List.mem_cons.1 he with rfl | he
      · right; exact ⟨e, by simp, rfl⟩
      · rcases ih c e he with h | ⟨g, hg, h⟩
        · left; exact h
        · right; exact ⟨g, List.mem_cons_of_mem _ hg, h⟩
    · exact place_addr b sz p (c :: t) e he

theorem insertFree_addr (b sz : Nat) (l : List (Nat × Nat)) :
    ∀ e ∈ insertFree b sz l, e.1 = b ∨ ∃ g ∈ l, e.1 = g.1 := by
  cases l with
  | nil => intro e he; simp only [insertFree, List.mem_singleton] at he; left; rw [he]
  | cons c t =>
    intro e he
    simp only [insertFree] at he
    split at he
    · exact insertAfter_addr b sz t c e he
    · exact mergeNext_addr (b, sz) (c :: t) e he

theorem mergeNext_length (y : Nat × Nat) (t : List (Nat × Nat)) :
    (mergeNext y t).length ≤ t.length + 1 := by
  cases t with
  | nil => simp [mergeNext]
  | cons c t => simp only [mergeNext]; split <;> simp

theorem place_length (b sz : Nat) (p : Nat × Nat) (t : List (Nat × Nat)) :
    (place b sz p t).length ≤ t.length + 2 := by
  simp only [place]
  split
  · have := mergeNext_length (p.1, p.2 + sz) t; omega
  · have := mergeNext_length (b, sz) t; simp only [List.length_cons]; omega

theorem insertAfter_length (b sz : Nat) (t : List (Nat × Nat)) :
    ∀ p : Nat × Nat, (insertAfter b sz p t).length ≤ t.length + 2 := by
  induction t with
  | nil => intro p; simp only [insertAfter]; exact place_length b sz p []
  | cons c t ih =>
    intro p
    simp only [insertAfter]
    split
    · have := ih c; simp only [List.length_cons]; omega
    · exact place_length b sz p (c :: t)

theorem insertFree_length (b sz : Nat) (l : List (Nat × Nat)) :
    (insertFree b sz l).length ≤ l.length + 1 := by
  cases l with
  | nil => simp [insertFree]
  | cons c t =>
    simp only [insertFree]
    split
    · have := insertAfter_length b sz t c; simp only [List.length_cons]; omega
    · exact mergeNext_length (b, sz) (c :: t)

/-- A block of `sa ≥ 1` units at `a` that overlaps neither the inserted block nor
any old entry overlaps no entry of the list after insertion. -/
theorem insertFree_disj (E lo b sz a sa : Nat) (l : List (Nat × Nat)) (hsa : 1 ≤ sa)
    (hok : FreeOK E lo (insertFree b sz l))
    (hab : a + 16 * sa ≤ b ∨ b + 16 * sz ≤ a)
    (hal : ∀ e ∈ l, a + 16 * sa ≤ e.1 ∨ e.1 + 16 * e.2 ≤ a) :
    ∀ e ∈ insertFree b sz l, a + 16 * sa ≤ e.1 ∨ e.1 + 16 * e.2 ≤ a := by
  intro e he
  have hem := FreeOK_mem E hok e he
  by_contra hcon
  have hx : Cov (insertFree b sz l) (max a e.1) := ⟨e, he, by omega, by omega⟩
  rw [insertFree_cov] at hx
  rcases hx with hx | ⟨g, hg, hg1, hg2⟩
  · omega
  · have := hal g hg
    omega

/-! ### The sweep phase -/

theorem actual_of_even (m : Mem) (a v : Nat) (ha : a ≠ 0) (h : m (a + 8) = v &&& NOT_MARKED_MASK) :
    get_actual_pointer m a = v &&& NOT_MARKED_MASK := by
  simp only [get_actual_pointer, if_pos ha, h, and_mask_and]

theorem sweep_spec (f E : Nat) (mk : Nat → Bool) (sz : Nat → Nat) (rest : List Nat) :
    ∀ (s : State) (l : List (Nat × Nat)) (prev fuel curr : Nat),
      s.empty = E →
      FreeChain s.mem E s.free_list l → FreeOK E 1 l →
      UsedChain s.mem curr rest →
      (∀ a ∈ rest, s.mem a = sz a ∧ is_marked s.mem a = mk a) →
      (∀ a ∈ rest, 1 ≤ sz a ∧ a + 16 * sz a < W ∧ (E + 16 ≤ a ∨ a + 16 * sz a ≤ E)) →
      rest.Pairwise (fun a c => a + 16 * sz a ≤ c ∨ c + 16 * sz c ≤ a) →
      (∀ a ∈ rest, ∀ e ∈ l, a + 16 * sz a ≤ e.1 ∨ e.1 + 16 * e.2 ≤ a) →
      (prev ≠ 0 → (∀ a ∈ rest, prev + 16 ≤ a ∨ a + 16 * sz a ≤ prev) ∧
        (∀ e ∈ l, prev + 16 ≤ e.1 ∨ e.1 + 16 * e.2 ≤ prev) ∧ s.mem (prev + 8) % 2 = 0) →
      (if prev = 0 then s.used_list else get_actual_pointer s.mem prev) = curr →
      rest.length < fuel → l.length + rest.length < f →
      ∃ m2 fl2 ul2,
        sweep f fuel s prev curr =
          some { s with mem := m2, free_list := fl2, used_list := ul2 } ∧
        FreeChain m2 E fl2 (sweepFree mk sz rest l) ∧
        (prev ≠ 0 → ul2 = s.used_list) ∧
        UsedChain m2 (if prev = 0 then ul2 else get_actual_pointer m2 prev)
          (rest.filter (fun a => mk a)) ∧
        (prev ≠ 0 → m2 (prev + 8) % 2 = 0 ∧ m2 prev = s.mem prev) ∧
        (∀ c ∈ rest.filter (fun a => mk a), m2 (c + 8) % 2 = 0 ∧ m2 c = s.mem c) ∧
        (∀ x, (prev ≠ 0 → x ≠ prev + 8) → (∀ a ∈ rest, x ≠ a ∧ x ≠ a + 8) →
          (∀ e ∈ l, x ≠ e.1 ∧ x ≠ e.1 + 8) → m2 x = s.mem x) := by
  induction rest with
  | nil =>
    intro s l prev fuel curr _ hfc _ huc _ _ _ _ hprev hlink hfu _
    simp only [UsedChain] at huc
    obtain ⟨k, rfl⟩ : ∃ k, fuel = k + 1 := ⟨fuel - 1, by simp at hfu; omega⟩
    refine ⟨s.mem, s.free_list, s.used_list, ?_, ?_, fun _ => rfl, ?_, ?_, ?_, ?_⟩
    · rw [sweep, if_pos huc]
    · simpa [sweepFree] using hfc
    · simp only [List.filter_nil, UsedChain]
      rw [hlink]; exact huc
    · intro hp; exact ⟨(hprev hp).2.2, rfl⟩
    · intro c hc; simp at hc
    · intro x _ _ _; rfl
  | cons a0 t ih =>
    intro s l prev fuel a hE hfc hok huc hsm hbd hpw hdl hprev hlink hfu hff
    simp only [UsedChain] at huc
    obtain ⟨hcurr, ha0, hct⟩ := huc
    subst hcurr
    obtain ⟨k, rfl⟩ : ∃ k, fuel = k + 1 := ⟨fuel - 1, by simp at hfu; omega⟩
    have hma := hsm a (by simp)
    have hba := hbd a (by simp)
    have hpwa : ∀ c ∈ t, a + 16 * sz a ≤ c ∨ c + 16 * sz c ≤ a := (List.pairwise_cons.1 hpw).1
    have hpwt := (List.pairwise_cons.1 hpw).2
    have hbt : ∀ c ∈ t, 1 ≤ sz c ∧ c + 16 * sz c < W ∧ (E + 16 ≤ c ∨ c + 16 * sz c ≤ E) :=
      fun c hc => hbd c (List.mem_cons_of_mem _ hc)
    have hdla := hdl a (by simp)
    have hlm := FreeOK_mem E hok
    by_cases hm : mk a = true
    · -- marked: clear the flag and keep the block
      have hmt : ¬ (is_marked s.mem a = false) := by rw [hma.2, hm]; simp
      have hrel : MarkRel [a] s.mem (clear_marked s.mem a) := clear_marked_rel _ _ a (by simp)
      have hfr1 : ∀ x, x ≠ a + 8 → clear_marked s.mem a x = s.mem x :=
        fun x hx => hrel.1 x (fun c hc => by simp at hc; rw [hc]; exact hx)
      have hun : clear_marked s.mem a (a + 8) % 2 = 0 := by
        have hmk : is_marked s.mem a = true := by rw [hma.2, hm]
        rw [is_marked_iff] at hmk
        rw [clear_marked, if_pos ⟨hmk.1, hmk.2.1⟩, write_same, and_mask_mod]
      have hfcX : FreeChain (clear_marked s.mem a) E s.free_list l :=
        FreeChain_frame E (fun e he => by
          have h1 := hlm e he
          have h2 := hdla e he
          exact ⟨hfr1 _ (by omega), hfr1 _ (by omega)⟩) hfc
      have hucX : UsedChain (clear_marked s.mem a) (get_actual_pointer s.mem a) t :=
        UsedChain_frame t (fun c hc => hfr1 _ (by
          have := hpwa c hc; have := hbt c hc; omega)) hct
      have hsmX : ∀ c ∈ t, clear_marked s.mem a c = sz c ∧
          is_marked (clear_marked s.mem a) c = mk c := by
        intro c hc
        have h1 := hpwa c hc
        have h2 := hbt c hc
        have h3 := hsm c (List.mem_cons_of_mem _ hc)
        refine ⟨?_, ?_⟩
        · rw [hfr1 _ (by omega)]; exact h3.1
        · rw [is_marked_congr (hfr1 _ (by omega))]; exact h3.2
      have hprevX : a ≠ 0 → (∀ c ∈ t, a + 16 ≤ c ∨ c + 16 * sz c ≤ a) ∧
          (∀ e ∈ l, a + 16 ≤ e.1 ∨ e.1 + 16 * e.2 ≤ a) ∧
          clear_marked s.mem a (a + 8) % 2 = 0 :=
        fun _ => ⟨fun c hc => by have := hpwa c hc; omega,
          fun e he => by have := hdla e he; omega, hun⟩
      have hlinkX : (if a = 0 then s.used_list else
          get_actual_pointer (clear_marked s.mem a) a) = get_actual_pointer s.mem a := by
        rw [if_neg ha0]; exact hrel.actual a
      obtain ⟨m3, fl3, ul3, hsw, hfc3, hul3, huc3, hp3, hk3, hfr3⟩ :=
        ih { s with mem := clear_marked s.mem a } l a k (get_actual_pointer s.mem a) hE
          hfcX hok hucX hsmX hbt hpwt (fun c hc => hdl c (List.mem_cons_of_mem _ hc))
          hprevX hlinkX (by simp at hfu; omega) (by simp at hff; omega)
      have hul3' := hul3 ha0
      have hp3' := hp3 ha0
      simp only [if_neg ha0] at huc3
      refine ⟨m3, fl3, ul3, ?_, ?_, ?_, ?_, ?_, ?_, ?_⟩
      · rw [sweep, if_neg ha0]
        simp only [if_neg hmt]
        exact hsw
      · simpa [sweepFree, hm] using hfc3
      · intro _; exact hul3'
      · have hfil : (a :: t).filter (fun a => mk a) = a :: t.filter (fun a => mk a) := by
          simp [List.filter_cons, hm]
        rw [hfil]
        simp only [UsedChain]
        refine ⟨?_, ha0, huc3⟩
        by_cases hp0 : prev = 0
        · rw [if_pos hp0, hul3']
          rw [if_pos hp0] at hlink; exact hlink
        · rw [if_neg hp0]
          rw [if_neg hp0] at hlink
          have hpp := hprev hp0
          have h1 := hpp.1 a (by simp)
          have : m3 (prev + 8) = s.mem (prev + 8) := by
            rw [hfr3 (prev + 8) (fun _ => by omega)
              (fun c hc => by
                have := hpp.1 c (List.mem_cons_of_mem _ hc); have := hbt c hc; omega)
              (fun e he => by have := hpp.2.1 e he; have := hlm e he; omega)]
            exact hfr1 _ (by omega)
          rw [← hlink]
          simp only [get_actual_pointer, this]
      · intro hp0
        have hpp := hprev hp0
        have h1 := hpp.1 a (by simp)
        have hx : ∀ x, (x = prev ∨ x = prev + 8) → m3 x = s.mem x := by
          intro x hx
          rw [hfr3 x (fun _ => by omega)
            (fun c hc => by
              have := hpp.1 c (List.mem_cons_of_mem _ hc); have := hbt c hc; omega)
            (fun e he => by have := hpp.2.1 e he; have := hlm e he; omega)]
          exact hfr1 _ (by omega)
        exact ⟨by rw [hx _ (Or.inr rfl)]; exact hpp.2.2, hx _ (Or.inl rfl)⟩
      · intro c hc
        have hfil : (a :: t).filter (fun a => mk a) = a :: t.filter (fun a => mk a) := by
          simp [List.filter_cons, hm]
        rw [hfil] at hc
        rcases List.mem_cons.1 hc with rfl | hc
        · exact ⟨hp3'.1, by rw [hp3'.2]; exact hfr1 _ (by omega)⟩
        · have hct' : c ∈ t := (List.mem_filter.1 hc).1
          have h1 := hpwa c hct'
          have h2 := hbt c hct'
          exact ⟨(hk3 c hc).1, by rw [(hk3 c hc).2]; exact hfr1 _ (by omega)⟩
      · intro x _ hx2 hx3
        have hxa := hx2 a (by simp)
        rw [hfr3 x (fun _ => hxa.2) (fun c hc => hx2 c (List.mem_cons_of_mem _ hc)) hx3]
        exact hfr1 _ hxa.2
    · -- unmarked: unlink the block and give it back to the free list
      have hmf : is_marked s.mem a = false := by rw [hma.2]; simpa using hm
      have hnext : ∃ v, get_actual_pointer s.mem a = v &&& NOT_MARKED_MASK :=
        ⟨s.mem (a + 8), by simp only [get_actual_pointer, if_pos ha0]⟩
      obtain ⟨v, hv⟩ := hnext
      -- the state after unlinking
      obtain ⟨s1, hs1, hs1e, hs1f, hs1m, hs1p, hs1u, hs1fin⟩ : ∃ s1 : State,
          s1 = (if prev = 0 then { s with used_list := get_actual_pointer s.mem a }
            else { s with mem := s.mem.write (prev + 8) (get_actual_pointer s.mem a) }) ∧
          s1.empty = E ∧ s1.free_list = s.free_list ∧
          (∀ x, (prev ≠ 0 → x ≠ prev + 8) → s1.mem x = s.mem x) ∧
          (prev ≠ 0 → s1.mem (prev + 8) = get_actual_pointer s.mem a ∧
            s1.used_list = s.used_list) ∧
          (prev = 0 → s1.used_list = get_actual_pointer s.mem a) ∧
          (∀ m3 fl3 ul3, ({ s1 with mem := m3, free_list := fl3, used_list := ul3 } : State) =
            { s with mem := m3, free_list := fl3, used_list := ul3 }) := by
        by_cases hp0 : prev = 0
        · refine ⟨_, rfl, ?_, ?_, ?_, ?_, ?_, ?_⟩ <;> simp only [if_pos hp0]
          · exact hE
          · intro x _; trivial
          · intro h; exact absurd hp0 h
          · intro _; trivial
          · intro _ _ _; trivial
        · refine ⟨_, rfl, ?_, ?_, ?_, ?_, ?_, ?_⟩ <;> simp only [if_neg hp0]
          · exact hE
          · intro x hx; exact write_other _ _ (hx hp0)
          · intro _; exact ⟨write_same _ _ _, trivial⟩
          · intro h; exact absurd h hp0
          · intro _ _ _; trivial
      have hprevd : prev ≠ 0 → prev + 16 ≤ a ∨ a + 16 * sz a ≤ prev :=
        fun hp0 => (hprev hp0).1 a (by simp)
      have hs1a : s1.mem a = sz a := by
        rw [hs1m a (fun hp0 => by have := hprevd hp0; omega)]; exact hma.1
      obtain ⟨m2, fl2, hadd, hfc2, hfr2⟩ := add_to_free_list_spec s1 l a f
        (by rw [hs1e, hs1f]
            exact FreeChain_frame E (fun e he => by
              have h1 := hlm e he
              exact ⟨hs1m _ (fun hp0 => by have := (hprev hp0).2.1 e he; omega),
                hs1m _ (fun hp0 => by have := (hprev hp0).2.1 e he; omega)⟩) hfc)
        (by rw [hs1e]; exact hok) ha0 (by rw [hs1a]; exact hba.1) (by rw [hs1a]; exact hba.2.1)
        (by rw [hs1a]; exact hdla) (by simp at hff; omega)
      rw [hs1e, hs1a] at hfc2
      have hok2 : FreeOK E 1 (insertFree a (sz a) l) :=
        insertFree_ok E 1 a (sz a) l (by omega) hba.1 hba.2.1 hba.2.2 hok hdla
      -- memory after the insertion, relative to the memory before the step
      have hfr2s : ∀ x, (prev ≠ 0 → x ≠ prev + 8) → x ≠ a → x ≠ a + 8 →
          (∀ e ∈ l, x ≠ e.1 ∧ x ≠ e.1 + 8) → m2 x = s.mem x := by
        intro x h1 h2 h3 h4
        rw [hfr2 x h2 h3 h4]; exact hs1m x h1
      have hfrt : ∀ c ∈ t, m2 c = s.mem c ∧ m2 (c + 8) = s.mem (c + 8) := by
        intro c hc
        have h1 := hpwa c hc
        have h2 := hbt c hc
        have h3 : ∀ e ∈ l, c + 16 * sz c ≤ e.1 ∨ e.1 + 16 * e.2 ≤ c :=
          hdl c (List.mem_cons_of_mem _ hc)
        have h4 : prev ≠ 0 → prev + 16 ≤ c ∨ c + 16 * sz c ≤ prev :=
          fun hp0 => (hprev hp0).1 c (List.mem_cons_of_mem _ hc)
        constructor
        · exact hfr2s c (fun hp0 => by have := h4 hp0; omega) (by omega) (by omega)
            (fun e he => by have := h3 e he; have := hlm e he; omega)
        · exact hfr2s (c + 8) (fun hp0 => by have := h4 hp0; omega) (by omega) (by omega)
            (fun e he => by have := h3 e he; have := hlm e he; omega)
      have hprev2 : prev ≠ 0 → m2 (prev + 8) = get_actual_pointer s.mem a ∧
          m2 prev = s.mem prev := by
        intro hp0
        have h1 := hprevd hp0
        have hpp := hprev hp0
        constructor
        · rw [hfr2 (prev + 8) (by omega) (by omega)
            (fun e he => by have := hpp.2.1 e he; have := hlm e he; omega)]
          exact (hs1p hp0).1
        · rw [hfr2 prev (by omega) (by omega)
            (fun e he => by have := hpp.2.1 e he; have := hlm e he; omega)]
          exact hs1m _ (fun _ => by omega)
      have hucX : UsedChain m2 (get_actual_pointer s.mem a) t :=
        UsedChain_frame t (fun c hc => (hfrt c hc).2) hct
      have hsmX : ∀ c ∈ t, m2 c = sz c ∧ is_marked m2 c = mk c := by
        intro c hc
        have h3 := hsm c (List.mem_cons_of_mem _ hc)
        refine ⟨?_, ?_⟩
        · rw [(hfrt c hc).1]; exact h3.1
        · rw [is_marked_congr (hfrt c hc).2]; exact h3.2
      have hdlX : ∀ c ∈ t, ∀ e ∈ insertFree a (sz a) l,
          c + 16 * sz c ≤ e.1 ∨ e.1 + 16 * e.2 ≤ c :=
        fun c hc => insertFree_disj E 1 a (sz a) c (sz c) l (hbt c hc).1 hok2
          (by have := hpwa c hc; omega) (hdl c (List.mem_cons_of_mem _ hc))
      have hprevX : prev ≠ 0 → (∀ c ∈ t, prev + 16 ≤ c ∨ c + 16 * sz c ≤ prev) ∧
          (∀ e ∈ insertFree a (sz a) l, prev + 16 ≤ e.1 ∨ e.1 + 16 * e.2 ≤ prev) ∧
          m2 (prev + 8) % 2 = 0 := by
        intro hp0
        refine ⟨fun c hc => (hprev hp0).1 c (List.mem_cons_of_mem _ hc), ?_, ?_⟩
        · intro e he
          have := insertFree_disj E 1 a (sz a) prev 1 l (by omega) hok2
            (by have := hprevd hp0; omega)
            (fun g hg => by have := (hprev hp0).2.1 g hg; omega) e he
          omega
        · rw [(hprev2 hp0).1, hv]; exact and_mask_mod v
      have hlinkX : (if prev = 0 then s1.used_list else get_actual_pointer m2 prev) =
          get_actual_pointer s.mem a := by
        by_cases hp0 : prev = 0
        · rw [if_pos hp0]; exact hs1u hp0
        · rw [if_neg hp0, hv]
          exact actual_of_even m2 prev v hp0 (by rw [(hprev2 hp0).1, hv])
      obtain ⟨m3, fl3, ul3, hsw, hfc3, hul3, huc3, hp3, hk3, hfr3⟩ :=
        ih { s1 with mem := m2, free_list := fl2 } (insertFree a (sz a) l) prev k
          (get_actual_pointer s.mem a) hs1e hfc2 hok2 hucX hsmX hbt hpwt hdlX hprevX hlinkX
          (by simp at hfu; omega)
          (by have := insertFree_length a (sz a) l; simp at hff; omega)
      refine ⟨m3, fl3, ul3, ?_, ?_, ?_, ?_, ?_, ?_, ?_⟩
      · rw [sweep, if_neg ha0]
        simp only [if_pos hmf]
        rw [← hs1, hadd]
        simp only []
        rw [hsw]
        exact congrArg some (hs1fin m3 fl3 ul3)
      · simpa [sweepFree, hm] using hfc3
      · intro hp0
        rw [hul3 hp0]; exact (hs1p hp0).2
      · have hfil : (a :: t).filter (fun a => mk a) = t.filter (fun a => mk a) := by
          simp [List.filter_cons, hm]
        rw [hfil]; exact huc3
      · intro hp0
        exact ⟨(hp3 hp0).1, by rw [(hp3 hp0).2]; exact (hprev2 hp0).2⟩
      · intro c hc
        have hfil : (a :: t).filter (fun a => mk a) = t.filter (fun a => mk a) := by
          simp [List.filter_cons, hm]
        rw [hfil] at hc
        have hct' : c ∈ t := (List.mem_filter.1 hc).1
        exact ⟨(hk3 c hc).1, by rw [(hk3 c hc).2]; exact (hfrt c hct').1⟩
      · intro x hx1 hx2 hx3
        have hxa := hx2 a (by simp)
        rw [hfr3 x hx1 (fun c hc => hx2 c (List.mem_cons_of_mem _ hc))
          (fun e he => by
            rcases insertFree_addr a (sz a) l e he with h | ⟨g, hg, h⟩
            · rw [h]; exact hxa
            · rw [h]; exact hx3 g hg)]
        exact hfr2s x hx1 hxa.1 hxa.2 hx3

/-! ### One collection cycle on a well-formed state -/

theorem pairwise_forall {α : Type} (R : α → α → Prop) (hs : ∀ a b, R a b → R b a)
    {l : List α} (h : l.Pairwise R) : ∀ a ∈ l, ∀ b ∈ l, a = b ∨ R a b := by
  induction l with
  | nil => intro a ha; cases ha
  | cons x t ih =>
    intro a ha b hb
    have hx := (List.pairwise_cons.1 h).1
    have ht := ih (List.pairwise_cons.1 h).2
    rcases List.mem_cons.1 ha with rfl | ha2
    · rcases List.mem_cons.1 hb with rfl | hb2
      · left; rfl
      · right; exact hx b hb2
    · rcases List.mem_cons.1 hb with rfl | hb2
      · right; exact hs _ _ (hx a ha2)
      · exact ht a ha2 b hb2

theorem FreeOK_sep (E : Nat) {l : List (Nat × Nat)} :
    ∀ {lo : Nat}, FreeOK E lo l → ∀ e ∈ l, ∀ g ∈ l,
      e = g ∨ e.1 + 16 * e.2 < g.1 ∨ g.1 + 16 * g.2 < e.1 := by
  induction l with
  | nil => intro lo _ e he; cases he
  | cons c t ih =>
    intro lo h e he g hg
    simp only [FreeOK] at h
    have ht := FreeOK_mem E h.2.2.2.2
    rcases List.mem_cons.1 he with rfl | he2
    · rcases List.mem_cons.1 hg with rfl | hg2
      · left; rfl
      · right; left; have := (ht g hg2).1; omega
    · rcases List.mem_cons.1 hg with rfl | hg2
      · right; right; have := (ht e he2).1; omega
      · exact ih h.2.2.2.2 e he2 g hg2

/-- In a coalesced list a run of covered bytes lies inside one entry. -/
theorem covers_of_cov (E lo a sa : Nat) (l : List (Nat × Nat)) (hsa : 1 ≤ sa)
    (hok : FreeOK E lo l) (h : ∀ x, a ≤ x → x < a + 16 * sa → Cov l x) :
    ∃ e ∈ l, e.1 ≤ a ∧ a + 16 * sa ≤ e.1 + 16 * e.2 := by
  obtain ⟨e, he, h1, h2⟩ := h a (by omega) (by omega)
  refine ⟨e, he, h1, ?_⟩
  by_contra hcon
  obtain ⟨g, hg, h3, h4⟩ := h (e.1 + 16 * e.2) (by omega) (by omega)
  rcases FreeOK_sep E hok e he g hg with rfl | h5 | h5
  · omega
  · omega
  · have := (FreeOK_mem E hok e he).2.1
    omega

theorem sweepFree_ok (E : Nat) (mk : Nat → Bool) (sz : Nat → Nat) (rest : List Nat) :
    ∀ l : List (Nat × Nat), FreeOK E 1 l →
      (∀ a ∈ rest, a ≠ 0 ∧ 1 ≤ sz a ∧ a + 16 * sz a < W ∧ (E + 16 ≤ a ∨ a + 16 * sz a ≤ E)) →
      rest.Pairwise (fun a c => a + 16 * sz a ≤ c ∨ c + 16 * sz c ≤ a) →
      (∀ a ∈ rest, ∀ e ∈ l, a + 16 * sz a ≤ e.1 ∨ e.1 + 16 * e.2 ≤ a) →
      FreeOK E 1 (sweepFree mk sz rest l) ∧
      ∀ x, Cov (sweepFree mk sz rest l) x ↔
        Cov l x ∨ ∃ a ∈ rest, mk a = false ∧ a ≤ x ∧ x < a + 16 * sz a := by
  induction rest with
  | nil => intro l hok _ _ _; simp [sweepFree, hok]
  | cons a t ih =>
    intro l hok hbd hpw hdl
    have hba := hbd a (by simp)
    have hpwa := (List.pairwise_cons.1 hpw).1
    have hpwt := (List.pairwise_cons.1 hpw).2
    have hbt := fun c hc => hbd c (List.mem_cons_of_mem _ hc)
    by_cases hm : mk a = true
    · obtain ⟨h1, h2⟩ := ih l hok hbt hpwt (fun c hc => hdl c (List.mem_cons_of_mem _ hc))
      simp only [sweepFree, if_pos hm]
      refine ⟨h1, fun x => ?_⟩
      rw [h2 x]
      constructor
      · rintro (h | ⟨c, hc, h⟩)
        · left; exact h
        · right; exact ⟨c, List.mem_cons_of_mem _ hc, h⟩
      · rintro (h | ⟨c, hc, h⟩)
        · left; exact h
        · rcases List.mem_cons.1 hc with rfl | hc
          · rw [hm] at h; exact absurd h.1 (by simp)
          · right; exact ⟨c, hc, h⟩
    · have hok2 : FreeOK E 1 (insertFree a (sz a) l) :=
        insertFree_ok E 1 a (sz a) l (by omega) hba.2.1 hba.2.2.1 hba.2.2.2 hok
          (hdl a (by simp))
      obtain ⟨h1, h2⟩ := ih (insertFree a (sz a) l) hok2 hbt hpwt
        (fun c hc => insertFree_disj E 1 a (sz a) c (sz c) l (hbt c hc).2.1 hok2
          (by have := hpwa c hc; omega) (hdl c (List.mem_cons_of_mem _ hc)))
      simp only [sweepFree, if_neg hm]
      refine ⟨h1, fun x => ?_⟩
      rw [h2 x, insertFree_cov]
      constructor
      · rintro ((h | h) | ⟨c, hc, h⟩)
        · right; exact ⟨a, by simp, by simpa using hm, h⟩
        · left; exact h
        · right; exact ⟨c, List.mem_cons_of_mem _ hc, h⟩
      · rintro (h | ⟨c, hc, h⟩)
        · left; right; exact h
        · rcases List.mem_cons.1 hc with rfl | hc
          · left; left; exact h.2
          · right; exact ⟨c, hc, h⟩

theorem UsedChain_ne_zero {m : Mem} (l : List Nat) :
    ∀ {p : Nat}, UsedChain m p l → ∀ a ∈ l, a ≠ 0 := by
  induction l with
  | nil => intro p _ a ha; cases ha
  | cons c t ih =>
    intro p h a ha
    simp only [UsedChain] at h
    rcases List.mem_cons.1 ha with rfl | ha
    · exact h.2.1
    · exact ih h.2.2 a ha

theorem Hit_iff (m : Mem) (v b : Nat) (h1 : 1 ≤ m b) (h : b + 16 * m b < W) :
    Hit m v b ↔ b + 16 ≤ v ∧ v < b + 16 * m b := by
  simp only [Hit]
  rw [payload_start_eq b (by omega), payload_end_eq m b h1 h]

theorem gc_cycle_spec (s : State) (fl : List (Nat × Nat)) (ul : List Nat) (f : Nat)
    (hwf : WF s fl ul) (hrun : ¬ gc_skips s) (hbud : Budget f s fl ul) :
    ∃ m3 m4 fl4 ul4,
      gc_cycle f s = some { s with mem := m4, free_list := fl4, used_list := ul4 } ∧
      MarkRel ul s.mem m3 ∧
      (∀ b ∈ ul, ¬ StackRef s b → ¬ HeapRef s ul b → is_marked m3 b = false) ∧
      FreeChain m4 s.empty fl4 (sweepFree (is_marked m3) s.mem ul fl) ∧
      UsedChain m4 ul4 (ul.filter (fun a => is_marked m3 a)) ∧
      (∀ c ∈ ul.filter (fun a => is_marked m3 a), m4 (c + 8) % 2 = 0 ∧ m4 c = s.mem c) ∧
      (∀ x, (∀ a ∈ ul, x ≠ a ∧ x ≠ a + 8) → (∀ e ∈ fl, x ≠ e.1 ∧ x ≠ e.1 + 8) →
        m4 x = s.mem x) := by
  obtain ⟨hfc, hok, huc, hbd, hpw, hdl, hse⟩ := hwf
  obtain ⟨hb1, hb2, hb3⟩ := hbud
  have hlm := FreeOK_mem s.empty hok
  have hpf := pairwise_forall (fun a c => a + 16 * s.mem a ≤ c ∨ c + 16 * s.mem c ≤ a)
    (fun a b h => h.symm) hpw
  -- address facts
  have hN : ∀ a ∈ ul, ∀ b ∈ ul, b ≠ a + 8 := by
    intro a ha b hb
    have h1 := hbd a ha
    have h2 := hbd b hb
    rcases hpf a ha b hb with rfl | h
    · omega
    · omega
  have hheap : ∀ a ∈ ul, ∀ x, a + 16 ≤ x → x < a + 16 * s.mem a → ∀ c ∈ ul, x ≠ c + 8 := by
    intro a ha x hx1 hx2 c hc
    have h1 := hbd a ha
    have h2 := hbd c hc
    rcases hpf a ha c hc with rfl | h
    · omega
    · omega
  have hstack : ∀ k, s.stack_start + 8 * k < s.stack_end →
      ∀ a ∈ ul, s.stack_start + 8 * k ≠ a + 8 := by
    intro k hk a ha
    have h1 := hbd a ha
    omega
  have hfree : ∀ e ∈ fl, ∀ a ∈ ul, e.1 ≠ a + 8 ∧ e.1 + 8 ≠ a + 8 := by
    intro e he a ha
    have h1 := hbd a ha
    have h2 := hlm e he
    have h3 := hdl a ha e he
    omega
  -- phase 1
  obtain ⟨m1, hm1, hrel1, hun1⟩ := clear_marks_spec ul s.mem s.used_list f huc (by omega)
  have hsz1 : ∀ a ∈ ul, m1 a = s.mem a := fun a ha => hrel1.1 a (fun c hc => hN c hc a ha)
  -- phase 2
  obtain ⟨m2, hm2, hrel2, hfr2⟩ := scan_range_spec f s.stack_start s.stack_end
    { s with mem := m1 } ul (s.stack_end - s.stack_start) hse (by omega)
    (by simp only [gc_skips] at hrun; omega) hb2 hN (hrel1.chain ul huc) hstack
  have hrel12 := hrel1.trans hrel2
  have hsz2 : ∀ a ∈ ul, m2 a = s.mem a := fun a ha => hrel12.1 a (fun c hc => hN c hc a ha)
  -- phase 3
  obtain ⟨m3, hm3, hrel3, hfr3⟩ := scan_blocks_spec f ul s.mem (by omega) hb3 hN
    (fun a ha => by
      have := hbd a ha
      have hW : W = 18446744073709551616 := rfl
      omega) hheap ul (fun _ h => h)
    { s with mem := m2 } s.used_list f (hrel12.chain ul huc) (hrel12.chain ul huc) hsz2
    (by omega)
  have hrel13 := hrel12.trans hrel3
  have hsz3 : ∀ a ∈ ul, m3 a = s.mem a := fun a ha => hrel13.1 a (fun c hc => hN c hc a ha)
  -- phase 4
  obtain ⟨m4, fl4, ul4, hsw, hfc4, _, huc4, _, hk4, hfr4⟩ := sweep_spec f s.empty
    (is_marked m3) s.mem ul { s with mem := m3 } fl 0 f s.used_list rfl
    (FreeChain_frame s.empty (fun e he =>
      ⟨hrel13.1 _ (fun a ha => (hfree e he a ha).1),
       hrel13.1 _ (fun a ha => (hfree e he a ha).2)⟩) hfc)
    hok (hrel13.chain ul huc) (fun a ha => ⟨hsz3 a ha, rfl⟩)
    (fun a ha => by have := hbd a ha; exact ⟨this.1, this.2.1, this.2.2.2.1⟩)
    hpw hdl (fun h => absurd rfl h) rfl (by omega) (by omega)
  refine ⟨m3, m4, fl4, ul4, ?_, hrel13, ?_, hfc4, ?_, ?_, ?_⟩
  · simp only [gc_cycle, hm1, hm2, scan_heap, hm3]
    exact hsw
  · intro b hb hns hnh
    have hbb := hbd b hb
    have e3 : m3 (b + 8) = m2 (b + 8) := by
      apply hfr3 b hb
      intro a ha k hk
      show ¬ (is_pointer_valid (m2 (a + 16 + 8 * k)) = true ∧
        Hit m2 (m2 (a + 16 + 8 * k)) b)
      have hx : m2 (a + 16 + 8 * k) = s.mem (a + 16 + 8 * k) :=
        hrel12.1 _ (fun c hc => hheap a ha _ (by omega) hk c hc)
      rw [hx, Hit_congr (hsz2 b hb), Hit_iff s.mem _ b hbb.1 hbb.2.1]
      intro h
      exact hnh ⟨a, ha, k, hk, h.1, h.2.1, h.2.2⟩
    have e2 : m2 (b + 8) = m1 (b + 8) := by
      apply hfr2 b hb
      intro k hk
      show ¬ (is_pointer_valid (m1 (s.stack_start + 8 * k)) = true ∧
        Hit m1 (m1 (s.stack_start + 8 * k)) b)
      have hx : m1 (s.stack_start + 8 * k) = s.mem (s.stack_start + 8 * k) :=
        hrel1.1 _ (fun c hc => hstack k hk c hc)
      rw [hx, Hit_congr (hsz1 b hb), Hit_iff s.mem _ b hbb.1 hbb.2.1]
      intro h
      exact hns ⟨k, hk, h.1, h.2.1, h.2.2⟩
    rw [is_marked_congr (e3.trans e2)]
    exact hun1 b hb
  · simpa using huc4
  · intro c hc
    have := hk4 c hc
    exact ⟨this.1, by rw [this.2]; exact hsz3 c (List.mem_filter.1 hc).1⟩
  · intro x hx1 hx2
    have : m4 x = m3 x := hfr4 x (fun h => absurd rfl h) hx1 hx2
    rw [this]
    exact hrel13.1 x (fun a ha => (hx1 a ha).2)

/-! ### Reclamation and the free-list invariant (C5, C7) -/

theorem unreferenced_block_swept (s : State) (fl : List (Nat × Nat)) (ul : List Nat)
    (f B : Nat) (hwf : WF s fl ul) (hrun : ¬ gc_skips s) (hbud : Budget f s fl ul)
    (hB : B ∈ ul) (hns : ¬ StackRef s B) (hnh : ¬ HeapRef s ul B) :
    ∃ s2 fl2 ul2, gc_cycle f s = some s2 ∧
      FreeChain s2.mem s2.empty s2.free_list fl2 ∧ FreeOK s2.empty 1 fl2 ∧
      UsedChain s2.mem s2.used_list ul2 ∧ B ∉ ul2 ∧
      ∃ e ∈ fl2, e.1 ≤ B ∧ B + 16 * s.mem B ≤ e.1 + 16 * e.2 := by
  obtain ⟨m3, m4, fl4, ul4, hgc, _, hun, hfc4, huc4, _, _⟩ := gc_cycle_spec s fl ul f hwf hrun hbud
  obtain ⟨_, hok, huc, hbd, hpw, hdl, _⟩ := hwf
  have hne := UsedChain_ne_zero ul huc
  obtain ⟨hok2, hcov⟩ := sweepFree_ok s.empty (is_marked m3) s.mem ul fl hok
    (fun a ha => by have := hbd a ha; exact ⟨hne a ha, this.1, this.2.1, this.2.2.2.1⟩) hpw hdl
  have hBm : is_marked m3 B = false := hun B hB hns hnh
  refine ⟨_, _, _, hgc, hfc4, hok2, huc4, ?_, ?_⟩
  · intro h
    have := (List.mem_filter.1 h).2
    rw [hBm] at this
    exact absurd this (by simp)
  · exact covers_of_cov s.empty 1 B (s.mem B) _ (hbd B hB).1 hok2
      (fun x h1 h2 => (hcov x).2 (Or.inr ⟨B, hB, hBm, h1, h2⟩))

theorem gc_init_mem (env : StackEnv) (s : State) :
    (gc_init env s).mem = s.mem ∧ (gc_init env s).free_list = s.free_list ∧
    (gc_init env s).used_list = s.used_list ∧ (gc_init env s).empty = s.empty ∧
    (gc_init env s).sbrk_log = s.sbrk_log := by
  simp only [gc_init, get_stack_pointer]
  split
  · split
    · exact ⟨rfl, rfl, rfl, rfl, rfl⟩
    · split <;> exact ⟨rfl, rfl, rfl, rfl, rfl⟩
  · exact ⟨rfl, rfl, rfl, rfl, rfl⟩

/-- C5: on a well-formed state a used block `B` whose payload no scanned stack
word and no payload word of a used block points into is off the used list after
a non-skipped `gc`, and one entry of the free list then covers its whole extent. -/
theorem gc_reclaims_unreferenced (env : StackEnv) (s : State) (fl : List (Nat × Nat))
    (ul : List Nat) (f B : Nat)
    (hwf : WF (gc_init env s) fl ul) (hrun : ¬ gc_skips (gc_init env s))
    (hbud : Budget f (gc_init env s) fl ul) (hB : B ∈ ul)
    (hstack : ∀ k, (gc_init env s).stack_start + 8 * k < (gc_init env s).stack_end →
      ¬ (B + 16 ≤ s.mem ((gc_init env s).stack_start + 8 * k) ∧
         s.mem ((gc_init env s).stack_start + 8 * k) < B + 16 * s.mem B))
    (hheap : ∀ a ∈ ul, ∀ k, a + 16 + 8 * k < a + 16 * s.mem a →
      ¬ (B + 16 ≤ s.mem (a + 16 + 8 * k) ∧ s.mem (a + 16 + 8 * k) < B + 16 * s.mem B)) :
    ∃ s2 fl2 ul2, gc env f s = some s2 ∧
      FreeChain s2.mem s2.empty s2.free_list fl2 ∧
      UsedChain s2.mem s2.used_list ul2 ∧ B ∉ ul2 ∧
      ∃ e ∈ fl2, e.1 ≤ B ∧ B + 16 * s.mem B ≤ e.1 + 16 * e.2 := by
  have hm := (gc_init_mem env s).1
  obtain ⟨s2, fl2, ul2, hgc, h1, _, h3, h4, h5⟩ := unreferenced_block_swept
    (gc_init env s) fl ul f B hwf hrun hbud hB
    (by
      rintro ⟨k, hk, _, h2, h3⟩
      rw [hm] at h2 h3
      exact hstack k hk ⟨h2, h3⟩)
    (by
      rintro ⟨a, ha, k, hk, _, h2, h3⟩
      rw [hm] at hk h2 h3
      exact hheap a ha k hk ⟨h2, h3⟩)
  refine ⟨s2, fl2, ul2, ?_, h1, h3, h4, ?_⟩
  · simp only [gc, if_neg hrun]; exact hgc
  · rw [hm] at h5; exact h5

theorem gc_reclaims_unreferenced_witness :
    ∃ s2 fl2 ul2, gc env_ok 40 two_used = some s2 ∧
      FreeChain s2.mem s2.empty s2.free_list fl2 ∧
      UsedChain s2.mem s2.used_list ul2 ∧ 65568 ∉ ul2 ∧
      ∃ e ∈ fl2, e.1 ≤ 65568 ∧ 65568 + 16 * two_used.mem 65568 ≤ e.1 + 16 * e.2 :=
  gc_reclaims_unreferenced env_ok two_used [(65600, 252)] [65568, 65536] 40 65568
    (by decide) (by decide) (by decide) (by decide)
    (by
      intro k hk
      have hk2 : k < 2 := by
        have : (gc_init env_ok two_used).stack_start = 1000 := by decide
        have : (gc_init env_ok two_used).stack_end = 1016 := by decide
        omega
      interval_cases k <;> decide)
    (by
      intro a ha k hk
      simp only [List.mem_cons, List.mem_singleton, List.not_mem_nil, or_false] at ha
      rcases ha with rfl | rfl
      · have h2 : two_used.mem 65568 = 2 := by decide
        have hk2 : k < 2 := by omega
        interval_cases k <;> decide
      · have h2 : two_used.mem 65536 = 2 := by decide
        have hk2 : k < 2 := by omega
        interval_cases k <;> decide)

/-- C7: `add_to_free_list` keeps a sentinel-terminated, strictly ascending, fully
coalesced free list in that shape when the inserted block overlaps no entry, and
so does a non-skipped `gc` on a well-formed state. -/
theorem free_list_invariant_preserved
    (s : State) (l : List (Nat × Nat)) (block fuel : Nat)
    (hc : FreeChain s.mem s.empty s.free_list l) (hok : FreeOK s.empty 1 l)
    (hb0 : block ≠ 0) (hsz : 1 ≤ s.mem block) (hW : block + 16 * s.mem block < W)
    (hE : s.empty + 16 ≤ block ∨ block + 16 * s.mem block ≤ s.empty)
    (hd : ∀ e ∈ l, block + 16 * s.mem block ≤ e.1 ∨ e.1 + 16 * e.2 ≤ block)
    (hf : l.length < fuel)
    (env : StackEnv) (t : State) (fl : List (Nat × Nat)) (ul : List Nat) (f : Nat)
    (hwf : WF (gc_init env t) fl ul) (hrun : ¬ gc_skips (gc_init env t))
    (hbud : Budget f (gc_init env t) fl ul) :
    (∃ s2 l2, add_to_free_list fuel block s = some s2 ∧
      FreeChain s2.mem s2.empty s2.free_list l2 ∧ FreeOK s2.empty 1 l2) ∧
    (∃ t2 fl2, gc env f t = some t2 ∧
      FreeChain t2.mem t2.empty t2.free_list fl2 ∧ FreeOK t2.empty 1 fl2) := by
  constructor
  · obtain ⟨m2, fl2, hadd, hfc, _⟩ := add_to_free_list_spec s l block fuel hc hok hb0 hsz hW hd hf
    exact ⟨_, _, hadd, hfc,
      insertFree_ok s.empty 1 block (s.mem block) l (by omega) hsz hW hE hok hd⟩
  · obtain ⟨m3, m4, fl4, ul4, hgc, _, _, hfc4, _, _, _⟩ :=
      gc_cycle_spec (gc_init env t) fl ul f hwf hrun hbud
    obtain ⟨_, hok2, huc, hbd, hpw, hdl, _⟩ := hwf
    have hne := UsedChain_ne_zero ul huc
    obtain ⟨hok3, _⟩ := sweepFree_ok (gc_init env t).empty (is_marked m3) (gc_init env t).mem
      ul fl hok2
      (fun a ha => by have := hbd a ha; exact ⟨hne a ha, this.1, this.2.1, this.2.2.2.1⟩)
      hpw hdl
    refine ⟨{ gc_init env t with mem := m4, free_list := fl4, used_list := ul4 }, _, ?_,
      hfc4, hok3⟩
    simp only [gc, if_neg hrun]; exact hgc

theorem free_list_invariant_preserved_witness :
    (∃ s2 l2, add_to_free_list 5 65568 two_used = some s2 ∧
      FreeChain s2.mem s2.empty s2.free_list l2 ∧ FreeOK s2.empty 1 l2) ∧
    (∃ t2 fl2, gc env_ok 40 two_used = some t2 ∧
      FreeChain t2.mem t2.empty t2.free_list fl2 ∧ FreeOK t2.empty 1 fl2) :=
  free_list_invariant_preserved two_used [(65600, 252)] 65568 5
    (by decide) (by decide) (by decide) (by decide) (by decide) (by decide) (by decide)
    (by decide) env_ok two_used [(65600, 252)] [65568, 65536] 40
    (by decide) (by decide) (by decide)

/-! ### Failure paths (C8, C9, C10) -/

theorem find_fit_none_fits (m : Mem) (E total : Nat) (l : List (Nat × Nat)) :
    ∀ (prev curr fuel : Nat), FreeChain m E curr l → (∀ e ∈ l, e.2 < total) →
      l.length < fuel → ∃ p, find_fit m E total fuel prev curr = some (p, E) := by
  induction l with
  | nil =>
    intro prev curr fuel hc _ hf
    simp only [FreeChain] at hc
    obtain ⟨k, rfl⟩ : ∃ k, fuel = k + 1 := ⟨fuel - 1, by simp at hf; omega⟩
    exact ⟨prev, by rw [find_fit, if_neg (by simp [hc]), hc]⟩
  | cons c t ih =>
    intro prev curr fuel hc hs hf
    simp only [FreeChain] at hc
    obtain ⟨hcurr, hcs, hct⟩ := hc
    obtain ⟨k, rfl⟩ : ∃ k, fuel = k + 1 := ⟨fuel - 1, by simp at hf; omega⟩
    by_cases hE : curr = E
    · exact ⟨prev, by rw [find_fit, if_neg (by simp [hE]), hE]⟩
    · obtain ⟨p, hp⟩ := ih c.1 (m (c.1 + 8)) k hct
        (fun e he => hs e (List.mem_cons_of_mem _ he)) (by simp at hf; omega)
      refine ⟨p, ?_⟩
      have hlt : m curr < total := by rw [hcurr, hcs]; exact hs c (by simp)
      rw [find_fit, if_pos ⟨hE, hlt⟩, hcurr]
      exact hp

/-- C9: `gc_alloc(0)` returns `NULL` and leaves the whole state as it was: no list
is touched and `sbrk` is not called (its log is unchanged), whatever the budget. -/
theorem gc_alloc_zero (sbrk : Nat → Option Nat) (fuel : Nat) (s : State) :
    gc_alloc sbrk fuel 0 s = some (0, s) := by
  simp [gc_alloc]

/-- C10: when the recorded root range is degenerate after the initialisation
attempt, `gc` returns at once; memory (every size and mark flag), `free_list` and
`used_list` are unchanged. -/
theorem gc_skips_degenerate_range (env : StackEnv) (f : Nat) (s : State)
    (h : gc_skips (gc_init env s)) :
    ∃ s2, gc env f s = some s2 ∧ s2.mem = s.mem ∧ s2.free_list = s.free_list ∧
      s2.used_list = s.used_list := by
  have hm := gc_init_mem env s
  exact ⟨gc_init env s, by simp only [gc, if_pos h], hm.1, hm.2.1, hm.2.2.1⟩

theorem gc_skips_degenerate_range_witness :
    ∃ s2, gc env_fail 0 { two_used with stack_start := 0, stack_end := 0, initialized := 0 } =
        some s2 ∧ s2.mem = two_used.mem ∧ s2.free_list = two_used.free_list ∧
      s2.used_list = two_used.used_list :=
  gc_skips_degenerate_range env_fail 0
    { two_used with stack_start := 0, stack_end := 0, initialized := 0 } (by decide)

/-! ### The memoized root range (C6) -/

theorem add_to_free_list_range (fuel block : Nat) (s s2 : State)
    (h : add_to_free_list fuel block s = some s2) : SameRange s s2 := by
  simp only [add_to_free_list] at h
  split at h
  · cases h; exact ⟨rfl, rfl, rfl⟩
  · split at h
    · cases h; exact ⟨rfl, rfl, rfl⟩
    · split at h
      · cases h
      · cases h; exact ⟨rfl, rfl, rfl⟩

theorem sweep_range (f : Nat) :
    ∀ (fuel : Nat) (s : State) (prev curr : Nat) (s2 : State),
      sweep f fuel s prev curr = some s2 → SameRange s s2 := by
  intro fuel
  induction fuel with
  | zero => intro s prev curr s2 h; simp [sweep] at h
  | succ k ih =>
    intro s prev curr s2 h
    rw [sweep] at h
    split at h
    · cases h; exact ⟨rfl, rfl, rfl⟩
    · simp only [] at h
      split at h
      · split at h
        · cases h
        · rename_i s3 hadd
          have h1 := add_to_free_list_range _ _ _ _ hadd
          have h2 := ih _ _ _ _ h
          have h0 : SameRange s (if prev = 0 then
              { s with used_list := get_actual_pointer s.mem curr }
              else { s with mem := s.mem.write (prev + 8) (get_actual_pointer s.mem curr) }) := by
            split <;> exact ⟨rfl, rfl, rfl⟩
          exact ⟨h2.1.trans (h1.1.trans h0.1), h2.2.1.trans (h1.2.1.trans h0.2.1),
            h2.2.2.trans (h1.2.2.trans h0.2.2)⟩
      · have h2 := ih _ _ _ _ h
        exact ⟨h2.1, h2.2.1, h2.2.2⟩

theorem scan_range_range (f start limit : Nat) (s s2 : State)
    (h : scan_range f start limit s = some s2) : SameRange s s2 := by
  simp only [scan_range] at h
  split at h
  · cases h; exact ⟨rfl, rfl, rfl⟩
  · split at h
    · cases h
    · cases h; exact ⟨rfl, rfl, rfl⟩

theorem scan_blocks_range (f : Nat) :
    ∀ (fuel : Nat) (s : State) (block : Nat) (s2 : State),
      scan_blocks f fuel s block = some s2 → SameRange s s2 := by
  intro fuel
  induction fuel with
  | zero => intro s block s2 h; simp [scan_blocks] at h
  | succ k ih =>
    intro s block s2 h
    rw [scan_blocks] at h
    split at h
    · cases h; exact ⟨rfl, rfl, rfl⟩
    · split at h
      · cases h
      · rename_i s3 hsr
        have h1 := scan_range_range _ _ _ _ _ hsr
        have h2 := ih _ _ _ h
        exact ⟨h2.1.trans h1.1, h2.2.1.trans h1.2.1, h2.2.2.trans h1.2.2⟩

theorem gc_cycle_range (f : Nat) (s s2 : State) (h : gc_cycle f s = some s2) :
    SameRange s s2 := by
  simp only [gc_cycle] at h
  split at h
  · cases h
  · split at h
    · cases h
    · rename_i m1 _ s3 hsr
      split at h
      · cases h
      · rename_i s4 hsh
        have h1 := scan_range_range _ _ _ _ _ hsr
        have h2 := scan_blocks_range _ _ _ _ _ hsh
        have h3 := sweep_range _ _ _ _ _ _ h
        exact ⟨h3.1.trans (h2.1.trans h1.1), h3.2.1.trans (h2.2.1.trans h1.2.1),
          h3.2.2.trans (h2.2.2.trans h1.2.2)⟩

theorem gc_range (env : StackEnv) (f : Nat) (s s2 : State) (h : gc env f s = some s2) :
    SameRange (gc_init env s) s2 := by
  simp only [gc] at h
  split at h
  · cases h; exact ⟨rfl, rfl, rfl⟩
  · exact gc_cycle_range f _ _ h

/-- C6, refuted as stated: the first `gc` of a program records the stack pointer
`1000`; a second `gc` entered with stack pointer `984` still scans from `1000`. -/
theorem second_gc_scans_from_first_stack_pointer :
    (gc env_ok 40 { two_used with stack_start := 0, stack_end := 0, initialized := 0 }).map
      (fun s1 => ((gc_init env_deeper s1).stack_start, env_deeper.sp)) = some (1000, 984) := by
  decide

theorem SameRange_trans {s s2 s3 : State} (h1 : SameRange s s2) (h2 : SameRange s2 s3) :
    SameRange s s3 :=
  ⟨h2.1.trans h1.1, h2.2.1.trans h1.2.1, h2.2.2.trans h1.2.2⟩

theorem take_block_range (fuel total prev curr : Nat) (s : State) (p : Nat) (s2 : State)
    (h : take_block fuel total prev curr s = some (p, s2)) : SameRange s s2 := by
  have h0 : SameRange s (if prev ≠ 0 then
      { s with mem := s.mem.write (prev + 8) (s.mem (curr + 8)) }
      else { s with free_list := s.mem (curr + 8) }) := by
    split <;> exact ⟨rfl, rfl, rfl⟩
  simp only [take_block] at h
  generalize (if prev ≠ 0 then
      ({ s with mem := s.mem.write (prev + 8) (s.mem (curr + 8)) } : State)
      else { s with free_list := s.mem (curr + 8) }) = s1 at h h0
  by_cases hr : (split_block s1.mem curr total).1 ≠ 0
  · rw [if_pos hr] at h
    split at h
    · cases h
    · rename_i s3 hs3
      cases h
      have h1 := add_to_free_list_range _ _ _ _ hs3
      exact SameRange_trans h0 ⟨h1.1, h1.2.1, h1.2.2⟩
  · rw [if_neg hr] at h
    cases h
    exact h0

theorem get_more_memory_range (sbrk : Nat → Option Nat) (size : Nat) (s : State) :
    SameRange s (get_more_memory sbrk size s).2 := by
  simp only [get_more_memory]
  split <;> exact ⟨rfl, rfl, rfl⟩

theorem gc_alloc_range (sbrk : Nat → Option Nat) (fuel size : Nat) (s : State) (p : Nat)
    (s2 : State) (h : gc_alloc sbrk fuel size s = some (p, s2)) : SameRange s s2 := by
  simp only [gc_alloc] at h
  split at h
  · cases h; exact ⟨rfl, rfl, rfl⟩
  · split at h
    · cases h
    · split at h
      · have hg := get_more_memory_range sbrk (total_units size) s
        split at h
        · cases h; exact hg
        · split at h
          · cases h
          · rename_i s3 hadd
            have h1 := add_to_free_list_range _ _ _ _ hadd
            have h2 := take_block_range _ _ _ _ _ _ _ h
            exact SameRange_trans (SameRange_trans hg h1) h2
      · exact take_block_range _ _ _ _ _ _ _ h

theorem print_lists_range (f : Nat) (s s2 : State) (h : print_lists f s = some s2) :
    SameRange s s2 := by
  simp only [print_lists] at h
  split at h
  · cases h
  · split at h
    · cases h
    · cases h; exact ⟨rfl, rfl, rfl⟩

theorem gc_destroy_range (f : Nat) (s s2 : State) (h : gc_destroy f s = some s2) :
    SameRange s s2 := by
  simp only [gc_destroy] at h
  split at h
  · cases h
  · split at h
    · cases h
    · cases h; exact ⟨rfl, rfl, rfl⟩

theorem gc_init_done (env : StackEnv) (s : State) (h : s.initialized ≠ 0) :
    gc_init env s = s := by
  simp only [gc_init, if_neg h]

theorem run_call_range (c : Call) (s s2 : State) (hi : s.initialized ≠ 0)
    (h : run_call c s = some s2) : SameRange s s2 := by
  cases c with
  | alloc sbrk f size =>
    simp only [run_call] at h
    cases hg : gc_alloc sbrk f size s with
    | none => rw [hg] at h; cases h
    | some r =>
      rw [hg] at h
      cases h
      exact gc_alloc_range sbrk f size s r.1 r.2 hg
  | collect env f =>
    simp only [run_call] at h
    have := gc_range env f s s2 h
    rw [gc_init_done env s hi] at this
    exact this
  | print f => exact print_lists_range f s s2 h
  | destroy f => exact gc_destroy_range f s s2 h
  | store addr v =>
    simp only [run_call] at h
    cases h
    exact ⟨rfl, rfl, rfl⟩

theorem run_calls_range (calls : List Call) :
    ∀ (s s2 : State), s.initialized ≠ 0 → run_calls calls s = some s2 → SameRange s s2 := by
  induction calls with
  | nil => intro s s2 _ h; simp only [run_calls] at h; cases h; exact ⟨rfl, rfl, rfl⟩
  | cons c t ih =>
    intro s s2 hi h
    simp only [run_calls] at h
    cases hc : run_call c s with
    | none => rw [hc] at h; cases h
    | some s1 =>
      rw [hc] at h
      have h1 := run_call_range c s s1 hi hc
      have h2 := ih s1 s2 (by rw [h1.2.2]; exact hi) h
      exact SameRange_trans h1 h2

/-- C6, amended: the first `gc` (the one that finds `initialized == 0`), when both
thread-attribute queries succeed, scans from the stack pointer read in that call up
to stack base plus size.  Every later `gc`, after any sequence of `gc_alloc`, `gc`,
`print_lists` and `gc_destroy` calls and stores to memory, scans that same memoized
range, whatever the stack pointer of the later call is.  Only a call of
`get_stack_pointer` by the program itself replaces the range: the next `gc` then
scans from the stack pointer read by that call. -/
theorem gc_root_range_memoized (env1 env2 env3 : StackEnv) (f : Nat) (calls : List Call)
    (s s1 s2 : State)
    (h0 : s.initialized = 0) (ha : env1.getattr_ok = true) (hs : env1.getstack_ok = true)
    (h1 : gc env1 f s = some s1) (h2 : run_calls calls s1 = some s2)
    (ha3 : env3.getattr_ok = true) (hs3 : env3.getstack_ok = true) :
    ((gc_init env1 s).stack_start = env1.sp ∧
      (gc_init env1 s).stack_end = (env1.stack_addr + env1.stack_size) % W) ∧
    ((gc_init env2 s1).stack_start = env1.sp ∧
      (gc_init env2 s1).stack_end = (env1.stack_addr + env1.stack_size) % W) ∧
    ((gc_init env2 s2).stack_start = env1.sp ∧
      (gc_init env2 s2).stack_end = (env1.stack_addr + env1.stack_size) % W) ∧
    ((gc_init env2 (get_stack_pointer env3 s2)).stack_start = env3.sp ∧
      (gc_init env2 (get_stack_pointer env3 s2)).stack_end =
        (env3.stack_addr + env3.stack_size) % W) := by
  have hi : (gc_init env1 s).stack_start = env1.sp ∧
      (gc_init env1 s).stack_end = (env1.stack_addr + env1.stack_size) % W ∧
      (gc_init env1 s).initialized = 1 := by
    simp [gc_init, get_stack_pointer, h0, ha, hs]
  have hr := gc_range env1 f s s1 h1
  have hi1 : s1.initialized ≠ 0 := by rw [hr.2.2, hi.2.2]; decide
  have hr2 := run_calls_range calls s1 s2 hi1 h2
  have hi2 : s2.initialized ≠ 0 := by rw [hr2.2.2]; exact hi1
  have hg3 : (get_stack_pointer env3 s2).stack_start = env3.sp ∧
      (get_stack_pointer env3 s2).stack_end = (env3.stack_addr + env3.stack_size) % W ∧
      (get_stack_pointer env3 s2).initialized = s2.initialized := by
    simp [get_stack_pointer, ha3, hs3]
  refine ⟨⟨hi.1, hi.2.1⟩, ⟨?_, ?_⟩, ⟨?_, ?_⟩, ?_⟩
  · rw [gc_init_done env2 s1 hi1, hr.1]; exact hi.1
  · rw [gc_init_done env2 s1 hi1, hr.2.1]; exact hi.2.1
  · rw [gc_init_done env2 s2 hi2, hr2.1, hr.1]; exact hi.1
  · rw [gc_init_done env2 s2 hi2, hr2.2.1, hr.2.1]; exact hi.2.1
  · rw [gc_init_done env2 _ (by rw [hg3.2.2]; exact hi2)]
    exact ⟨hg3.1, hg3.2.1⟩

/-! ### The code at concrete states (C1, C2, C3, C4) -/

set_option maxRecDepth 100000 in
/-- C1, the code at the driver of `main.c`: when `test_gc` calls `gc()` the state
is well-formed, the block of `will_survive` (header `65536`, payload `65552`) is
the last node of the used list and the scanned stack word at `1000` holds its
payload address; after `gc()` the stack word is unchanged but the used list is
empty and the block is part of the single free entry. -/
theorem test_gc_loses_will_survive :
    (test_gc_before_gc (sbrk_at 65536) 40 1000 (init_state 512)).map
        (fun s => (s.mem 1000, s.mem (65536 + 8),
          decide (WF (gc_init env_ok s) [(66848, 174)] test_gc_used),
          decide (gc_skips (gc_init env_ok s)))) = some (65552, 0, true, false) ∧
    (test_gc (sbrk_at 65536) env_ok 40 1000 (init_state 512)).map
        (fun s => (s.mem 1000, s.used_list, s.free_list, s.mem s.free_list,
          s.mem (s.free_list + 8))) = some (65552, 0, 65536, 256, 512) := by
  decide

/-- C4, the code at a well-formed state with two used blocks and a stack word
pointing into the newer one: the first `gc` keeps the newer block, the second
`gc`, with nothing changed in between, reclaims it. -/
theorem second_gc_changes_partition :
    WF newer_rooted [(65600, 252)] [65568, 65536] ∧
    (gc env_ok 40 newer_rooted).map
        (fun s => (s.mem 1000, decide (UsedChain s.mem s.used_list [65568]),
          decide (FreeChain s.mem s.empty s.free_list [(65536, 2), (65600, 252)]))) =
      some (65584, true, true) ∧
    ((gc env_ok 40 newer_rooted).bind (gc env_ok 40)).map
        (fun s => (s.mem 1000, decide (UsedChain s.mem s.used_list []),
          decide (FreeChain s.mem s.empty s.free_list [(65536, 256)]))) =
      some (65584, true, true) := by
  decide

/-- C2, the code at a well-formed state whose first free entry has two units: a
request of 8000 bytes (501 units) finds no fit, grows the arena, and then hands out
the two-unit entry `65536`, whose payload holds 16 bytes. -/
theorem gc_alloc_hands_out_short_block :
    WF small_free [(65536, 2), (65600, 252)] [65568] ∧
    total_units 8000 = 501 ∧
    (gc_alloc (sbrk_at 69632) 40 8000 small_free).map
        (fun r => (r.1, r.2.used_list, r.2.mem r.2.used_list, r.2.sbrk_log)) =
      some (65552, 65536, 2, [4096, 8016]) := by
  decide

/-- C3, the code at the initial state: a request of 4080 bytes needs exactly the
256 units of the page that `sbrk` grants; the block handed out (`65536`) becomes the
head of the used list and is at the same time put back as the head of the free
list, whose link now is the old `used_list` (`NULL`) instead of the sentinel. -/
theorem gc_alloc_exact_fit_stays_free :
    WF (init_state 512) [] [] ∧
    total_units 4080 = 256 ∧
    (gc_alloc (sbrk_at 65536) 40 4080 (init_state 512)).map
        (fun r => (r.1, r.2.used_list, r.2.free_list, r.2.mem 65536, r.2.mem (65536 + 8))) =
      some (65552, 65536, 65536, 256, 0) := by
  decide

theorem gc_root_range_memoized_witness :
    ((gc_init env_ok (init_state 512)).stack_start = env_ok.sp ∧
      (gc_init env_ok (init_state 512)).stack_end =
        (env_ok.stack_addr + env_ok.stack_size) % W) ∧
    ((gc_init env_deeper memo_first).stack_start = env_ok.sp ∧
      (gc_init env_deeper memo_first).stack_end =
        (env_ok.stack_addr + env_ok.stack_size) % W) ∧
    ((gc_init env_deeper memo_after).stack_start = env_ok.sp ∧
      (gc_init env_deeper memo_after).stack_end =
        (env_ok.stack_addr + env_ok.stack_size) % W) ∧
    ((gc_init env_ok (get_stack_pointer env_deeper memo_after)).stack_start = env_deeper.sp ∧
      (gc_init env_ok (get_stack_pointer env_deeper memo_after)).stack_end =
        (env_deeper.stack_addr + env_deeper.stack_size) % W) :=
  gc_root_range_memoized env_ok env_deeper env_deeper 40 memo_calls (init_state 512)
    memo_first memo_after rfl rfl rfl rfl rfl rfl rfl

/-- The example program runs through: it ends with one used block, obtained by
a second request to `sbrk`, and with the first recorded stack pointer. -/
theorem memo_calls_run :
    (run_calls memo_calls memo_first).isSome = true ∧ memo_after.used_list = 69632 ∧
    memo_after.sbrk_log = [4096, 4096] ∧ memo_after.stack_start = 1000 := by
  decide

/-! ### Mark-bit tagging on one block (C19, C20) -/

theorem and_mask_of_even (x : Nat) (h2 : x % 2 = 0) (hW : x < W) : x &&& NOT_MARKED_MASK = x := by
  have h1 : x &&& (NOT_MARKED_MASK ||| 1) = x &&& NOT_MARKED_MASK := by
    rw [Nat.and_or_distrib_left, Nat.and_one_is_mod, h2, Nat.or_zero]
  have h3 : NOT_MARKED_MASK ||| 1 = 2 ^ 64 - 1 := by decide
  rw [← h1, h3]
  exact Nat.and_pow_two_sub_one_of_lt_two_pow hW

theorem or_mask_or (x : Nat) : (x ||| MARKED_MASK) ||| MARKED_MASK = x ||| MARKED_MASK := by
  rw [Nat.or_assoc, Nat.or_self]

theorem or_mask_ne_zero (x : Nat) : x ||| MARKED_MASK ≠ 0 := by
  intro h
  have := or_mask_mod x
  rw [h] at this
  omega

theorem set_marked_actual (m : Mem) (b a : Nat) :
    get_actual_pointer (set_marked m b) a = get_actual_pointer m a :=
  (set_marked_rel [b] m b (by simp)).actual a

theorem clear_marked_actual (m : Mem) (b a : Nat) :
    get_actual_pointer (clear_marked m b) a = get_actual_pointer m a :=
  (clear_marked_rel [b] m b (by simp)).actual a

theorem set_marked_idem (m : Mem) (b : Nat) : set_marked (set_marked m b) b = set_marked m b := by
  by_cases hc : b ≠ 0 ∧ m (b + 8) ≠ 0
  · have h1 : set_marked m b = m.write (b + 8) (m (b + 8) ||| MARKED_MASK) := by
      rw [set_marked, if_pos hc]
    have hc2 : b ≠ 0 ∧ (set_marked m b) (b + 8) ≠ 0 := by
      rw [h1, write_same]; exact ⟨hc.1, or_mask_ne_zero _⟩
    funext x
    conv_lhs => rw [set_marked, if_pos hc2]
    rw [h1]
    by_cases hx : x = b + 8
    · subst hx; simp only [write_same]; exact or_mask_or _
    · simp only [write_other _ _ hx]
  · have h1 : set_marked m b = m := by rw [set_marked, if_neg hc]
    rw [h1, h1]

theorem clear_marked_idem (m : Mem) (b : Nat) :
    clear_marked (clear_marked m b) b = clear_marked m b := by
  by_cases hc : b ≠ 0 ∧ m (b + 8) ≠ 0
  · have h1 : clear_marked m b = m.write (b + 8) (m (b + 8) &&& NOT_MARKED_MASK) := by
      rw [clear_marked, if_pos hc]
    by_cases hc2 : b ≠ 0 ∧ (clear_marked m b) (b + 8) ≠ 0
    · funext x
      conv_lhs => rw [clear_marked, if_pos hc2]
      rw [h1]
      by_cases hx : x = b + 8
      · subst hx; simp only [write_same]; exact and_mask_and _
      · simp only [write_other _ _ hx]
    · rw [clear_marked, if_neg hc2]
  · have h1 : clear_marked m b = m := by rw [clear_marked, if_neg hc]
    rw [h1, h1]

theorem set_marked_other (m : Mem) (b x : Nat) (h : x ≠ b + 8) : set_marked m b x = m x := by
  simp only [set_marked]
  split
  · exact write_other _ _ h
  · rfl

theorem clear_marked_other (m : Mem) (b x : Nat) (h : x ≠ b + 8) : clear_marked m b x = m x := by
  simp only [clear_marked]
  split
  · exact write_other _ _ h
  · rfl

theorem set_marked_marked (m : Mem) (b : Nat) (hb : b ≠ 0) (hn : m (b + 8) ≠ 0) :
    is_marked (set_marked m b) b = true := by
  rw [is_marked_iff, set_marked, if_pos ⟨hb, hn⟩, write_same]
  exact ⟨hb, or_mask_ne_zero _, or_mask_mod _⟩

theorem set_marked_null_link (m : Mem) (b : Nat) (hn : m (b + 8) = 0) :
    set_marked m b = m ∧ is_marked (set_marked m b) b = false := by
  have h1 : set_marked m b = m := by
    rw [set_marked, if_neg (by simp [hn])]
  refine ⟨h1, ?_⟩
  rw [h1, Bool.eq_false_iff]
  intro h
  rw [is_marked_iff] at h
  exact h.2.1 hn

/-- C19, the code at the last node of a used list: the block `65536` of `two_used`
is on the used list with a null link; `set_marked` leaves memory as it is and
`is_marked` answers false right after it. -/
theorem set_marked_last_node_not_marked :
    UsedChain two_used.mem two_used.used_list [65568, 65536] ∧
    two_used.mem (65536 + 8) = 0 ∧
    (set_marked two_used.mem 65536) (65536 + 8) = 0 ∧
    is_marked (set_marked two_used.mem 65536) 65536 = false ∧
    is_marked (set_marked two_used.mem 65568) 65568 = true ∧
    is_marked (clear_marked (set_marked two_used.mem 65568) 65568) 65568 = false := by
  decide

/-- C20: for a non-null block whose link word is null or an address with low bit
zero, `get_actual_pointer` returns the link itself, and the same value after
`set_marked`, after `clear_marked` and after both; neither operation changes the
size word; and each of the two operations is idempotent. -/
theorem tagging_preserves_successor (m : Mem) (b : Nat) (hb : b ≠ 0)
    (heven : m (b + 8) % 2 = 0) (hword : m (b + 8) < W) :
    get_actual_pointer m b = m (b + 8) ∧
    get_actual_pointer (set_marked m b) b = m (b + 8) ∧
    get_actual_pointer (clear_marked m b) b = m (b + 8) ∧
    get_actual_pointer (clear_marked (set_marked m b) b) b = m (b + 8) ∧
    (set_marked m b) b = m b ∧ (clear_marked m b) b = m b ∧
    set_marked (set_marked m b) b = set_marked m b ∧
    clear_marked (clear_marked m b) b = clear_marked m b := by
  have h0 : get_actual_pointer m b = m (b + 8) := by
    rw [get_actual_pointer, if_pos hb]; exact and_mask_of_even _ heven hword
  refine ⟨h0, ?_, ?_, ?_, ?_, ?_, set_marked_idem m b, clear_marked_idem m b⟩
  · rw [set_marked_actual, h0]
  · rw [clear_marked_actual, h0]
  · rw [clear_marked_actual, set_marked_actual, h0]
  · exact set_marked_other m b b (by omega)
  · exact clear_marked_other m b b (by omega)

theorem tagging_preserves_successor_witness :
    get_actual_pointer two_used.mem 65568 = two_used.mem (65568 + 8) ∧
    get_actual_pointer (set_marked two_used.mem 65568) 65568 = two_used.mem (65568 + 8) ∧
    get_actual_pointer (clear_marked two_used.mem 65568) 65568 = two_used.mem (65568 + 8) ∧
    get_actual_pointer (clear_marked (set_marked two_used.mem 65568) 65568) 65568 =
      two_used.mem (65568 + 8) ∧
    (set_marked two_used.mem 65568) 65568 = two_used.mem 65568 ∧
    (clear_marked two_used.mem 65568) 65568 = two_used.mem 65568 ∧
    set_marked (set_marked two_used.mem 65568) 65568 = set_marked two_used.mem 65568 ∧
    clear_marked (clear_marked two_used.mem 65568) 65568 = clear_marked two_used.mem 65568 :=
  tagging_preserves_successor two_used.mem 65568 (by decide) (by decide) (by decide)

/-! ### The size arithmetic of `gc_alloc` (C13) -/

theorem units_cons (e : Nat × Nat) (l : List (Nat × Nat)) : units (e :: l) = e.2 + units l := by
  simp [units]

theorem units_nil : units [] = 0 := rfl

theorem units_append (l1 l2 : List (Nat × Nat)) : units (l1 ++ l2) = units l1 + units l2 := by
  simp [units]

theorem mergeNext_units (y : Nat × Nat) (t : List (Nat × Nat)) :
    units (mergeNext y t) = y.2 + units t := by
  cases t with
  | nil => simp [mergeNext, units]
  | cons c t =>
    simp only [mergeNext]
    split
    · simp only [units_cons]; omega
    · simp only [units_cons]

theorem place_units (b sz : Nat) (p : Nat × Nat) (t : List (Nat × Nat)) :
    units (place b sz p t) = sz + (p.2 + units t) := by
  simp only [place]
  split
  · rw [mergeNext_units]; simp only []; omega
  · rw [units_cons, mergeNext_units]; simp only []; omega

theorem insertAfter_units (b sz : Nat) (t : List (Nat × Nat)) :
    ∀ p : Nat × Nat, units (insertAfter b sz p t) = sz + (p.2 + units t) := by
  induction t with
  | nil => intro p; simp only [insertAfter]; exact place_units b sz p []
  | cons c t ih =>
    intro p
    simp only [insertAfter]
    split
    · rw [units_cons, ih c, units_cons]; omega
    · exact place_units b sz p (c :: t)

theorem insertFree_units (b sz : Nat) (l : List (Nat × Nat)) :
    units (insertFree b sz l) = units l + sz := by
  cases l with
  | nil => simp [insertFree, units]
  | cons c t =>
    simp only [insertFree]
    split
    · rw [insertAfter_units, units_cons]; omega
    · rw [mergeNext_units, units_cons]; simp only [units_cons]; omega

theorem sweepFree_units (mk : Nat → Bool) (sz : Nat → Nat) (rest : List Nat) :
    ∀ l : List (Nat × Nat),
      units (sweepFree mk sz rest l) + ((rest.filter (fun a => mk a)).map sz).sum =
        units l + (rest.map sz).sum := by
  induction rest with
  | nil => intro l; simp [sweepFree]
  | cons a t ih =>
    intro l
    by_cases hm : mk a = true
    · have := ih l
      simp only [sweepFree, if_pos hm, List.filter_cons, hm, if_true, List.map_cons,
        List.sum_cons]
      omega
    · have := ih (insertFree a (sz a) l)
      rw [insertFree_units] at this
      simp only [sweepFree, if_neg hm, List.filter_cons, hm, List.map_cons, List.sum_cons]
      simp only [Bool.false_eq_true, if_false]
      omega

theorem sweepFree_addr (mk : Nat → Bool) (sz : Nat → Nat) (rest : List Nat) :
    ∀ l : List (Nat × Nat), ∀ e ∈ sweepFree mk sz rest l,
      (∃ g ∈ l, e.1 = g.1) ∨ (e.1 ∈ rest ∧ mk e.1 = false) := by
  induction rest with
  | nil => intro l e he; left; exact ⟨e, by simpa [sweepFree] using he, rfl⟩
  | cons a t ih =>
    intro l e he
    by_cases hm : mk a = true
    · simp only [sweepFree, if_pos hm] at he
      rcases ih l e he with h | h
      · left; exact h
      · right; exact ⟨List.mem_cons_of_mem _ h.1, h.2⟩
    · simp only [sweepFree, if_neg hm] at he
      rcases ih _ e he with ⟨g, hg, h⟩ | h
      · rcases insertFree_addr a (sz a) l g hg with h2 | ⟨g2, hg2, h2⟩
        · right; rw [h, h2]; exact ⟨by simp, by simpa using hm⟩
        · left; exact ⟨g2, hg2, by rw [h, h2]⟩
      · right; exact ⟨List.mem_cons_of_mem _ h.1, h.2⟩

theorem FreeChain_links {m : Mem} (E : Nat) (l : List (Nat × Nat)) :
    ∀ {p : Nat}, FreeChain m E p l → ∀ e ∈ l, m (e.1 + 8) = E ∨ ∃ g ∈ l, m (e.1 + 8) = g.1 := by
  induction l with
  | nil => intro p _ e he; cases he
  | cons c t ih =>
    intro p h e he
    simp only [FreeChain] at h
    rcases List.mem_cons.1 he with rfl | he2
    · cases t with
      | nil => left; simpa [FreeChain] using h.2.2
      | cons g t2 =>
        right
        have := h.2.2
        simp only [FreeChain] at this
        exact ⟨g, by simp, this.1⟩
    · rcases ih h.2.2 e he2 with h1 | ⟨g, hg, h1⟩
      · left; exact h1
      · right; exact ⟨g, List.mem_cons_of_mem _ hg, h1⟩

/-! ### What one collection leaves unchanged (C11, C12, C17) -/

/-- C11: on a well-formed state a non-skipped `gc` leaves the size word and every
payload word of each block that stays on the used list unchanged; a word that
changed is the link word of a used block, a header word of an entry that was
free, or the size word of a block that was swept. -/
theorem gc_keeps_survivor_contents (env : StackEnv) (s : State) (fl : List (Nat × Nat))
    (ul : List Nat) (f : Nat)
    (hwf : WF (gc_init env s) fl ul) (hrun : ¬ gc_skips (gc_init env s))
    (hbud : Budget f (gc_init env s) fl ul) :
    ∃ s2 ul2, gc env f s = some s2 ∧ UsedChain s2.mem s2.used_list ul2 ∧
      (∀ c ∈ ul2, c ∈ ul ∧ s2.mem c = s.mem c ∧
        ∀ x, c + 16 ≤ x → x < c + 16 * s.mem c → s2.mem x = s.mem x) ∧
      (∀ x, s2.mem x ≠ s.mem x →
        (∃ a ∈ ul, x = a + 8) ∨ (∃ e ∈ fl, x = e.1 ∨ x = e.1 + 8) ∨
        (∃ a ∈ ul, a ∉ ul2 ∧ x = a)) := by
  have hm := (gc_init_mem env s).1
  obtain ⟨m3, m4, fl4, ul4, hgc, _, _, _, huc4, hk4, hfr4⟩ :=
    gc_cycle_spec (gc_init env s) fl ul f hwf hrun hbud
  obtain ⟨_, hok, _, hbd, hpw, hdl, _⟩ := hwf
  rw [hm] at hk4 hfr4 hbd hpw hdl
  have hlm := FreeOK_mem (gc_init env s).empty hok
  have hpf := pairwise_forall (fun a c => a + 16 * s.mem a ≤ c ∨ c + 16 * s.mem c ≤ a)
    (fun a b h => h.symm) hpw
  refine ⟨{ gc_init env s with mem := m4, free_list := fl4, used_list := ul4 }, _, ?_, huc4,
    ?_, ?_⟩
  · simp only [gc, if_neg hrun]; exact hgc
  · intro c hc
    have hcu : c ∈ ul := (List.mem_filter.1 hc).1
    refine ⟨hcu, (hk4 c hc).2, ?_⟩
    intro x hx1 hx2
    apply hfr4 x
    · intro a ha
      have h1 := hbd a ha
      rcases hpf c hcu a ha with rfl | h
      · omega
      · omega
    · intro e he
      have h1 := hlm e he
      have h2 := hdl c hcu e he
      omega
  · intro x hx
    by_cases h1 : ∃ a ∈ ul, x = a + 8
    · left; exact h1
    · by_cases h2 : ∃ e ∈ fl, x = e.1 ∨ x = e.1 + 8
      · right; left; exact h2
      · right; right
        by_contra h3
        apply hx
        apply hfr4 x
        · intro a ha
          refine ⟨?_, fun h => h1 ⟨a, ha, h⟩⟩
          intro hxa
          by_cases hk : a ∈ ul.filter (fun a => is_marked m3 a)
          · exact hx (by rw [hxa]; exact (hk4 a hk).2)
          · exact h3 ⟨a, ha, hk, hxa⟩
        · intro e he
          exact ⟨fun h => h2 ⟨e, he, Or.inl h⟩, fun h => h2 ⟨e, he, Or.inr h⟩⟩

theorem gc_keeps_survivor_contents_witness :
    ∃ s2 ul2, gc env_ok 40 newer_rooted = some s2 ∧ UsedChain s2.mem s2.used_list ul2 ∧
      (∀ c ∈ ul2, c ∈ [65568, 65536] ∧ s2.mem c = newer_rooted.mem c ∧
        ∀ x, c + 16 ≤ x → x < c + 16 * newer_rooted.mem c → s2.mem x = newer_rooted.mem x) ∧
      (∀ x, s2.mem x ≠ newer_rooted.mem x →
        (∃ a ∈ [65568, 65536], x = a + 8) ∨ (∃ e ∈ [(65600, 252)], x = e.1 ∨ x = e.1 + 8) ∨
        (∃ a ∈ [65568, 65536], a ∉ ul2 ∧ x = a)) :=
  gc_keeps_survivor_contents env_ok newer_rooted [(65600, 252)] [65568, 65536] 40
    (by decide) (by decide) (by decide)

/-- C12: on a well-formed state `gc` (skipped or not) leaves the number of header
units summed over the free entries and the used blocks unchanged. -/
theorem gc_conserves_units (env : StackEnv) (s : State) (fl : List (Nat × Nat))
    (ul : List Nat) (f : Nat)
    (hwf : WF (gc_init env s) fl ul) (hbud : Budget f (gc_init env s) fl ul) :
    ∃ s2 fl2 ul2, gc env f s = some s2 ∧
      FreeChain s2.mem s2.empty s2.free_list fl2 ∧ UsedChain s2.mem s2.used_list ul2 ∧
      units fl2 + (ul2.map s2.mem).sum = units fl + (ul.map s.mem).sum := by
  have hm := (gc_init_mem env s).1
  by_cases hrun : gc_skips (gc_init env s)
  · refine ⟨gc_init env s, fl, ul, ?_, hwf.1, hwf.2.2.1, ?_⟩
    · simp only [gc, if_pos hrun]
    · rw [hm]
  · obtain ⟨m3, m4, fl4, ul4, hgc, _, _, hfc4, huc4, hk4, _⟩ :=
      gc_cycle_spec (gc_init env s) fl ul f hwf hrun hbud
    rw [hm] at hk4 hfc4
    refine ⟨{ gc_init env s with mem := m4, free_list := fl4, used_list := ul4 }, _, _, ?_,
      hfc4, huc4, ?_⟩
    · simp only [gc, if_neg hrun]; exact hgc
    · have h1 := sweepFree_units (is_marked m3) s.mem ul fl
      have h2 : (ul.filter (fun a => is_marked m3 a)).map m4 =
          (ul.filter (fun a => is_marked m3 a)).map s.mem :=
        List.map_congr_left (fun c hc => (hk4 c hc).2)
      show units (sweepFree (is_marked m3) s.mem ul fl) +
        ((ul.filter (fun a => is_marked m3 a)).map m4).sum = _
      rw [h2]; exact h1

theorem gc_conserves_units_witness :
    ∃ s2 fl2 ul2, gc env_ok 40 newer_rooted = some s2 ∧
      FreeChain s2.mem s2.empty s2.free_list fl2 ∧ UsedChain s2.mem s2.used_list ul2 ∧
      units fl2 + (ul2.map s2.mem).sum =
        units [(65600, 252)] + ([65568, 65536].map newer_rooted.mem).sum :=
  gc_conserves_units env_ok newer_rooted [(65600, 252)] [65568, 65536] 40
    (by decide) (by decide)

/-- C17: after a non-skipped `gc` on a state that is well-formed whatever its
mark flags are, with the sentinel and the free entries at even addresses, no
block on the used list has its mark bit set and no link of a free entry has its
low bit set. -/
theorem gc_leaves_no_marks (env : StackEnv) (s : State) (fl : List (Nat × Nat))
    (ul : List Nat) (f : Nat)
    (hwf : WF (gc_init env s) fl ul) (hrun : ¬ gc_skips (gc_init env s))
    (hbud : Budget f (gc_init env s) fl ul)
    (hE : s.empty % 2 = 0) (hfl : ∀ e ∈ fl, e.1 % 2 = 0) :
    ∃ s2 fl2 ul2, gc env f s = some s2 ∧
      FreeChain s2.mem s2.empty s2.free_list fl2 ∧ UsedChain s2.mem s2.used_list ul2 ∧
      (∀ c ∈ ul2, s2.mem (c + 8) % 2 = 0 ∧ is_marked s2.mem c = false) ∧
      (∀ e ∈ fl2, s2.mem (e.1 + 8) % 2 = 0) := by
  have hme := (gc_init_mem env s).2.2.2.1
  obtain ⟨m3, m4, fl4, ul4, hgc, _, _, hfc4, huc4, hk4, _⟩ :=
    gc_cycle_spec (gc_init env s) fl ul f hwf hrun hbud
  obtain ⟨_, _, _, hbd, _, _, _⟩ := hwf
  refine ⟨{ gc_init env s with mem := m4, free_list := fl4, used_list := ul4 }, _, _, ?_,
    hfc4, huc4, ?_, ?_⟩
  · simp only [gc, if_neg hrun]; exact hgc
  · intro c hc
    have h := (hk4 c hc).1
    refine ⟨h, ?_⟩
    rw [Bool.eq_false_iff]
    intro hmk
    rw [is_marked_iff] at hmk
    have : m4 (c + 8) % 2 = 1 := hmk.2.2
    omega
  · have haddr : ∀ e ∈ sweepFree (is_marked m3) (gc_init env s).mem ul fl, e.1 % 2 = 0 := by
      intro e he
      rcases sweepFree_addr _ _ ul fl e he with ⟨g, hg, h⟩ | h
      · rw [h]; exact hfl g hg
      · have := (hbd e.1 h.1).2.2.1
        omega
    intro e he
    show m4 (e.1 + 8) % 2 = 0
    rcases FreeChain_links (gc_init env s).empty _ hfc4 e he with h | ⟨g, hg, h⟩
    · rw [h, hme]; exact hE
    · rw [h]; exact haddr g hg

theorem gc_leaves_no_marks_witness :
    ∃ s2 fl2 ul2, gc env_ok 40 newer_rooted = some s2 ∧
      FreeChain s2.mem s2.empty s2.free_list fl2 ∧ UsedChain s2.mem s2.used_list ul2 ∧
      (∀ c ∈ ul2, s2.mem (c + 8) % 2 = 0 ∧ is_marked s2.mem c = false) ∧
      (∀ e ∈ fl2, s2.mem (e.1 + 8) % 2 = 0) :=
  gc_leaves_no_marks env_ok newer_rooted [(65600, 252)] [65568, 65536] 40
    (by decide) (by decide) (by decide) (by decide) (by decide)

/-! ### Where `insertFree` puts the block (C16) -/

theorem insertAfter_split (b sz : Nat) (p : Nat × Nat) (rest : List (Nat × Nat))
    (hp : p.1 < b) (hrest : ∀ c ∈ rest.head?, ¬ c.1 < b) (pre : List (Nat × Nat)) :
    ∀ q : Nat × Nat, (∀ e ∈ pre, e.1 < b) →
      insertAfter b sz q (pre ++ p :: rest) = q :: (pre ++ place b sz p rest) := by
  induction pre with
  | nil =>
    intro q _
    have h1 : insertAfter b sz p rest = place b sz p rest := by
      cases rest with
      | nil => rfl
      | cons c t =>
        have := hrest c (by simp)
        simp only [insertAfter, if_neg this]
    simp only [List.nil_append, insertAfter, if_pos hp, h1]
  | cons r pre ih =>
    intro q hpre
    have hr := hpre r (by simp)
    show insertAfter b sz q (r :: (pre ++ p :: rest)) = q :: (r :: pre ++ place b sz p rest)
    rw [insertAfter, if_pos hr, ih r (fun e he => hpre e (List.mem_cons_of_mem _ he))]
    rfl

theorem insertFree_split (b sz : Nat) (p : Nat × Nat) (rest pre : List (Nat × Nat))
    (hp : p.1 < b) (hrest : ∀ c ∈ rest.head?, ¬ c.1 < b) (hpre : ∀ e ∈ pre, e.1 < b) :
    insertFree b sz (pre ++ p :: rest) = pre ++ place b sz p rest := by
  cases pre with
  | nil =>
    have h1 : insertAfter b sz p rest = place b sz p rest := by
      cases rest with
      | nil => rfl
      | cons c t =>
        have := hrest c (by simp)
        simp only [insertAfter, if_neg this]
    simp only [List.nil_append, insertFree, if_pos hp, h1]
  | cons r pre =>
    have hr := hpre r (by simp)
    show insertFree b sz (r :: (pre ++ p :: rest)) = r :: pre ++ place b sz p rest
    rw [insertFree, if_pos hr]
    exact insertAfter_split b sz p rest hp hrest pre r
      (fun e he => hpre e (List.mem_cons_of_mem _ he))

theorem insertFree_front (b sz : Nat) (rest : List (Nat × Nat))
    (hrest : ∀ c ∈ rest.head?, ¬ c.1 < b) :
    insertFree b sz rest = mergeNext (b, sz) rest := by
  cases rest with
  | nil => rfl
  | cons c t =>
    have := hrest c (by simp)
    simp only [insertFree, if_neg this]

/-- In a coalesced list every entry before a given one ends strictly below it,
and every entry after it starts strictly past its end. -/
theorem FreeOK_around (E : Nat) (pre : List (Nat × Nat)) :
    ∀ (lo : Nat) (p : Nat × Nat) (rest : List (Nat × Nat)),
      FreeOK E lo (pre ++ p :: rest) →
      (∀ e ∈ pre, e.1 + 16 * e.2 < p.1) ∧ (∀ e ∈ rest, p.1 + 16 * p.2 < e.1) ∧
      1 ≤ p.2 := by
  induction pre with
  | nil =>
    intro lo p rest h
    have h : FreeOK E lo (p :: rest) := h
    simp only [FreeOK] at h
    refine ⟨?_, ?_, h.2.1⟩
    · intro e he; cases he
    · intro e he
      have := (FreeOK_mem E h.2.2.2.2 e he).1
      omega
  | cons q pre ih =>
    intro lo p rest h
    have h : FreeOK E lo (q :: (pre ++ p :: rest)) := h
    simp only [FreeOK] at h
    obtain ⟨h1, h2, h3⟩ := ih _ p rest h.2.2.2.2
    refine ⟨fun e he => ?_, h2, h3⟩
    rcases List.mem_cons.1 he with rfl | he2
    · have := (FreeOK_mem E h.2.2.2.2 p (by simp)).1
      omega
    · exact h1 e he2

/-- Shape of the list after inserting a block that touches the end of the entry `p`. -/
theorem insertFree_left (E lo b sz : Nat) (pre rest : List (Nat × Nat)) (p : Nat × Nat)
    (hok : FreeOK E lo (pre ++ p :: rest)) (hadj : p.1 + 16 * p.2 = b) :
    insertFree b sz (pre ++ p :: rest) = pre ++ mergeNext (p.1, p.2 + sz) rest := by
  obtain ⟨h1, h2, h3⟩ := FreeOK_around E pre lo p rest hok
  rw [insertFree_split b sz p rest pre (by omega)
    (fun c hc => by
      have hcr : c ∈ rest := List.mem_of_mem_head? hc
      have := h2 c hcr
      omega)
    (fun e he => by have := h1 e he; omega)]
  simp only [place, if_pos hadj]

/-- Shape of the list after inserting a block whose end touches the entry `c` and
whose start touches no entry. -/
theorem insertFree_right (E lo b sz : Nat) (pre post : List (Nat × Nat)) (c : Nat × Nat)
    (hsz : 1 ≤ sz) (hok : FreeOK E lo (pre ++ c :: post))
    (hd : ∀ e ∈ pre ++ c :: post, b + 16 * sz ≤ e.1 ∨ e.1 + 16 * e.2 ≤ b)
    (hadj : b + 16 * sz = c.1) (hleft : ∀ e ∈ pre, e.1 + 16 * e.2 ≠ b) :
    insertFree b sz (pre ++ c :: post) = pre ++ (b, sz + c.2) :: post := by
  obtain ⟨h1, _, _⟩ := FreeOK_around E pre lo c post hok
  have hpre : ∀ e ∈ pre, e.1 < b := by
    intro e he
    have := h1 e he
    have := hd e (List.mem_append_left _ he)
    have := (FreeOK_mem E hok e (List.mem_append_left _ he)).2.1
    omega
  have hm : mergeNext (b, sz) (c :: post) = (b, sz + c.2) :: post := by
    simp only [mergeNext, if_pos hadj]
  rcases List.eq_nil_or_concat pre with rfl | ⟨pre2, p, rfl⟩
  · rw [List.nil_append, insertFree_front b sz (c :: post)
      (fun e he => by simp at he; subst he; omega), hm]
    rfl
  · have hp := hpre p (by simp)
    have hpa := hleft p (by simp)
    have e1 : pre2 ++ [p] ++ c :: post = pre2 ++ p :: (c :: post) := by simp
    have e2 : pre2 ++ [p] ++ (b, sz + c.2) :: post = pre2 ++ p :: ((b, sz + c.2) :: post) := by
      simp
    rw [List.concat_eq_append, e1, e2, insertFree_split b sz p (c :: post) pre2 hp
      (fun e he => by simp at he; subst he; omega)
      (fun e he => hpre e (by simp [he]))]
    simp only [place, if_neg hpa, hm]

/-- C16: `add_to_free_list` of a block that overlaps no entry of a well-formed
free list yields a free list that covers exactly the old bytes plus the extent of
the block and whose unit count grew by the size of the block; when the block
touches the entry to its left, to its right, or both, they end up as one entry
whose size is the sum of the merged sizes. -/
theorem add_to_free_list_coalesces (s : State) (l : List (Nat × Nat)) (block fuel : Nat)
    (hc : FreeChain s.mem s.empty s.free_list l) (hok : FreeOK s.empty 1 l)
    (hb0 : block ≠ 0) (hsz : 1 ≤ s.mem block) (hW : block + 16 * s.mem block < W)
    (hd : ∀ e ∈ l, block + 16 * s.mem block ≤ e.1 ∨ e.1 + 16 * e.2 ≤ block)
    (hf : l.length < fuel) :
    ∃ s2 l2, add_to_free_list fuel block s = some s2 ∧
      FreeChain s2.mem s2.empty s2.free_list l2 ∧
      (∀ x, Cov l2 x ↔ Cov l x ∨ (block ≤ x ∧ x < block + 16 * s.mem block)) ∧
      units l2 = units l + s.mem block ∧
      (∀ pre p c post, l = pre ++ p :: c :: post → p.1 + 16 * p.2 = block →
        block + 16 * s.mem block = c.1 →
        l2 = pre ++ (p.1, p.2 + s.mem block + c.2) :: post) ∧
      (∀ pre p post, l = pre ++ p :: post → p.1 + 16 * p.2 = block →
        (∀ c ∈ post.head?, block + 16 * s.mem block ≠ c.1) →
        l2 = pre ++ (p.1, p.2 + s.mem block) :: post) ∧
      (∀ pre c post, l = pre ++ c :: post → block + 16 * s.mem block = c.1 →
        (∀ e ∈ pre, e.1 + 16 * e.2 ≠ block) →
        l2 = pre ++ (block, s.mem block + c.2) :: post) := by
  obtain ⟨m2, fl2, hadd, hfc, _⟩ := add_to_free_list_spec s l block fuel hc hok hb0 hsz hW hd hf
  refine ⟨_, insertFree block (s.mem block) l, hadd, hfc, ?_, insertFree_units _ _ _, ?_, ?_, ?_⟩
  · intro x
    rw [insertFree_cov]
    constructor
    · rintro (h | h)
      · right; exact h
      · left; exact h
    · rintro (h | h)
      · right; exact h
      · left; exact h
  · intro pre p c post hl h1 h2
    subst hl
    rw [insertFree_left s.empty 1 block (s.mem block) pre (c :: post) p hok h1]
    have : p.1 + 16 * (p.2 + s.mem block) = c.1 := by omega
    simp only [mergeNext, if_pos this]
  · intro pre p post hl h1 h2
    subst hl
    rw [insertFree_left s.empty 1 block (s.mem block) pre post p hok h1]
    cases post with
    | nil => simp only [mergeNext]
    | cons c t =>
      have := h2 c (by simp)
      have hne : ¬ p.1 + 16 * (p.2 + s.mem block) = c.1 := by omega
      simp only [mergeNext, if_neg hne]
  · intro pre c post hl h1 h2
    subst hl
    exact insertFree_right s.empty 1 block (s.mem block) pre post c hsz hok hd h1 h2

theorem add_to_free_list_coalesces_witness :
    ∃ s2 l2, add_to_free_list 5 65568 gap_state = some s2 ∧
      FreeChain s2.mem s2.empty s2.free_list l2 ∧
      (∀ x, Cov l2 x ↔ Cov [(65536, 2), (65600, 252)] x ∨
        (65568 ≤ x ∧ x < 65568 + 16 * gap_state.mem 65568)) ∧
      units l2 = units [(65536, 2), (65600, 252)] + gap_state.mem 65568 ∧
      (∀ pre p c post, [(65536, 2), (65600, 252)] = pre ++ p :: c :: post →
        p.1 + 16 * p.2 = 65568 → 65568 + 16 * gap_state.mem 65568 = c.1 →
        l2 = pre ++ (p.1, p.2 + gap_state.mem 65568 + c.2) :: post) ∧
      (∀ pre p post, [(65536, 2), (65600, 252)] = pre ++ p :: post →
        p.1 + 16 * p.2 = 65568 →
        (∀ c ∈ post.head?, 65568 + 16 * gap_state.mem 65568 ≠ c.1) →
        l2 = pre ++ (p.1, p.2 + gap_state.mem 65568) :: post) ∧
      (∀ pre c post, [(65536, 2), (65600, 252)] = pre ++ c :: post →
        65568 + 16 * gap_state.mem 65568 = c.1 →
        (∀ e ∈ pre, e.1 + 16 * e.2 ≠ 65568) →
        l2 = pre ++ (65568, gap_state.mem 65568 + c.2) :: post) :=
  add_to_free_list_coalesces gap_state [(65536, 2), (65600, 252)] 65568 5
    (by decide) (by decide) (by decide) (by decide) (by decide) (by decide) (by decide)

/-- The free list of `gap_state` after the block `65568` is added: one entry of
256 units. -/
theorem gap_state_merges_both :
    (add_to_free_list 5 65568 gap_state).map
      (fun s2 => decide (FreeChain s2.mem s2.empty s2.free_list [(65536, 256)])) = some true := by
  decide

/-! ### Taking a block out of the free list (C14, C15) -/

theorem FreeChain_starts {m : Mem} (E : Nat) (pre rest : List (Nat × Nat)) :
    ∀ {q : Nat}, FreeChain m E q (pre ++ rest) → FreePrefix m q pre := by
  induction pre with
  | nil => intro q _; trivial
  | cons e t ih =>
    intro q h
    have h : FreeChain m E q (e :: (t ++ rest)) := h
    simp only [FreeChain] at h
    simp only [FreePrefix]
    exact ⟨h.1, h.2.1, ih h.2.2⟩

theorem FreePrefix_frame {m m2 : Mem} (pre : List (Nat × Nat)) :
    ∀ {q : Nat}, (∀ e ∈ pre, m2 e.1 = m e.1 ∧ m2 (e.1 + 8) = m (e.1 + 8)) →
      FreePrefix m q pre → FreePrefix m2 q pre := by
  induction pre with
  | nil => intro q _ _; trivial
  | cons e t ih =>
    intro q hf h
    simp only [FreePrefix] at h ⊢
    have he := hf e (by simp)
    refine ⟨h.1, by rw [he.1]; exact h.2.1, ?_⟩
    rw [he.2]
    exact ih (fun g hg => hf g (List.mem_cons_of_mem _ hg)) h.2.2

theorem FreeChain_size {m : Mem} (E : Nat) (l : List (Nat × Nat)) :
    ∀ {q : Nat}, FreeChain m E q l → ∀ e ∈ l, m e.1 = e.2 := by
  induction l with
  | nil => intro q _ e he; cases he
  | cons c t ih =>
    intro q h e he
    simp only [FreeChain] at h
    rcases List.mem_cons.1 he with rfl | he2
    · exact h.2.1
    · exact ih h.2.2 e he2

theorem last_addr_mem (l : List (Nat × Nat)) :
    ∀ d : Nat, l ≠ [] → ∃ p ∈ l, last_addr d l = p.1 := by
  induction l with
  | nil => intro d h; exact absurd rfl h
  | cons e t ih =>
    intro d _
    cases t with
    | nil => exact ⟨e, by simp, rfl⟩
    | cons g t2 =>
      obtain ⟨p, hp, h⟩ := ih e.1 (by simp)
      exact ⟨p, List.mem_cons_of_mem _ hp, h⟩

theorem find_fit_first (m : Mem) (E total : Nat) (c : Nat × Nat) (post pre : List (Nat × Nat)) :
    ∀ (prev q fuel : Nat), FreeChain m E q (pre ++ c :: post) →
      (∀ e ∈ pre, e.1 ≠ E ∧ e.2 < total) → total ≤ c.2 → pre.length < fuel →
      find_fit m E total fuel prev q = some (last_addr prev pre, c.1) := by
  induction pre with
  | nil =>
    intro prev q fuel hc _ hfit hf
    have hc : FreeChain m E q (c :: post) := hc
    simp only [FreeChain] at hc
    obtain ⟨k, rfl⟩ : ∃ k, fuel = k + 1 := ⟨fuel - 1, by simp at hf; omega⟩
    rw [find_fit, if_neg (by rw [hc.1, hc.2.1]; omega), hc.1]
    rfl
  | cons e t ih =>
    intro prev q fuel hc hpre hfit hf
    have hc : FreeChain m E q (e :: (t ++ c :: post)) := hc
    simp only [FreeChain] at hc
    obtain ⟨k, rfl⟩ : ∃ k, fuel = k + 1 := ⟨fuel - 1, by simp at hf; omega⟩
    have he := hpre e (by simp)
    rw [find_fit, if_pos (by rw [hc.1, hc.2.1]; exact he), hc.1]
    exact ih e.1 _ k hc.2.2 (fun g hg => hpre g (List.mem_cons_of_mem _ hg)) hfit
      (by simp at hf; omega)

theorem FreeOK_remove (E : Nat) (c : Nat × Nat) (post pre : List (Nat × Nat)) :
    ∀ lo : Nat, FreeOK E lo (pre ++ c :: post) → FreeOK E lo (pre ++ post) := by
  induction pre with
  | nil =>
    intro lo h
    have h : FreeOK E lo (c :: post) := h
    simp only [FreeOK] at h
    show FreeOK E lo post
    cases post with
    | nil => trivial
    | cons g t =>
      have h2 := h.2.2.2.2
      simp only [FreeOK] at h2 ⊢
      exact ⟨by omega, h2.2⟩
  | cons e t ih =>
    intro lo h
    have h : FreeOK E lo (e :: (t ++ c :: post)) := h
    simp only [FreeOK] at h
    show FreeOK E lo (e :: (t ++ post))
    simp only [FreeOK]
    exact ⟨h.1, h.2.1, h.2.2.1, h.2.2.2.1, ih _ h.2.2.2.2⟩

theorem FreeChain_unlink (m : Mem) (E : Nat) (c : Nat × Nat) (post pre : List (Nat × Nat)) :
    ∀ (lo q d : Nat), pre ≠ [] → FreeChain m E q (pre ++ c :: post) →
      FreeOK E lo (pre ++ c :: post) →
      FreeChain (m.write (last_addr d pre + 8) (m (c.1 + 8))) E q (pre ++ post) := by
  induction pre with
  | nil => intro lo q d h; exact absurd rfl h
  | cons e t ih =>
    intro lo q d _ hc hok
    have hc : FreeChain m E q (e :: (t ++ c :: post)) := hc
    have hok : FreeOK E lo (e :: (t ++ c :: post)) := hok
    simp only [FreeChain] at hc
    simp only [FreeOK] at hok
    have hmem := FreeOK_mem E hok.2.2.2.2
    show FreeChain _ E q (e :: (t ++ post))
    cases t with
    | nil =>
      have hc2 : FreeChain m E (m (e.1 + 8)) (c :: post) := hc.2.2
      simp only [FreeChain] at hc2
      show FreeChain (m.write (e.1 + 8) (m (c.1 + 8))) E q (e :: post)
      simp only [FreeChain]
      refine ⟨hc.1, ?_, ?_⟩
      · rw [write_other _ _ (by omega)]; exact hc.2.1
      · rw [write_same]
        apply FreeChain_frame E _ hc2.2.2
        intro g hg
        have := (hmem g (List.mem_cons_of_mem _ hg)).1
        exact ⟨write_other _ _ (by omega), write_other _ _ (by omega)⟩
    | cons g t2 =>
      obtain ⟨p, hp, hlast⟩ := last_addr_mem (g :: t2) e.1 (by simp)
      have hpm := (hmem p (List.mem_append_left _ hp)).1
      have ih2 := ih _ (m (e.1 + 8)) e.1 (by simp) hc.2.2 hok.2.2.2.2
      show FreeChain (m.write (last_addr e.1 (g :: t2) + 8) (m (c.1 + 8))) E q
        (e :: ((g :: t2) ++ post))
      simp only [FreeChain]
      refine ⟨hc.1, ?_, ?_⟩
      · rw [write_other _ _ (by rw [hlast]; omega)]; exact hc.2.1
      · rw [write_other _ _ (by rw [hlast]; omega)]
        exact ih2

theorem insertFree_keeps_pre (b sz : Nat) (pre post : List (Nat × Nat))
    (hpre : ∀ e ∈ pre, e.1 + 16 * e.2 < b ∧ 1 ≤ e.2) (hpost : ∀ c ∈ post.head?, ¬ c.1 < b) :
    ∃ rest, insertFree b sz (pre ++ post) = pre ++ rest := by
  rcases List.eq_nil_or_concat pre with rfl | ⟨pre2, p, rfl⟩
  · exact ⟨_, rfl⟩
  · have hp := hpre p (by simp)
    have e1 : pre2 ++ [p] ++ post = pre2 ++ p :: post := by simp
    refine ⟨mergeNext (b, sz) post, ?_⟩
    rw [List.concat_eq_append, e1, insertFree_split b sz p post pre2 (by omega) hpost
      (fun e he => by have := hpre e (by simp [he]); omega)]
    simp only [place, if_neg (by omega : ¬ p.1 + 16 * p.2 = b)]
    simp

theorem insertFree_between (b sz : Nat) (pre post : List (Nat × Nat))
    (hpre : ∀ e ∈ pre, e.1 + 16 * e.2 < b ∧ 1 ≤ e.2)
    (hpost : ∀ c ∈ post.head?, b + 16 * sz < c.1) :
    insertFree b sz (pre ++ post) = pre ++ (b, sz) :: post := by
  have hm : mergeNext (b, sz) post = (b, sz) :: post := by
    cases post with
    | nil => rfl
    | cons c t =>
      have := hpost c (by simp)
      simp only [mergeNext, if_neg (by omega : ¬ b + 16 * sz = c.1)]
  have hpost2 : ∀ c ∈ post.head?, ¬ c.1 < b := fun c hc => by have := hpost c hc; omega
  rcases List.eq_nil_or_concat pre with rfl | ⟨pre2, p, rfl⟩
  · rw [List.nil_append, insertFree_front b sz post hpost2, hm]; rfl
  · have hp := hpre p (by simp)
    have e1 : pre2 ++ [p] ++ post = pre2 ++ p :: post := by simp
    rw [List.concat_eq_append, e1, insertFree_split b sz p post pre2 (by omega) hpost2
      (fun e he => by have := hpre e (by simp [he]); omega)]
    simp only [place, if_neg (by omega : ¬ p.1 + 16 * p.2 = b), hm]
    simp

theorem take_block_spec (s : State) (pre post : List (Nat × Nat)) (c : Nat × Nat)
    (total fuel : Nat)
    (hc : FreeChain s.mem s.empty s.free_list (pre ++ c :: post))
    (hok : FreeOK s.empty 1 (pre ++ c :: post)) (ht : 1 ≤ total)
    (hf : (pre ++ post).length < fuel) :
    ∃ s2, take_block fuel total (last_addr 0 pre) c.1 s = some (c.1 + 16, s2) ∧
      s2.used_list = c.1 ∧ s2.mem c.1 = (if total + 1 < c.2 then total else c.2) ∧
      FreePrefix s2.mem s2.free_list pre ∧ s2.sbrk_log = s.sbrk_log ∧
      s2.empty = s.empty := by
  have hW : W = 18446744073709551616 := rfl
  obtain ⟨hpre, hpost, hc2⟩ := FreeOK_around s.empty pre 1 c post hok
  have hmem := FreeOK_mem s.empty hok
  have hcm := hmem c (by simp)
  have hsz := FreeChain_size s.empty _ hc
  have hcs : s.mem c.1 = c.2 := hsz c (by simp)
  have hok1 : FreeOK s.empty 1 (pre ++ post) := FreeOK_remove s.empty c post pre 1 hok
  have hmem1 := FreeOK_mem s.empty hok1
  have hpre1 : ∀ e ∈ pre, 1 ≤ e.1 ∧ 1 ≤ e.2 := fun e he => by
    have := hmem e (List.mem_append_left _ he); omega
  -- headers of the other entries
  have hother : ∀ e ∈ pre ++ post, e.1 + 16 * e.2 < c.1 ∨ c.1 + 16 * c.2 < e.1 := by
    intro e he
    rcases List.mem_append.1 he with h | h
    · left; exact hpre e h
    · right; exact hpost e h
  -- step 1: the state after unlinking
  obtain ⟨s1, hs1, hs1c, hs1e, hs1m, hs1u, hs1l⟩ : ∃ s1 : State,
      s1 = (if last_addr 0 pre ≠ 0 then
          { s with mem := s.mem.write (last_addr 0 pre + 8) (s.mem (c.1 + 8)) }
        else { s with free_list := s.mem (c.1 + 8) }) ∧
      FreeChain s1.mem s.empty s1.free_list (pre ++ post) ∧ s1.empty = s.empty ∧
      (∀ x, c.1 ≤ x → x < c.1 + 16 * c.2 → s1.mem x = s.mem x) ∧
      s1.used_list = s.used_list ∧ s1.sbrk_log = s.sbrk_log := by
    rcases List.eq_nil_or_concat pre with hnil | ⟨pre2, p, hcat⟩
    · subst hnil
      have hc0 : FreeChain s.mem s.empty s.free_list (c :: post) := hc
      simp only [FreeChain] at hc0
      refine ⟨_, rfl, ?_, ?_, ?_, ?_, ?_⟩ <;>
        simp only [last_addr, ne_eq, not_true_eq_false, if_false]
      · exact hc0.2.2
      · intro x _ _; trivial
    · have hne : pre ≠ [] := by rw [hcat]; simp
      obtain ⟨p2, hp2, hlast⟩ := last_addr_mem pre 0 hne
      have hp2a := hpre1 p2 hp2
      have hp2b := hpre p2 hp2
      have hl0 : last_addr 0 pre ≠ 0 := by rw [hlast]; omega
      refine ⟨_, rfl, ?_, ?_, ?_, ?_, ?_⟩ <;> simp only [if_pos hl0]
      · exact FreeChain_unlink s.mem s.empty c post pre 1 s.free_list 0 hne hc hok
      · intro x h1 h2
        exact write_other _ _ (by rw [hlast]; omega)
  have hs1cs : s1.mem c.1 = c.2 := by rw [hs1m c.1 (by omega) (by omega)]; exact hcs
  -- step 3 from any state after the split
  have finish : ∀ (m3 : Mem) (fl3 : Nat) (v : Nat), m3 c.1 = v →
      FreePrefix m3 fl3 pre →
      ∃ s2 : State,
        s2 = { { s1 with mem := m3, free_list := fl3 } with
               mem := m3.write (c.1 + 8) s1.used_list, used_list := c.1 } ∧
        s2.used_list = c.1 ∧ s2.mem c.1 = v ∧ FreePrefix s2.mem s2.free_list pre ∧
        s2.sbrk_log = s.sbrk_log ∧ s2.empty = s.empty := by
    intro m3 fl3 v hv hpf
    refine ⟨_, rfl, rfl, ?_, ?_, hs1l, hs1e⟩
    · show (m3.write (c.1 + 8) s1.used_list) c.1 = v
      rw [write_other _ _ (by omega)]; exact hv
    · show FreePrefix (m3.write (c.1 + 8) s1.used_list) fl3 pre
      apply FreePrefix_frame pre _ hpf
      intro e he
      have h1 := hpre e he
      have h2 := hpre1 e he
      exact ⟨write_other _ _ (by omega), write_other _ _ (by omega)⟩
  have hptr : (c.1 + HDR) % W = c.1 + 16 := by
    show (c.1 + 16) % W = c.1 + 16
    exact Nat.mod_eq_of_lt (by omega)
  by_cases hA : c.2 ≤ total
  · -- the block is not larger than the request: `split_block` returns it
    have hsplit : split_block s1.mem c.1 total = (c.1, s1.mem) := by
      have h1 : c.1 = 0 ∨ s1.mem c.1 ≤ total := Or.inr (by rw [hs1cs]; exact hA)
      rw [split_block, if_pos h1]
    obtain ⟨m3, fl3, hadd, hfc3, _⟩ := add_to_free_list_spec s1 (pre ++ post) c.1 fuel
      (by rw [hs1e]; exact hs1c) (by rw [hs1e]; exact hok1) (by omega)
      (by rw [hs1cs]; exact hcm.2.1) (by rw [hs1cs]; exact hcm.2.2.1)
      (by rw [hs1cs]; intro e he; have := hother e he; omega) hf
    rw [hs1cs, hs1e] at hfc3
    have hins : insertFree c.1 c.2 (pre ++ post) = pre ++ (c.1, c.2) :: post :=
      insertFree_between c.1 c.2 pre post (fun e he => ⟨hpre e he, (hpre1 e he).2⟩)
        (fun g hg => hpost g (List.mem_of_mem_head? hg))
    rw [hins] at hfc3
    have hm3 : m3 c.1 = c.2 := FreeChain_size s.empty _ hfc3 (c.1, c.2) (by simp)
    obtain ⟨s2, hs2, h1, h2, h3, h4, h5⟩ := finish m3 fl3 c.2 hm3
      (FreeChain_starts s.empty pre _ hfc3)
    refine ⟨s2, ?_, h1, ?_, h3, h4, h5⟩
    · simp only [take_block]
      rw [← hs1, hsplit]
      simp only [if_pos (by omega : c.1 ≠ 0)]
      have : ({ s1 with mem := s1.mem } : State) = s1 := rfl
      rw [this, hadd]
      simp only [hptr, hs2]
    · rw [h2, if_neg (by omega)]
  · by_cases hB : c.2 - total > 1
    · -- the remainder is split off and goes back to the free list
      have hnew : (c.1 + (total * HDR) % W) % W = c.1 + total * 16 := by
        show (c.1 + (total * 16) % W) % W = c.1 + total * 16
        rw [Nat.mod_eq_of_lt (by omega : total * 16 < W)]
        exact Nat.mod_eq_of_lt (by omega)
      obtain ⟨m2, hm2def⟩ : ∃ m2 : Mem,
          m2 = (s1.mem.write (c.1 + total * 16) (c.2 - total)).write c.1 total := ⟨_, rfl⟩
      have hsplit : split_block s1.mem c.1 total = (c.1 + total * 16, m2) := by
        have h1 : ¬ (c.1 = 0 ∨ s1.mem c.1 ≤ total) := by rw [hs1cs]; omega
        have h2 : s1.mem c.1 - total > 1 := by rw [hs1cs]; exact hB
        rw [split_block, if_neg h1, if_pos h2]
        simp only [hnew, hs1cs, hm2def]
      have hm2 : ∀ x, x ≠ c.1 → x ≠ c.1 + total * 16 → m2 x = s1.mem x :=
        fun x h1 h2 => by rw [hm2def, write_other _ _ h1, write_other _ _ h2]
      have hm2n : m2 (c.1 + total * 16) = c.2 - total := by
        rw [hm2def, write_other _ _ (by omega), write_same]
      have hm2c : m2 c.1 = total := by rw [hm2def, write_same]
      have hfc2 : FreeChain m2 s.empty s1.free_list (pre ++ post) := by
        apply FreeChain_frame s.empty _ hs1c
        intro e he
        have h1 := hother e he
        have h2 := hmem1 e he
        exact ⟨hm2 _ (by omega) (by omega), hm2 _ (by omega) (by omega)⟩
      have hd2 : ∀ e ∈ pre ++ post, c.1 + total * 16 + 16 * (c.2 - total) ≤ e.1 ∨
          e.1 + 16 * e.2 ≤ c.1 + total * 16 := by
        intro e he
        have := hother e he
        omega
      obtain ⟨m3, fl3, hadd, hfc3, hfr3⟩ := add_to_free_list_spec { s1 with mem := m2 }
        (pre ++ post) (c.1 + total * 16) fuel
        (by rw [hs1e]; exact hfc2) (by rw [hs1e]; exact hok1) (by omega)
        (by show 1 ≤ m2 (c.1 + total * 16); rw [hm2n]; omega)
        (by show c.1 + total * 16 + 16 * m2 (c.1 + total * 16) < W; rw [hm2n]; omega)
        (by
          show ∀ e ∈ pre ++ post, c.1 + total * 16 + 16 * m2 (c.1 + total * 16) ≤ e.1 ∨
            e.1 + 16 * e.2 ≤ c.1 + total * 16
          rw [hm2n]; exact hd2) hf
      have hm3 : m3 c.1 = total := by
        rw [hfr3 c.1 (by omega) (by omega)
          (fun e he => by have h1 := hother e he; have h2 := hmem1 e he; omega)]
        exact hm2c
      obtain ⟨rest, hrest⟩ := insertFree_keeps_pre (c.1 + total * 16) (c.2 - total) pre post
        (fun e he => ⟨by have := hpre e he; omega, (hpre1 e he).2⟩)
        (fun g hg => by have := hpost g (List.mem_of_mem_head? hg); omega)
      have hfc3b : FreeChain m3 s.empty fl3 (pre ++ rest) := by
        have h : FreeChain m3 s1.empty fl3
            (insertFree (c.1 + total * 16) (m2 (c.1 + total * 16)) (pre ++ post)) := hfc3
        rw [hm2n, hrest, hs1e] at h
        exact h
      obtain ⟨s2, hs2, h1, h2, h3, h4, h5⟩ := finish m3 fl3 total hm3
        (FreeChain_starts s.empty pre _ hfc3b)
      refine ⟨s2, ?_, h1, ?_, h3, h4, h5⟩
      · simp only [take_block]
        rw [← hs1, hsplit]
        simp only [if_pos (by omega : c.1 + total * 16 ≠ 0)]
        rw [hadd]
        simp only [hptr, hs2]
      · rw [h2, if_pos (by omega)]
    · -- one unit too many: the whole block is handed out
      have hsplit : split_block s1.mem c.1 total = (0, s1.mem) := by
        have h1 : ¬ (c.1 = 0 ∨ s1.mem c.1 ≤ total) := by rw [hs1cs]; omega
        have h2 : ¬ s1.mem c.1 - total > 1 := by rw [hs1cs]; exact hB
        rw [split_block, if_neg h1, if_neg h2]
      obtain ⟨s2, hs2, h1, h2, h3, h4, h5⟩ := finish s1.mem s1.free_list c.2 hs1cs
        (FreeChain_starts s.empty pre _ hs1c)
      refine ⟨s2, ?_, h1, ?_, h3, h4, h5⟩
      · simp only [take_block]
        rw [← hs1, hsplit]
        simp only [ne_eq, not_true_eq_false, if_false, hptr, hs2]
      · rw [h2, if_neg (by omega)]

/-! ### First fit and the size of the block handed out (C14, C15) -/

theorem total_units_eq (n : Nat) (h : n + 15 < W) : total_units n = (n + 15) / 16 + 1 := by
  have hW : W = 18446744073709551616 := rfl
  show ((n + 16 - 1) % W / 16 + 1) % W = (n + 15) / 16 + 1
  rw [Nat.mod_eq_of_lt (by omega : n + 16 - 1 < W)]
  rw [Nat.mod_eq_of_lt (by omega)]
  omega

theorem alloc_bytes_units (t : Nat) (h : t * 16 < W) :
    1 ≤ alloc_bytes t / HDR ∧ 16 * (alloc_bytes t / HDR) = alloc_bytes t := by
  show 1 ≤ (if t * 16 % W < 4096 then 4096 else t * 16 % W) / 16 ∧
    16 * ((if t * 16 % W < 4096 then 4096 else t * 16 % W) / 16) =
      (if t * 16 % W < 4096 then 4096 else t * 16 % W)
  rw [Nat.mod_eq_of_lt h]
  split <;> omega

theorem first_fit_split (total : Nat) (l : List (Nat × Nat)) :
    (∀ e ∈ l, e.2 < total) ∨
    ∃ pre c post, l = pre ++ c :: post ∧ (∀ e ∈ pre, e.2 < total) ∧ total ≤ c.2 := by
  induction l with
  | nil => left; intro e he; cases he
  | cons a t ih =>
    by_cases ha : a.2 < total
    · rcases ih with h | ⟨pre, c, post, h1, h2, h3⟩
      · left
        intro e he
        rcases List.mem_cons.1 he with h0 | h0
        · rw [h0]; exact ha
        · exact h e h0
      · right
        refine ⟨a :: pre, c, post, by rw [h1]; rfl, ?_, h3⟩
        intro e he
        rcases List.mem_cons.1 he with h0 | h0
        · rw [h0]; exact ha
        · exact h2 e h0
    · right
      exact ⟨[], a, t, rfl, fun e he => (by cases he), by omega⟩

theorem insertFree_ne_nil (b sz : Nat) (hsz : 1 ≤ sz) (l : List (Nat × Nat)) :
    ∃ c post, insertFree b sz l = c :: post := by
  have h : Cov (insertFree b sz l) b := (insertFree_cov b sz l b).2 (Or.inl ⟨le_refl _, by omega⟩)
  obtain ⟨e, he, _⟩ := h
  cases hl : insertFree b sz l with
  | nil => rw [hl] at he; cases he
  | cons c post => exact ⟨c, post, rfl⟩

/-- The path of `gc_alloc` on which the search finds an entry: the first entry of
the free list that is large enough is taken. -/
theorem gc_alloc_found (sbrk : Nat → Option Nat) (s : State) (pre post : List (Nat × Nat))
    (c : Nat × Nat) (n fuel : Nat)
    (hc : FreeChain s.mem s.empty s.free_list (pre ++ c :: post))
    (hok : FreeOK s.empty 1 (pre ++ c :: post)) (hn : 0 < n)
    (hsmall : ∀ e ∈ pre, e.2 < total_units n) (hfit : total_units n ≤ c.2)
    (ht : 1 ≤ total_units n) (hf : (pre ++ post).length < fuel) :
    ∃ s2, gc_alloc sbrk fuel n s = some (c.1 + 16, s2) ∧ s2.sbrk_log = s.sbrk_log ∧
      s2.used_list = c.1 ∧
      s2.mem c.1 = (if total_units n + 1 < c.2 then total_units n else c.2) ∧
      FreePrefix s2.mem s2.free_list pre := by
  have hmem := FreeOK_mem s.empty hok
  have hcm := hmem c (by simp)
  have hfind := find_fit_first s.mem s.empty (total_units n) c post pre 0 s.free_list fuel hc
    (fun e he => ⟨by have := hmem e (List.mem_append_left _ he); omega, hsmall e he⟩) hfit
    (by simp only [List.length_append] at hf; omega)
  obtain ⟨s2, h1, h2, h3, h4, h5, _⟩ := take_block_spec s pre post c (total_units n) fuel hc hok
    ht hf
  refine ⟨s2, ?_, h5, h2, h3, h4⟩
  simp only [gc_alloc, if_neg (by omega : ¬ n = 0), hfind]
  rw [if_neg (by omega : ¬ c.1 = s.empty)]
  exact h1

/-- The path of `gc_alloc` on which no entry fits and the growth provider grants
a region that overlaps neither the sentinel nor a free entry: the block handed
out is the head of the free list after the new region has been inserted. -/
theorem gc_alloc_grown (sbrk : Nat → Option Nat) (s : State) (fl : List (Nat × Nat))
    (n fuel r : Nat)
    (hc : FreeChain s.mem s.empty s.free_list fl) (hok : FreeOK s.empty 1 fl) (hn : 0 < n)
    (hsmall : ∀ e ∈ fl, e.2 < total_units n) (ht : 1 ≤ total_units n)
    (htw : total_units n * 16 < W)
    (hs : sbrk (alloc_bytes (total_units n)) = some r) (hr : r ≠ 0)
    (hrW : r + alloc_bytes (total_units n) < W)
    (hrE : s.empty + 16 ≤ r ∨ r + alloc_bytes (total_units n) ≤ s.empty)
    (hrd : ∀ e ∈ fl, r + alloc_bytes (total_units n) ≤ e.1 ∨ e.1 + 16 * e.2 ≤ r)
    (hf : fl.length < fuel) :
    ∃ b s2, gc_alloc sbrk fuel n s = some (b + 16, s2) ∧ s2.used_list = b ∧
      s2.mem b ≤ total_units n + 1 := by
  obtain ⟨hu1, hu2⟩ := alloc_bytes_units (total_units n) htw
  obtain ⟨p, hp⟩ := find_fit_none_fits s.mem s.empty (total_units n) fl 0 s.free_list fuel hc
    hsmall hf
  have hmem := FreeOK_mem s.empty hok
  obtain ⟨m1, hm1def⟩ : ∃ m1 : Mem, m1 = (s.mem.write r (alloc_bytes (total_units n) / HDR)).write
      (r + 8) 0 := ⟨_, rfl⟩
  obtain ⟨s1, hs1def⟩ : ∃ s1 : State, s1 = { s with
      sbrk_log := s.sbrk_log ++ [alloc_bytes (total_units n)], mem := m1 } := ⟨_, rfl⟩
  have hgm : get_more_memory sbrk (total_units n) s = (r, s1) := by
    simp only [get_more_memory, hs, hs1def, hm1def]
  have hs1m : s1.mem = m1 := by rw [hs1def]
  have hs1e : s1.empty = s.empty := by rw [hs1def]
  have hs1f : s1.free_list = s.free_list := by rw [hs1def]
  have hm1r : m1 r = alloc_bytes (total_units n) / HDR := by
    rw [hm1def, write_other _ _ (by omega), write_same]
  have hm1 : ∀ x, x ≠ r → x ≠ r + 8 → m1 x = s.mem x := fun x h1 h2 => by
    rw [hm1def, write_other _ _ h2, write_other _ _ h1]
  have hfc1 : FreeChain m1 s.empty s.free_list fl := by
    apply FreeChain_frame s.empty _ hc
    intro e he
    have h1 := hrd e he
    have h2 := hmem e he
    exact ⟨hm1 _ (by omega) (by omega), hm1 _ (by omega) (by omega)⟩
  obtain ⟨m2, fl2, hadd, hfc2, _⟩ := add_to_free_list_spec s1 fl r fuel
    (by rw [hs1m, hs1e, hs1f]; exact hfc1) (by rw [hs1e]; exact hok) hr
    (by rw [hs1m, hm1r]; exact hu1) (by rw [hs1m, hm1r, hu2]; exact hrW)
    (by rw [hs1m, hm1r, hu2]; exact hrd) hf
  rw [hs1m, hm1r, hs1e] at hfc2
  have hok2 : FreeOK s.empty 1 (insertFree r (alloc_bytes (total_units n) / HDR) fl) :=
    insertFree_ok s.empty 1 r _ fl (by omega) hu1 (by rw [hu2]; exact hrW)
      (by rw [hu2]; exact hrE) hok (by rw [hu2]; exact hrd)
  obtain ⟨c, post, hcp⟩ := insertFree_ne_nil r (alloc_bytes (total_units n) / HDR) hu1 fl
  have hlen := insertFree_length r (alloc_bytes (total_units n) / HDR) fl
  rw [hcp] at hfc2 hok2 hlen
  have hfl2 : fl2 = c.1 := by
    simp only [FreeChain] at hfc2
    exact hfc2.1
  obtain ⟨s3, hs3def⟩ : ∃ s3 : State, s3 = { s1 with mem := m2, free_list := fl2 } := ⟨_, rfl⟩
  have hs3m : s3.mem = m2 := by rw [hs3def]
  have hs3e : s3.empty = s.empty := by rw [hs3def, ← hs1e]
  have hs3f : s3.free_list = fl2 := by rw [hs3def]
  obtain ⟨s2, h1, h2, h3, _⟩ := take_block_spec s3 [] post c (total_units n) fuel
    (by rw [hs3m, hs3e, hs3f]; exact hfc2) (by rw [hs3e]; exact hok2) ht
    (by simp only [List.nil_append]; simp only [List.length_cons] at hlen; omega)
  refine ⟨c.1, s2, ?_, h2, ?_⟩
  · simp only [gc_alloc, if_neg (by omega : ¬ n = 0), hp, if_true, hgm]
    rw [if_neg hr, hadd, ← hs3def]
    simp only [hs3f, hfl2]
    exact h1
  · rw [h3]
    split <;> omega

/-- C14: in a well-formed state whose free list holds an entry `c` of at least
the needed `ceil(n / 16) + 1` units, with every entry `pre` before it smaller,
`gc_alloc(n)` (`n > 0`, no wrap) does not call the growth provider, returns the
payload address of the block at the address of `c` and pushes that block on the
used list, and the entries `pre` are still the first entries of the free list,
at their addresses and with their sizes. -/
theorem gc_alloc_first_fit (sbrk : Nat → Option Nat) (s : State) (pre post : List (Nat × Nat))
    (c : Nat × Nat) (ul : List Nat) (n fuel : Nat)
    (hwf : WF s (pre ++ c :: post) ul) (hn : 0 < n) (hnw : n + 15 < W)
    (hsmall : ∀ e ∈ pre, e.2 < (n + 15) / 16 + 1) (hfit : (n + 15) / 16 + 1 ≤ c.2)
    (hf : (pre ++ c :: post).length < fuel) :
    ∃ s2, gc_alloc sbrk fuel n s = some (c.1 + 16, s2) ∧ s2.sbrk_log = s.sbrk_log ∧
      s2.used_list = c.1 ∧ FreePrefix s2.mem s2.free_list pre := by
  have ht := total_units_eq n hnw
  obtain ⟨s2, h1, h2, h3, _, h5⟩ := gc_alloc_found sbrk s pre post c n fuel hwf.1 hwf.2.1 hn
    (by rw [ht]; exact hsmall) (by rw [ht]; exact hfit) (by rw [ht]; omega)
    (by simp only [List.length_append, List.length_cons] at hf ⊢; omega)
  exact ⟨s2, h1, h2, h3, h5⟩

theorem gc_alloc_first_fit_witness :
    ∃ s2, gc_alloc (sbrk_at 69632) 5 100 small_free = some ((65600, 252).1 + 16, s2) ∧
      s2.sbrk_log = small_free.sbrk_log ∧ s2.used_list = (65600, 252).1 ∧
      FreePrefix s2.mem s2.free_list [(65536, 2)] :=
  gc_alloc_first_fit (sbrk_at 69632) small_free [(65536, 2)] [] (65600, 252) [65568] 100 5
    (by decide) (by decide) (by decide) (by decide) (by decide) (by decide)

/-- C15: in a well-formed state, for `n > 0` without wrap, and with a growth
provider whose granted region (if any) overlaps neither the sentinel nor a free
entry, `gc_alloc(n)` returns, and when the result is not `NULL` it is the payload
address of the new head of the used list, whose size is at most
`ceil(n / 16) + 1 + 1` header units: at most one unit more than needed. -/
theorem gc_alloc_block_size (sbrk : Nat → Option Nat) (s : State) (fl : List (Nat × Nat))
    (ul : List Nat) (n fuel : Nat)
    (hwf : WF s fl ul) (hn : 0 < n) (hnw : n + 31 < W)
    (hfresh : ∀ r, sbrk (alloc_bytes (total_units n)) = some r →
      r + alloc_bytes (total_units n) < W ∧
      (s.empty + 16 ≤ r ∨ r + alloc_bytes (total_units n) ≤ s.empty) ∧
      ∀ e ∈ fl, r + alloc_bytes (total_units n) ≤ e.1 ∨ e.1 + 16 * e.2 ≤ r)
    (hf : fl.length < fuel) :
    ∃ p s2, gc_alloc sbrk fuel n s = some (p, s2) ∧
      (p ≠ 0 → p = s2.used_list + 16 ∧ s2.mem s2.used_list ≤ (n + 15) / 16 + 1 + 1) := by
  have hW : W = 18446744073709551616 := rfl
  have ht := total_units_eq n (by omega)
  rcases first_fit_split (total_units n) fl with hsmall | ⟨pre, c, post, hl, hsmall, hfit⟩
  · cases hs : sbrk (alloc_bytes (total_units n)) with
    | none =>
      obtain ⟨p, hp⟩ := find_fit_none_fits s.mem s.empty (total_units n) fl 0 s.free_list
        fuel hwf.1 hsmall hf
      refine ⟨0, (get_more_memory sbrk (total_units n) s).2, ?_, fun h0 => absurd rfl h0⟩
      simp only [gc_alloc, if_neg (by omega : ¬ n = 0), hp, if_true]
      have : (get_more_memory sbrk (total_units n) s).1 = 0 := by
        simp only [get_more_memory, hs]
      rw [if_pos this]
    | some r =>
      by_cases hr : r = 0
      · obtain ⟨p, hp⟩ := find_fit_none_fits s.mem s.empty (total_units n) fl 0 s.free_list
          fuel hwf.1 hsmall hf
        refine ⟨0, (get_more_memory sbrk (total_units n) s).2, ?_, fun h0 => absurd rfl h0⟩
        simp only [gc_alloc, if_neg (by omega : ¬ n = 0), hp, if_true]
        have : (get_more_memory sbrk (total_units n) s).1 = 0 := by
          simp only [get_more_memory, hs, hr]
        rw [if_pos this]
      · obtain ⟨h1, h2, h3⟩ := hfresh r hs
        obtain ⟨b, s2, hg, hu, hsz⟩ := gc_alloc_grown sbrk s fl n fuel r hwf.1 hwf.2.1 hn hsmall
          (by rw [ht]; omega) (by rw [ht]; omega) hs hr h1 h2 h3 hf
        refine ⟨b + 16, s2, hg, fun _ => ⟨by rw [hu], ?_⟩⟩
        rw [hu, ← ht]
        exact hsz
  · subst hl
    obtain ⟨s2, h1, _, h3, h4, _⟩ := gc_alloc_found sbrk s pre post c n fuel hwf.1 hwf.2.1 hn
      hsmall hfit (by rw [ht]; omega)
      (by simp only [List.length_append, List.length_cons] at hf ⊢; omega)
    refine ⟨c.1 + 16, s2, h1, fun _ => ⟨by rw [h3], ?_⟩⟩
    rw [h3, h4, ← ht]
    split <;> omega

theorem gc_alloc_block_size_witness :
    ∃ p s2, gc_alloc (sbrk_at 69632) 5 8000 small_free = some (p, s2) ∧
      (p ≠ 0 → p = s2.used_list + 16 ∧ s2.mem s2.used_list ≤ (8000 + 15) / 16 + 1 + 1) :=
  gc_alloc_block_size (sbrk_at 69632) small_free [(65536, 2), (65600, 252)] [65568] 8000 5
    (by decide) (by decide) (by decide)
    (fun r h => by
      have hr : 69632 = r := Option.some.inj h
      subst hr
      decide)
    (by decide)

/-! ### Which blocks the mark phases mark (C18) -/

theorem set_marked_up (m : Mem) (b x : Nat) :
    (m x = 0 → set_marked m b x = 0) ∧ (m x % 2 = 1 → set_marked m b x % 2 = 1) := by
  by_cases hx : x = b + 8
  · by_cases hc : b ≠ 0 ∧ m (b + 8) ≠ 0
    · subst hx
      rw [set_marked, if_pos hc, write_same]
      exact ⟨fun h0 => absurd h0 hc.2, fun _ => or_mask_mod _⟩
    · rw [set_marked, if_neg hc]; exact ⟨id, id⟩
  · rw [set_marked_other m b x hx]; exact ⟨id, id⟩

theorem mark_containing_up (v : Nat) :
    ∀ (fuel : Nat) (m : Mem) (p : Nat) (m1 : Mem), mark_containing v fuel m p = some m1 →
      ∀ x, (m x = 0 → m1 x = 0) ∧ (m x % 2 = 1 → m1 x % 2 = 1) := by
  intro fuel
  induction fuel with
  | zero => intro m p m1 h; exact absurd h (by simp [mark_containing])
  | succ n ih =>
    intro m p m1 h x
    rw [mark_containing] at h
    by_cases hp : p = 0
    · rw [if_pos hp] at h; cases h; exact ⟨id, id⟩
    · rw [if_neg hp] at h
      by_cases hit : v ≥ payload_start p ∧ v < payload_end m p
      · rw [if_pos hit] at h; cases h; exact set_marked_up m p x
      · rw [if_neg hit] at h; exact ih m _ m1 h x

theorem scan_words_up (f used_list limit : Nat) :
    ∀ (fuel : Nat) (m : Mem) (curr : Nat) (m1 : Mem),
      scan_words f used_list limit fuel m curr = some m1 →
      ∀ x, (m x = 0 → m1 x = 0) ∧ (m x % 2 = 1 → m1 x % 2 = 1) := by
  intro fuel
  induction fuel with
  | zero => intro m curr m1 h; exact absurd h (by simp [scan_words])
  | succ n ih =>
    intro m curr m1 h x
    rw [scan_words] at h
    by_cases hlt : curr < limit
    · rw [if_pos hlt] at h
      by_cases hv : is_pointer_valid (m curr) = true
      · rw [if_pos hv] at h
        cases hm : mark_containing (m curr) f m used_list with
        | none => rw [hm] at h; cases h
        | some m2 =>
          rw [hm] at h
          have h1 := mark_containing_up _ _ _ _ _ hm x
          have h2 := ih m2 _ m1 h x
          exact ⟨fun h0 => h2.1 (h1.1 h0), fun h0 => h2.2 (h1.2 h0)⟩
      · rw [if_neg hv] at h; exact ih m _ m1 h x
    · rw [if_neg hlt] at h; cases h; exact ⟨id, id⟩

theorem scan_range_up (f start limit : Nat) (s s1 : State)
    (h : scan_range f start limit s = some s1) :
    ∀ x, (s.mem x = 0 → s1.mem x = 0) ∧ (s.mem x % 2 = 1 → s1.mem x % 2 = 1) := by
  intro x
  rw [scan_range] at h
  by_cases hg : start = 0 ∨ limit = 0 ∨ start ≥ limit
  · rw [if_pos hg] at h; cases h; exact ⟨id, id⟩
  · rw [if_neg hg] at h
    cases hm : scan_words f s.used_list limit f s.mem start with
    | none => rw [hm] at h; cases h
    | some m2 => rw [hm] at h; cases h; exact scan_words_up _ _ _ _ _ _ _ hm x

theorem scan_blocks_up (f : Nat) :
    ∀ (fuel : Nat) (s : State) (p : Nat) (s1 : State), scan_blocks f fuel s p = some s1 →
      ∀ x, (s.mem x = 0 → s1.mem x = 0) ∧ (s.mem x % 2 = 1 → s1.mem x % 2 = 1) := by
  intro fuel
  induction fuel with
  | zero => intro s p s1 h; exact absurd h (by simp [scan_blocks])
  | succ n ih =>
    intro s p s1 h x
    rw [scan_blocks] at h
    by_cases hp : p = 0
    · rw [if_pos hp] at h; cases h; exact ⟨id, id⟩
    · rw [if_neg hp] at h
      cases hm : scan_range f (payload_start p) (payload_end s.mem p) s with
      | none => rw [hm] at h; cases h
      | some s2 =>
        rw [hm] at h
        have h1 := scan_range_up _ _ _ _ _ hm x
        have h2 := ih s2 _ s1 h x
        exact ⟨fun h0 => h2.1 (h1.1 h0), fun h0 => h2.2 (h1.2 h0)⟩

theorem mark_containing_hit (v b : Nat) (l : List Nat) :
    ∀ (m : Mem) (p fuel : Nat) (m1 : Mem), UsedChain m p l → b ∈ l → Hit m v b →
      (∀ a ∈ l, a ≠ b → ¬ Hit m v a) → m (b + 8) ≠ 0 →
      mark_containing v fuel m p = some m1 → m1 (b + 8) % 2 = 1 := by
  induction l with
  | nil => intro m p fuel m1 _ hb; cases hb
  | cons a t ih =>
    intro m p fuel m1 hc hb hit huniq hn h
    simp only [UsedChain] at hc
    obtain ⟨hp, ha0, hct⟩ := hc
    cases fuel with
    | zero => exact absurd h (by simp [mark_containing])
    | succ n =>
      rw [mark_containing, hp, if_neg ha0] at h
      by_cases hita : v ≥ payload_start a ∧ v < payload_end m a
      · rw [if_pos hita] at h
        have hab : a = b := by
          by_contra hne
          exact huniq a (by simp) hne hita
        rw [← hab] at hn ⊢
        cases h
        rw [set_marked, if_pos ⟨ha0, hn⟩, write_same]
        exact or_mask_mod _
      · rw [if_neg hita] at h
        have hba : b ≠ a := fun e => hita (by rw [← e]; exact hit)
        have hbt : b ∈ t := by
          rcases List.mem_cons.1 hb with e | e
          · exact absurd e hba
          · exact e
        exact ih m _ n m1 hct hbt hit (fun c hc => huniq c (List.mem_cons_of_mem _ hc)) hn h

theorem and_mask_ne_zero {x : Nat} (h : x &&& NOT_MARKED_MASK ≠ 0) : x ≠ 0 := by
  intro h0
  rw [h0, Nat.zero_and] at h
  exact h rfl

theorem scan_words_hit (f used_list limit b : Nat) (ul : List Nat) (sz : Nat → Nat)
    (hlim : limit + 8 ≤ W) (hf : ul.length < f) (hb : b ∈ ul)
    (hN : ∀ a ∈ ul, ∀ c ∈ ul, c ≠ a + 8)
    (hok : ∀ a ∈ ul, 1 ≤ sz a ∧ a + 16 * sz a < W)
    (hdis : ∀ a ∈ ul, a ≠ b → a + 16 * sz a ≤ b ∨ b + 16 * sz b ≤ a) :
    ∀ (k : Nat) (m : Mem) (curr fuel : Nat) (m1 : Mem),
      UsedChain m used_list ul → (∀ a ∈ ul, m a = sz a) →
      (∀ j, curr + 8 * j < limit → ∀ a ∈ ul, curr + 8 * j ≠ a + 8) →
      m (b + 8) &&& NOT_MARKED_MASK ≠ 0 →
      curr + 8 * k < limit → is_pointer_valid (m (curr + 8 * k)) = true →
      Hit m (m (curr + 8 * k)) b →
      scan_words f used_list limit fuel m curr = some m1 → m1 (b + 8) % 2 = 1 := by
  intro k
  induction k with
  | zero =>
    intro m curr fuel m1 hch hsz _ hnz hk hv hit h
    simp only [Nat.mul_zero, Nat.add_zero] at hk hv hit
    cases fuel with
    | zero => exact absurd h (by simp [scan_words])
    | succ n =>
      rw [scan_words, if_pos hk, if_pos hv] at h
      cases hm : mark_containing (m curr) f m used_list with
      | none => rw [hm] at h; cases h
      | some m2 =>
        rw [hm] at h
        have hbb := hok b hb
        have hitb := (Hit_iff m (m curr) b (by rw [hsz b hb]; exact hbb.1)
          (by rw [hsz b hb]; exact hbb.2)).1 hit
        rw [hsz b hb] at hitb
        have h1 : m2 (b + 8) % 2 = 1 := mark_containing_hit (m curr) b ul m used_list f m2 hch
          hb hit (fun a ha hab hita => by
            have haa := hok a ha
            have := (Hit_iff m (m curr) a (by rw [hsz a ha]; exact haa.1)
              (by rw [hsz a ha]; exact haa.2)).1 hita
            rw [hsz a ha] at this
            have := hdis a ha hab
            omega) (and_mask_ne_zero hnz) hm
        exact (scan_words_up _ _ _ _ _ _ _ h (b + 8)).2 h1
  | succ k ih =>
    intro m curr fuel m1 hch hsz hal hnz hk hv hit h
    have hlt : curr < limit := by omega
    have hnext : (curr + 8) % W = curr + 8 := Nat.mod_eq_of_lt (by omega)
    have e : curr + 8 * (k + 1) = curr + 8 + 8 * k := by omega
    rw [e] at hk hv hit
    have hal2 : ∀ j, curr + 8 + 8 * j < limit → ∀ a ∈ ul, curr + 8 + 8 * j ≠ a + 8 := by
      intro j hj a ha
      have := hal (j + 1) (by omega) a ha
      omega
    have step : ∀ m2, MarkRel ul m m2 →
        scan_words f used_list limit (fuel - 1) m2 (curr + 8) = some m1 →
        m1 (b + 8) % 2 = 1 := by
      intro m2 hrel h2
      have hx : m2 (curr + 8 + 8 * k) = m (curr + 8 + 8 * k) :=
        hrel.1 _ (fun a ha => hal2 k hk a ha)
      have hbm : m2 b = m b := hrel.1 _ (fun a ha => hN a ha b hb)
      exact ih m2 (curr + 8) (fuel - 1) m1 (hrel.chain ul hch)
        (fun a ha => by rw [hrel.1 a (fun c hc => hN c hc a ha)]; exact hsz a ha) hal2
        (by rw [hrel.2]; exact hnz) hk (by rw [hx]; exact hv)
        (by rw [hx, Hit_congr hbm]; exact hit) h2
    cases fuel with
    | zero => exact absurd h (by simp [scan_words])
    | succ n =>
      rw [scan_words, if_pos hlt] at h
      by_cases hv0 : is_pointer_valid (m curr) = true
      · rw [if_pos hv0] at h
        obtain ⟨m2, hm2, hrel, _⟩ := mark_containing_spec (m curr) ul ul (fun _ hh => hh)
          m used_list f hch hf
        rw [hm2] at h
        simp only [hnext] at h
        exact step m2 hrel h
      · rw [if_neg hv0, hnext] at h
        exact step m (MarkRel.refl _ _) h

theorem scan_range_hit (f start limit b : Nat) (s s1 : State) (ul : List Nat) (sz : Nat → Nat)
    (hlim : limit + 8 ≤ W) (hf : ul.length < f) (hb : b ∈ ul)
    (hN : ∀ a ∈ ul, ∀ c ∈ ul, c ≠ a + 8)
    (hok : ∀ a ∈ ul, 1 ≤ sz a ∧ a + 16 * sz a < W)
    (hdis : ∀ a ∈ ul, a ≠ b → a + 16 * sz a ≤ b ∨ b + 16 * sz b ≤ a)
    (hs0 : start ≠ 0) (hch : UsedChain s.mem s.used_list ul) (hsz : ∀ a ∈ ul, s.mem a = sz a)
    (hal : ∀ j, start + 8 * j < limit → ∀ a ∈ ul, start + 8 * j ≠ a + 8)
    (hnz : s.mem (b + 8) &&& NOT_MARKED_MASK ≠ 0) (k : Nat)
    (hk : start + 8 * k < limit) (hv : is_pointer_valid (s.mem (start + 8 * k)) = true)
    (hit : Hit s.mem (s.mem (start + 8 * k)) b)
    (h : scan_range f start limit s = some s1) : s1.mem (b + 8) % 2 = 1 := by
  rw [scan_range, if_neg (by omega)] at h
  cases hm : scan_words f s.used_list limit f s.mem start with
  | none => rw [hm] at h; cases h
  | some m2 =>
    rw [hm] at h
    cases h
    exact scan_words_hit f s.used_list limit b ul sz hlim hf hb hN hok hdis k s.mem start f m2
      hch hsz hal hnz hk hv hit hm

theorem scan_blocks_hit (f b : Nat) (ul : List Nat) (sz : Nat → Nat) (hf : ul.length < f)
    (hszf : ∀ a ∈ ul, 2 * sz a < f) (hb : b ∈ ul)
    (hN : ∀ a ∈ ul, ∀ c ∈ ul, c ≠ a + 8)
    (hok : ∀ a ∈ ul, 1 ≤ sz a ∧ a + 16 * sz a + 8 ≤ W)
    (hdis : ∀ a ∈ ul, a ≠ b → a + 16 * sz a ≤ b ∨ b + 16 * sz b ≤ a)
    (hal : ∀ a ∈ ul, ∀ x, a + 16 ≤ x → x < a + 16 * sz a → ∀ c ∈ ul, x ≠ c + 8)
    (l : List Nat) (hsub : ∀ a ∈ l, a ∈ ul) :
    ∀ (s : State) (p fuel : Nat) (s1 : State), UsedChain s.mem p l →
      UsedChain s.mem s.used_list ul → (∀ a ∈ ul, s.mem a = sz a) →
      s.mem (b + 8) &&& NOT_MARKED_MASK ≠ 0 →
      ∀ c ∈ l, ∀ k, c + 16 + 8 * k < c + 16 * sz c →
        is_pointer_valid (s.mem (c + 16 + 8 * k)) = true →
        Hit s.mem (s.mem (c + 16 + 8 * k)) b →
        scan_blocks f fuel s p = some s1 → s1.mem (b + 8) % 2 = 1 := by
  have hW : W = 18446744073709551616 := rfl
  induction l with
  | nil => intro s p fuel s1 _ _ _ _ c hc; cases hc
  | cons a t ih =>
    intro s p fuel s1 hc hcu hsizes hnz c hcl k hk hv hit h
    simp only [UsedChain] at hc
    obtain ⟨hp, ha0, hct⟩ := hc
    have ha : a ∈ ul := hsub a (by simp)
    have hoka := hok a ha
    have hsa := hsizes a ha
    have hps : payload_start a = a + 16 := payload_start_eq a (by omega)
    have hpe : payload_end s.mem a = a + 16 * sz a := by
      rw [payload_end_eq s.mem a (by omega) (by omega), hsa]
    cases fuel with
    | zero => exact absurd h (by simp [scan_blocks])
    | succ n =>
      obtain ⟨m2, hm2, hrel, _⟩ := scan_range_spec f (a + 16) (a + 16 * sz a) s ul
        (2 * sz a) (by omega) hf (by omega) (hszf a ha) hN hcu
        (fun j hj d hd => hal a ha _ (by omega) hj d hd)
      rw [scan_blocks, hp, if_neg ha0, hps, hpe, hm2] at h
      by_cases hca : c = a
      · rw [hca] at hk hv hit
        have h1 : m2 (b + 8) % 2 = 1 := scan_range_hit f (a + 16) (a + 16 * sz a) b s
          { s with mem := m2 } ul sz (by omega) hf hb hN
          (fun d hd => by have := hok d hd; omega) hdis (by omega) hcu hsizes
          (fun j hj d hd => hal a ha _ (by omega) hj d hd) hnz k hk hv hit hm2
        exact (scan_blocks_up f _ _ _ _ h (b + 8)).2 h1
      · have hct2 : c ∈ t := by
          rcases List.mem_cons.1 hcl with e | e
          · exact absurd e hca
          · exact e
        have hcu2 : c ∈ ul := hsub c hcl
        have hx : m2 (c + 16 + 8 * k) = s.mem (c + 16 + 8 * k) :=
          hrel.1 _ (fun d hd => hal c hcu2 _ (by omega) hk d hd)
        have hbm : m2 b = s.mem b := hrel.1 _ (fun d hd => hN d hd b hb)
        exact ih (fun x hx => hsub x (List.mem_cons_of_mem _ hx)) { s with mem := m2 }
          (get_actual_pointer m2 a) n s1 (by rw [hrel.actual a]; exact hrel.chain t hct)
          (hrel.chain ul hcu)
          (fun d hd => by
            show m2 d = sz d
            rw [hrel.1 d (fun e he => hN e he d hd)]; exact hsizes d hd)
          (by show m2 (b + 8) &&& NOT_MARKED_MASK ≠ 0; rw [hrel.2]; exact hnz)
          c hct2 k hk (by show is_pointer_valid (m2 (c + 16 + 8 * k)) = true; rw [hx]; exact hv)
          (by
            show Hit m2 (m2 (c + 16 + 8 * k)) b
            rw [hx, Hit_congr hbm]; exact hit)
          h

theorem clear_marked_word (m : Mem) (b x : Nat) :
    clear_marked m b x = m x ∨ clear_marked m b x = m x &&& NOT_MARKED_MASK := by
  by_cases hx : x = b + 8
  · by_cases hc : b ≠ 0 ∧ m (b + 8) ≠ 0
    · right; subst hx; rw [clear_marked, if_pos hc, write_same]
    · left; rw [clear_marked, if_neg hc]
  · left; exact clear_marked_other m b x hx

theorem clear_marks_word :
    ∀ (fuel : Nat) (m : Mem) (p : Nat) (m1 : Mem), clear_marks fuel m p = some m1 →
      ∀ x, m1 x = m x ∨ m1 x = m x &&& NOT_MARKED_MASK := by
  intro fuel
  induction fuel with
  | zero => intro m p m1 h; exact absurd h (by simp [clear_marks])
  | succ n ih =>
    intro m p m1 h x
    rw [clear_marks] at h
    by_cases hp : p = 0
    · rw [if_pos hp] at h; cases h; left; rfl
    · rw [if_neg hp] at h
      rcases ih _ _ m1 h x with h1 | h1 <;> rcases clear_marked_word m p x with h2 | h2
      · left; rw [h1, h2]
      · right; rw [h1, h2]
      · right; rw [h1, h2]
      · right; rw [h1, h2, and_mask_and]

theorem clear_marks_exact (l : List Nat) :
    ∀ (m : Mem) (p fuel : Nat) (m1 : Mem), UsedChain m p l → clear_marks fuel m p = some m1 →
      ∀ a ∈ l, m1 (a + 8) = m (a + 8) &&& NOT_MARKED_MASK := by
  induction l with
  | nil => intro m p fuel m1 _ _ a ha; cases ha
  | cons c t ih =>
    intro m p fuel m1 hc h a ha
    simp only [UsedChain] at hc
    obtain ⟨hp, hc0, hct⟩ := hc
    cases fuel with
    | zero => exact absurd h (by simp [clear_marks])
    | succ n =>
      rw [clear_marks, hp, if_neg hc0] at h
      have hrel : MarkRel [c] m (clear_marked m c) := clear_marked_rel _ m c (by simp)
      by_cases hat : a ∈ t
      · have := ih (clear_marked m c) _ n m1 (by rw [hrel.actual c]; exact hrel.chain t hct) h
          a hat
        rw [this, hrel.2]
      · have hac : a = c := by
          rcases List.mem_cons.1 ha with e | e
          · exact e
          · exact absurd e hat
        rw [hac]
        have hw : (clear_marked m c) (c + 8) = m (c + 8) &&& NOT_MARKED_MASK := by
          by_cases hcc : c ≠ 0 ∧ m (c + 8) ≠ 0
          · rw [clear_marked, if_pos hcc, write_same]
          · rw [clear_marked, if_neg hcc]
            have : m (c + 8) = 0 := by
              by_contra hne
              exact hcc ⟨hc0, hne⟩
            rw [this, Nat.zero_and]
        rcases clear_marks_word _ _ _ m1 h (c + 8) with h1 | h1
        · rw [h1, hw]
        · rw [h1, hw, and_mask_and]

theorem UsedChain_last {m : Mem} (l : List Nat) :
    ∀ {p : Nat}, UsedChain m p l → l.Nodup → ∀ b ∈ l,
      (get_actual_pointer m b = 0 ↔ l.getLast? = some b) := by
  induction l with
  | nil => intro p _ _ b hb; cases hb
  | cons a t ih =>
    intro p h hnd b hb
    simp only [UsedChain] at h
    obtain ⟨_, _, hct⟩ := h
    have hnd2 := List.nodup_cons.1 hnd
    cases t with
    | nil =>
      simp only [UsedChain] at hct
      have hba : b = a := by simpa using hb
      rw [hba]
      simp [hct]
    | cons c t2 =>
      have hct2 := hct
      simp only [UsedChain] at hct2
      rw [List.getLast?_cons_cons]
      rcases List.mem_cons.1 hb with e | e
      · rw [e]
        constructor
        · intro h0
          rw [h0] at hct2
          exact absurd hct2.1.symm hct2.2.1
        · intro hl
          exact absurd (List.mem_of_getLast?_eq_some hl) hnd2.1
      · exact ih hct hnd2.2 b e

/-- One collection cycle on a well-formed state, with the exact set of blocks
that are marked when the sweep starts. -/
theorem gc_cycle_marks (s : State) (fl : List (Nat × Nat)) (ul : List Nat) (f : Nat)
    (hwf : WF s fl ul) (hrun : ¬ gc_skips s) (hbud : Budget f s fl ul) :
    ∃ m3 m4 fl4 ul4,
      gc_cycle f s = some { s with mem := m4, free_list := fl4, used_list := ul4 } ∧
      UsedChain m4 ul4 (ul.filter (fun a => is_marked m3 a)) ∧
      ∀ b ∈ ul, (is_marked m3 b = true ↔
        get_actual_pointer s.mem b ≠ 0 ∧ (StackRef s b ∨ HeapRef s ul b)) := by
  have hW : W = 18446744073709551616 := rfl
  obtain ⟨hfc, hok, huc, hbd, hpw, hdl, hse⟩ := hwf
  obtain ⟨hb1, hb2, hb3⟩ := hbud
  have hlm := FreeOK_mem s.empty hok
  have hne := UsedChain_ne_zero ul huc
  have hpf := pairwise_forall (fun a c => a + 16 * s.mem a ≤ c ∨ c + 16 * s.mem c ≤ a)
    (fun a b h => h.symm) hpw
  have hN : ∀ a ∈ ul, ∀ b ∈ ul, b ≠ a + 8 := by
    intro a ha b hb
    have h1 := hbd a ha
    have h2 := hbd b hb
    rcases hpf a ha b hb with rfl | h
    · omega
    · omega
  have hheap : ∀ a ∈ ul, ∀ x, a + 16 ≤ x → x < a + 16 * s.mem a → ∀ c ∈ ul, x ≠ c + 8 := by
    intro a ha x hx1 hx2 c hc
    have h1 := hbd a ha
    have h2 := hbd c hc
    rcases hpf a ha c hc with rfl | h
    · omega
    · omega
  have hstack : ∀ k, s.stack_start + 8 * k < s.stack_end →
      ∀ a ∈ ul, s.stack_start + 8 * k ≠ a + 8 := by
    intro k hk a ha
    have h1 := hbd a ha
    omega
  have hfree : ∀ e ∈ fl, ∀ a ∈ ul, e.1 ≠ a + 8 ∧ e.1 + 8 ≠ a + 8 := by
    intro e he a ha
    have h1 := hbd a ha
    have h2 := hlm e he
    have h3 := hdl a ha e he
    omega
  have hok8 : ∀ a ∈ ul, 1 ≤ s.mem a ∧ a + 16 * s.mem a + 8 ≤ W := fun a ha => by
    have := hbd a ha
    omega
  have hok0 : ∀ a ∈ ul, 1 ≤ s.mem a ∧ a + 16 * s.mem a < W := fun a ha => by
    have := hbd a ha
    exact ⟨this.1, this.2.1⟩
  -- phase 1
  obtain ⟨m1, hm1, hrel1, hun1⟩ := clear_marks_spec ul s.mem s.used_list f huc (by omega)
  have hex1 := clear_marks_exact ul s.mem s.used_list f m1 huc hm1
  have hsz1 : ∀ a ∈ ul, m1 a = s.mem a := fun a ha => hrel1.1 a (fun c hc => hN c hc a ha)
  -- phase 2
  obtain ⟨m2, hm2, hrel2, hfr2⟩ := scan_range_spec f s.stack_start s.stack_end
    { s with mem := m1 } ul (s.stack_end - s.stack_start) hse (by omega)
    (by simp only [gc_skips] at hrun; omega) hb2 hN (hrel1.chain ul huc) hstack
  have hrel12 := hrel1.trans hrel2
  have hsz2 : ∀ a ∈ ul, m2 a = s.mem a := fun a ha => hrel12.1 a (fun c hc => hN c hc a ha)
  -- phase 3
  obtain ⟨m3, hm3, hrel3, hfr3⟩ := scan_blocks_spec f ul s.mem (by omega) hb3 hN hok8 hheap ul
    (fun _ h => h) { s with mem := m2 } s.used_list f (hrel12.chain ul huc)
    (hrel12.chain ul huc) hsz2 (by omega)
  have hrel13 := hrel12.trans hrel3
  have hsz3 : ∀ a ∈ ul, m3 a = s.mem a := fun a ha => hrel13.1 a (fun c hc => hN c hc a ha)
  -- phase 4
  obtain ⟨m4, fl4, ul4, hsw, _, _, huc4, _, _, _⟩ := sweep_spec f s.empty
    (is_marked m3) s.mem ul { s with mem := m3 } fl 0 f s.used_list rfl
    (FreeChain_frame s.empty (fun e he =>
      ⟨hrel13.1 _ (fun a ha => (hfree e he a ha).1),
       hrel13.1 _ (fun a ha => (hfree e he a ha).2)⟩) hfc)
    hok (hrel13.chain ul huc) (fun a ha => ⟨hsz3 a ha, rfl⟩)
    (fun a ha => by have := hbd a ha; exact ⟨this.1, this.2.1, this.2.2.2.1⟩)
    hpw hdl (fun h => absurd rfl h) rfl (by omega) (by omega)
  refine ⟨m3, m4, fl4, ul4, ?_, by simpa using huc4, ?_⟩
  · simp only [gc_cycle, hm1, hm2, scan_heap, hm3]
    exact hsw
  intro b hb
  have hbb := hbd b hb
  have hb0 := hne b hb
  have hact : get_actual_pointer s.mem b = s.mem (b + 8) &&& NOT_MARKED_MASK := by
    rw [get_actual_pointer, if_pos hb0]
  have hdis : ∀ a ∈ ul, a ≠ b → a + 16 * s.mem a ≤ b ∨ b + 16 * s.mem b ≤ a := by
    intro a ha hab
    rcases hpf a ha b hb with e | h
    · exact absurd e hab
    · exact h
  constructor
  · intro hmk
    rw [is_marked_iff] at hmk
    constructor
    · intro h0
      rw [hact] at h0
      have h1 : m1 (b + 8) = 0 := by rw [hex1 b hb, h0]
      have h2 : m2 (b + 8) = 0 := (scan_range_up _ _ _ _ _ hm2 (b + 8)).1 h1
      have h3 : m3 (b + 8) = 0 := (scan_blocks_up _ _ _ _ _ hm3 (b + 8)).1 h2
      exact hmk.2.1 h3
    · by_contra hno
      have hns : ¬ StackRef s b := fun h => hno (Or.inl h)
      have hnh : ¬ HeapRef s ul b := fun h => hno (Or.inr h)
      have e3 : m3 (b + 8) = m2 (b + 8) := by
        apply hfr3 b hb
        intro a ha k hk
        show ¬ (is_pointer_valid (m2 (a + 16 + 8 * k)) = true ∧
          Hit m2 (m2 (a + 16 + 8 * k)) b)
        have hx : m2 (a + 16 + 8 * k) = s.mem (a + 16 + 8 * k) :=
          hrel12.1 _ (fun c hc => hheap a ha _ (by omega) hk c hc)
        rw [hx, Hit_congr (hsz2 b hb), Hit_iff s.mem _ b hbb.1 hbb.2.1]
        intro h
        exact hnh ⟨a, ha, k, hk, h.1, h.2.1, h.2.2⟩
      have e2 : m2 (b + 8) = m1 (b + 8) := by
        apply hfr2 b hb
        intro k hk
        show ¬ (is_pointer_valid (m1 (s.stack_start + 8 * k)) = true ∧
          Hit m1 (m1 (s.stack_start + 8 * k)) b)
        have hx : m1 (s.stack_start + 8 * k) = s.mem (s.stack_start + 8 * k) :=
          hrel1.1 _ (fun c hc => hstack k hk c hc)
        rw [hx, Hit_congr (hsz1 b hb), Hit_iff s.mem _ b hbb.1 hbb.2.1]
        intro h
        exact hns ⟨k, hk, h.1, h.2.1, h.2.2⟩
      have hu := hun1 b hb
      rw [← is_marked_congr (e3.trans e2), Bool.eq_false_iff] at hu
      exact hu ((is_marked_iff m3 b).2 hmk)
  · rintro ⟨hlink, href⟩
    rw [hact] at hlink
    have hnz3 : m3 (b + 8) ≠ 0 := and_mask_ne_zero (by rw [hrel13.2]; exact hlink)
    rw [is_marked_iff]
    refine ⟨hb0, hnz3, ?_⟩
    rcases href with ⟨k, hk, hv, hr1, hr2⟩ | ⟨a, ha, k, hk, hv, hr1, hr2⟩
    · have hx : m1 (s.stack_start + 8 * k) = s.mem (s.stack_start + 8 * k) :=
        hrel1.1 _ (fun c hc => hstack k hk c hc)
      have h2 : m2 (b + 8) % 2 = 1 := scan_range_hit f s.stack_start s.stack_end b
        { s with mem := m1 } { s with mem := m2 } ul s.mem hse (by omega) hb hN hok0 hdis
        (by simp only [gc_skips] at hrun; omega) (hrel1.chain ul huc) hsz1 hstack
        (by show m1 (b + 8) &&& NOT_MARKED_MASK ≠ 0; rw [hrel1.2]; exact hlink) k hk
        (by show is_pointer_valid (m1 (s.stack_start + 8 * k)) = true; rw [hx]; exact hv)
        (by
          show Hit m1 (m1 (s.stack_start + 8 * k)) b
          rw [hx, Hit_congr (hsz1 b hb), Hit_iff s.mem _ b hbb.1 hbb.2.1]
          exact ⟨hr1, hr2⟩) hm2
      exact (scan_blocks_up _ _ _ _ _ hm3 (b + 8)).2 h2
    · have hx : m2 (a + 16 + 8 * k) = s.mem (a + 16 + 8 * k) :=
        hrel12.1 _ (fun c hc => hheap a ha _ (by omega) hk c hc)
      exact scan_blocks_hit f b ul s.mem (by omega) hb3 hb hN hok8 hdis hheap ul (fun _ h => h)
        { s with mem := m2 } s.used_list f { s with mem := m3 } (hrel12.chain ul huc)
        (hrel12.chain ul huc) hsz2
        (by show m2 (b + 8) &&& NOT_MARKED_MASK ≠ 0; rw [hrel12.2]; exact hlink) a ha k hk
        (by show is_pointer_valid (m2 (a + 16 + 8 * k)) = true; rw [hx]; exact hv)
        (by
          show Hit m2 (m2 (a + 16 + 8 * k)) b
          rw [hx, Hit_congr (hsz2 b hb), Hit_iff s.mem _ b hbb.1 hbb.2.1]
          exact ⟨hr1, hr2⟩) hm3

/-- C18: on a well-formed state, after a non-skipped `gc` a block `b` of the used
list is still on it exactly when its unmasked link is not `NULL` (which holds
exactly when `b` is not the last node of the list) and some scanned word of the
stack range or some payload word of a used block (any of them, `b` included)
holds a valid candidate inside the payload of `b`; the kept blocks stay in their
order.  The condition mentions neither the position of `b` or of the referring
block in the list nor any chain of references. -/
theorem gc_survivors_exact (env : StackEnv) (s : State) (fl : List (Nat × Nat))
    (ul : List Nat) (f : Nat)
    (hwf : WF (gc_init env s) fl ul) (hrun : ¬ gc_skips (gc_init env s))
    (hbud : Budget f (gc_init env s) fl ul) :
    ∃ s2 ul2, gc env f s = some s2 ∧ UsedChain s2.mem s2.used_list ul2 ∧
      ul2.Sublist ul ∧
      (∀ b ∈ ul, (b ∈ ul2 ↔ get_actual_pointer s.mem b ≠ 0 ∧
        (StackRef (gc_init env s) b ∨ HeapRef (gc_init env s) ul b))) ∧
      (∀ b ∈ ul, (get_actual_pointer s.mem b ≠ 0 ↔ ul.getLast? ≠ some b)) := by
  have hm := (gc_init_mem env s).1
  obtain ⟨m3, m4, fl4, ul4, hgc, huc4, hiff⟩ := gc_cycle_marks (gc_init env s) fl ul f hwf hrun
    hbud
  obtain ⟨_, _, huc, hbd, hpw, _, _⟩ := hwf
  rw [hm] at hiff huc
  refine ⟨{ gc_init env s with mem := m4, free_list := fl4, used_list := ul4 }, _, ?_, huc4,
    List.filter_sublist _, ?_, ?_⟩
  · simp only [gc, if_neg hrun]; exact hgc
  · intro b hb
    rw [← hiff b hb, List.mem_filter]
    exact ⟨fun h => h.2, fun h => ⟨hb, h⟩⟩
  · intro b hb
    have hnd : ul.Nodup := by
      refine List.Pairwise.imp_of_mem ?_ hpw
      intro a c ha hc h e
      have := (hbd a ha).1
      have := (hbd c hc).1
      rw [e] at h
      omega
    rw [not_iff_not]
    exact UsedChain_last ul huc hnd b hb

theorem gc_survivors_exact_witness :
    ∃ s2 ul2, gc env_ok 40 newer_rooted = some s2 ∧ UsedChain s2.mem s2.used_list ul2 ∧
      ul2.Sublist [65568, 65536] ∧
      (∀ b ∈ [65568, 65536], (b ∈ ul2 ↔ get_actual_pointer newer_rooted.mem b ≠ 0 ∧
        (StackRef (gc_init env_ok newer_rooted) b ∨
          HeapRef (gc_init env_ok newer_rooted) [65568, 65536] b))) ∧
      (∀ b ∈ [65568, 65536],
        (get_actual_pointer newer_rooted.mem b ≠ 0 ↔ [65568, 65536].getLast? ≠ some b)) :=
  gc_survivors_exact env_ok newer_rooted [(65600, 252)] [65568, 65536] 40
    (by decide) (by decide) (by decide)

end GC
